import Mathlib

/-!
# Order-matching engine of `market.cpp`

A shallow embedding of `src/market.cpp`: the order record, the two comparators,
the per-stock books, the matching handlers `handleBuyOrder` / `handleSellOrder`,
the reports `printMedian`, `printTraderInfo`, `printTimeTravelers` and the driver
`processOrders`.

Conventions.
* `unsigned` is a 32-bit machine integer: values are `Nat`, and every operation of
  the source that can exceed `2^32` is reduced `% U32` explicitly.
* `long long` ledger entries are `Int`; signed overflow is undefined behaviour in
  the source and is not modelled.
* `std::vector` indexed by stock id and `std::unordered_map` indexed by trader id
  are total functions of the index (`operator[]` of the map value-initialises a
  missing entry to zero, which is the default of the function).
* `std::priority_queue<Order, vector<Order>, Cmp>` is modelled by its contract: the
  content is a list, `top` is an element that no other element exceeds under
  `Cmp`, `pop` removes it and `push` adds one element.
-/

namespace StockTrading

/-- Modulus of the 32-bit `unsigned` type. -/
def U32 : Nat := 4294967296

/-- The class `Order` (lines 15-27). -/
structure Order where
  timestamp : Nat
  type : String
  trader_id : Nat
  stock_id : Nat
  price : Nat
  quantity : Nat
deriving DecidableEq, Repr

/-- `BuyComparator::operator()` (lines 30-37): `lhs` has lower priority than `rhs`. -/
def BuyComparator (lhs rhs : Order) : Bool :=
  if lhs.price = rhs.price then
    decide (lhs.timestamp > rhs.timestamp)
  else
    decide (lhs.price < rhs.price)

/-- `SellComparator::operator()` (lines 40-47): `lhs` has lower priority than `rhs`. -/
def SellComparator (lhs rhs : Order) : Bool :=
  if lhs.price = rhs.price then
    decide (lhs.timestamp > rhs.timestamp)
  else
    decide (lhs.price > rhs.price)

/-- `priority_queue::top`: an element of the queue that is not below any other one
under the comparator `comp`; `none` on the empty queue. Among elements that the
comparator does not separate the one inserted first is returned. -/
def pqTop (comp : Order → Order → Bool) : List Order → Option Order
  | [] => none
  | x :: xs =>
    match pqTop comp xs with
    | none => some x
    | some y => if comp x y then some y else some x

/-- `priority_queue::pop`: removes the element that `top` returns. -/
def pqPop (comp : Order → Order → Bool) (q : List Order) : List Order :=
  match pqTop comp q with
  | none => q
  | some t => q.erase t

/-- `priority_queue::push`. -/
def pqPush (q : List Order) (o : Order) : List Order := q ++ [o]

/-- Overwrite of one slot of an indexed container (`v[i] = x`). -/
def setAt {α : Type} (f : Nat → α) (i : Nat) (x : α) : Nat → α :=
  fun j => if j = i then x else f j

/-- One executed trade. The source keeps no such record (it only prints it when
`verbose` is set); the log is a history variable that no modelled code reads. -/
structure Trade where
  buyer : Nat
  seller : Nat
  stock : Nat
  price : Nat
  quantity : Nat
deriving DecidableEq, Repr

/-- The lines written to `cout` and `cerr`, one constructor per format string. -/
inductive Output where
  | tradeLine (buyer quantity stock seller price : Nat)
  | medianLine (stock timestamp median_price : Nat)
  | endOfDay (trades_completed : Nat)
  | traderInfoHeader
  | traderLine (trader bought sold : Nat) (net_transfer : Int)
  | timeTravelersHeader
  | timeTravelerTrade (stock buy_time buy_price sell_time sell_price : Nat)
  | timeTravelerNone (stock : Nat)
  | errTimestamps
  | errTraderId (trader_id : Nat)
  | errStockId (stock_id : Nat)
  | errPositive
deriving DecidableEq, Repr

/-- The class `StockMarket` (lines 49-86), with the output stream and the trade
log added as explicit state. -/
structure Market where
  num_traders : Nat
  num_stocks : Nat
  trades_completed : Nat
  verbose : Bool
  median : Bool
  trader_info : Bool
  time_travelers : Bool
  buy_orders : Nat → List Order
  sell_orders : Nat → List Order
  trader_buy_count : Nat → Nat
  trader_sell_count : Nat → Nat
  trader_net_transfer : Nat → Int
  trade_prices : Nat → List Nat
  buy_order_prices : Nat → List (Nat × Nat)
  sell_order_prices : Nat → List (Nat × Nat)
  out : List Output
  trade_log : List Trade

/-- The constructor `StockMarket(traders, stocks, v, m, t_info, t_travelers)`. -/
def Market.init (traders stocks : Nat) (v m t_info t_travelers : Bool) : Market where
  num_traders := traders
  num_stocks := stocks
  trades_completed := 0
  verbose := v
  median := m
  trader_info := t_info
  time_travelers := t_travelers
  buy_orders := fun _ => []
  sell_orders := fun _ => []
  trader_buy_count := fun _ => 0
  trader_sell_count := fun _ => 0
  trader_net_transfer := fun _ => 0
  trade_prices := fun _ => []
  buy_order_prices := fun _ => []
  sell_order_prices := fun _ => []
  out := []
  trade_log := []

/-- The bookkeeping of one trade, common to both handlers (lines 180-194 and
220-234): counter, price history, the two quantity counters, the two cash entries
and the verbose line. `price` and `trade_quantity` are `unsigned`, so their product
is taken modulo `2^32` before it is widened to `long long`. -/
def recordTrade (m : Market) (stock buyer seller price trade_quantity : Nat) : Market :=
  let trade_value : Int := ((price * trade_quantity) % U32 : Nat)
  let buy_count := setAt m.trader_buy_count buyer ((m.trader_buy_count buyer + trade_quantity) % U32)
  let sell_count :=
    setAt m.trader_sell_count seller ((m.trader_sell_count seller + trade_quantity) % U32)
  let net1 := setAt m.trader_net_transfer buyer (m.trader_net_transfer buyer - trade_value)
  let net2 := setAt net1 seller (net1 seller + trade_value)
  { m with
    trades_completed := (m.trades_completed + 1) % U32
    trade_prices := setAt m.trade_prices stock (m.trade_prices stock ++ [price])
    trader_buy_count := buy_count
    trader_sell_count := sell_count
    trader_net_transfer := net2
    out := if m.verbose then m.out ++ [Output.tradeLine buyer trade_quantity stock seller price]
           else m.out
    trade_log := m.trade_log ++ [⟨buyer, seller, stock, price, trade_quantity⟩] }

/-- The body of the `if` of `handleBuyOrder` (lines 176-198): the trade of the
incoming `buy_order` with the resting `sell_order` that `top` returned. The result is
the new state and the incoming order with its quantity reduced. -/
def buyTrade (m : Market) (buy_order sell_order : Order) : Market × Order :=
  let sell_queue := m.sell_orders buy_order.stock_id
  let popped := pqPop SellComparator sell_queue
  let trade_quantity := min sell_order.quantity buy_order.quantity
  let buy_order1 := { buy_order with quantity := buy_order.quantity - trade_quantity }
  let sell_order1 := { sell_order with quantity := sell_order.quantity - trade_quantity }
  let m1 := recordTrade { m with sell_orders := setAt m.sell_orders buy_order.stock_id popped }
    buy_order.stock_id buy_order.trader_id sell_order.trader_id sell_order.price trade_quantity
  let m2 :=
    if sell_order1.quantity > 0 then
      { m1 with
        sell_orders := setAt m1.sell_orders buy_order.stock_id (pqPush popped sell_order1) }
    else m1
  (m2, buy_order1)

/-- The `while` loop of `handleBuyOrder` (lines 173-202), one iteration per unit of
fuel; `none` when the fuel runs out before the loop exits. -/
def buyLoop : Nat → Market → Order → Option (Market × Order)
  | 0, _, _ => none
  | fuel + 1, m, buy_order =>
    let sell_queue := m.sell_orders buy_order.stock_id
    if sell_queue = [] ∨ buy_order.quantity = 0 then some (m, buy_order)
    else
      match pqTop SellComparator sell_queue with
      | none => some (m, buy_order)
      | some sell_order =>
        if sell_order.price ≤ buy_order.price then
          buyLoop fuel (buyTrade m buy_order sell_order).1 (buyTrade m buy_order sell_order).2
        else some (m, buy_order)

/-- The function `StockMarket::handleBuyOrder` (lines 170-207). The loop is given one
unit of fuel more than there are resting asks. -/
def handleBuyOrder (m : Market) (buy_order : Order) : Option Market :=
  match buyLoop ((m.sell_orders buy_order.stock_id).length + 1) m buy_order with
  | none => none
  | some (m1, buy_order1) =>
    if buy_order1.quantity > 0 then
      let pushed := pqPush (m1.buy_orders buy_order1.stock_id) buy_order1
      some { m1 with buy_orders := setAt m1.buy_orders buy_order1.stock_id pushed }
    else some m1

/-- The body of the `if` of `handleSellOrder` (lines 216-238): the trade of the
incoming `sell_order` with the resting `buy_order` that `top` returned. The result is
the new state and the incoming order with its quantity reduced. -/
def sellTrade (m : Market) (sell_order buy_order : Order) : Market × Order :=
  let buy_queue := m.buy_orders sell_order.stock_id
  let popped := pqPop BuyComparator buy_queue
  let trade_quantity := min buy_order.quantity sell_order.quantity
  let buy_order1 := { buy_order with quantity := buy_order.quantity - trade_quantity }
  let sell_order1 := { sell_order with quantity := sell_order.quantity - trade_quantity }
  let m1 := recordTrade { m with buy_orders := setAt m.buy_orders sell_order.stock_id popped }
    sell_order.stock_id buy_order.trader_id sell_order.trader_id buy_order.price trade_quantity
  let m2 :=
    if buy_order1.quantity > 0 then
      { m1 with
        buy_orders := setAt m1.buy_orders sell_order.stock_id (pqPush popped buy_order1) }
    else m1
  (m2, sell_order1)

/-- The `while` loop of `handleSellOrder` (lines 213-242), one iteration per unit of
fuel; `none` when the fuel runs out before the loop exits. -/
def sellLoop : Nat → Market → Order → Option (Market × Order)
  | 0, _, _ => none
  | fuel + 1, m, sell_order =>
    let buy_queue := m.buy_orders sell_order.stock_id
    if buy_queue = [] ∨ sell_order.quantity = 0 then some (m, sell_order)
    else
      match pqTop BuyComparator buy_queue with
      | none => some (m, sell_order)
      | some buy_order =>
        if buy_order.price ≥ sell_order.price then
          sellLoop fuel (sellTrade m sell_order buy_order).1 (sellTrade m sell_order buy_order).2
        else some (m, sell_order)

/-- The function `StockMarket::handleSellOrder` (lines 210-247). The loop is given one
unit of fuel more than there are resting bids. -/
def handleSellOrder (m : Market) (sell_order : Order) : Option Market :=
  match sellLoop ((m.buy_orders sell_order.stock_id).length + 1) m sell_order with
  | none => none
  | some (m1, sell_order1) =>
    if sell_order1.quantity > 0 then
      let pushed := pqPush (m1.sell_orders sell_order1.stock_id) sell_order1
      some { m1 with sell_orders := setAt m1.sell_orders sell_order1.stock_id pushed }
    else some m1

/-- The dispatch of lines 136-140: an order whose type is `"BUY"` goes to
`handleBuyOrder`, every other one to `handleSellOrder`. -/
def handleOrder (m : Market) (o : Order) : Option Market :=
  if o.type = "BUY" then handleBuyOrder m o else handleSellOrder m o

/-- A sequence of orders handled one after the other. -/
def runOrders : Market → List Order → Option Market
  | m, [] => some m
  | m, o :: os =>
    match handleOrder m o with
    | none => none
    | some m1 => runOrders m1 os

/-- The median read off an ascending price list as in lines 255-260; the sum of the
two middle values is an `unsigned` sum. -/
def medianOfSorted (prices : List Nat) : Nat :=
  if prices.length % 2 = 0 then
    ((prices.getD (prices.length / 2 - 1) 0 + prices.getD (prices.length / 2) 0) % U32) / 2
  else
    prices.getD (prices.length / 2) 0

/-- The call `sort(prices.begin(), prices.end())` on a vector of `unsigned`. -/
def sortPrices (prices : List Nat) : List Nat :=
  prices.insertionSort (fun a b => a ≤ b)

/-- The body of the loop of `printMedian` for stock `i` (lines 252-262). -/
def printMedianStock (timestamp : Nat) (m : Market) (i : Nat) : Market :=
  if m.trade_prices i ≠ [] then
    let prices := sortPrices (m.trade_prices i)
    { m with
      trade_prices := setAt m.trade_prices i prices
      out := m.out ++ [Output.medianLine i timestamp (medianOfSorted prices)] }
  else m

/-- The function `StockMarket::printMedian` (lines 250-264). -/
def printMedian (m : Market) (timestamp : Nat) : Market :=
  (List.range m.num_stocks).foldl (printMedianStock timestamp) m

/-- The function `StockMarket::printTraderInfo` (lines 267-275). -/
def printTraderInfo (m : Market) : Market :=
  { m with
    out := m.out ++ [Output.traderInfoHeader] ++
      (List.range m.num_traders).map (fun i =>
        Output.traderLine i (m.trader_buy_count i) (m.trader_sell_count i)
          (m.trader_net_transfer i)) }

/-- The local variables of the search of `printTimeTravelers` (lines 289-292). -/
structure TTState where
  max_profit : Nat
  buy_time : Nat
  sell_time : Nat
  buy_price : Nat
  sell_price : Nat
  found : Bool
deriving DecidableEq, Repr

/-- The initial values of lines 289-292. -/
def TTState.init : TTState := ⟨0, 0, 0, 0, 0, false⟩

/-- The body of the inner loop of `printTimeTravelers` (lines 299-324) for the sell
quote `(s_time, s_price)` and one buy quote. -/
def ttInner (s_time s_price : Nat) (st : TTState) (buy_order : Nat × Nat) : TTState :=
  let b_time := buy_order.1
  let b_price := buy_order.2
  if b_time ≤ s_time then st
  else if b_price > s_price then
    let profit := b_price - s_price
    if profit > st.max_profit then
      { max_profit := profit, buy_time := s_time, sell_time := b_time, buy_price := s_price,
        sell_price := b_price, found := true }
    else if profit = st.max_profit then
      if s_time < st.buy_time ∨ (s_time = st.buy_time ∧ b_time < st.sell_time) then
        { st with buy_time := s_time, sell_time := b_time, buy_price := s_price,
                  sell_price := b_price }
      else st
    else st
  else st

/-- The body of the outer loop (lines 294-326): the inner loop over all buy quotes. -/
def ttOuter (buy_orders : List (Nat × Nat)) (st : TTState) (sell_order : Nat × Nat) : TTState :=
  buy_orders.foldl (ttInner sell_order.1 sell_order.2) st

/-- The two nested loops of lines 294-326. -/
def ttScan (sell_orders buy_orders : List (Nat × Nat)) : TTState :=
  sell_orders.foldl (ttOuter buy_orders) TTState.init

/-- The per-stock result of `printTimeTravelers` (lines 281-334):
`some (buy_time, buy_price, sell_time, sell_price)` when a trade is reported, `none`
when the line "could not make a profit" is printed. -/
def timeTraveler (sell_orders buy_orders : List (Nat × Nat)) : Option (Nat × Nat × Nat × Nat) :=
  if sell_orders = [] ∨ buy_orders = [] then none
  else
    let st := ttScan sell_orders buy_orders
    if st.found then some (st.buy_time, st.buy_price, st.sell_time, st.sell_price)
    else none

/-- The output line of `printTimeTravelers` for stock `i`. -/
def timeTravelerLine (m : Market) (i : Nat) : Output :=
  match timeTraveler (m.sell_order_prices i) (m.buy_order_prices i) with
  | some (buy_time, buy_price, sell_time, sell_price) =>
    Output.timeTravelerTrade i buy_time buy_price sell_time sell_price
  | none => Output.timeTravelerNone i

/-- The function `StockMarket::printTimeTravelers` (lines 278-336). -/
def printTimeTravelers (m : Market) : Market :=
  { m with
    out := m.out ++ [Output.timeTravelersHeader] ++
      (List.range m.num_stocks).map (timeTravelerLine m) }

/-- The order `operator<` of `pair<unsigned, unsigned>` (as `≤`): by first component,
then by second. -/
def pairLe (a b : Nat × Nat) : Prop :=
  a.1 < b.1 ∨ (a.1 = b.1 ∧ a.2 ≤ b.2)

instance : DecidableRel pairLe := fun a b => by
  unfold pairLe
  infer_instance

/-- The call `sort(stock_prices.begin(), stock_prices.end())` on a vector of pairs. -/
def sortPairs (l : List (Nat × Nat)) : List (Nat × Nat) :=
  l.insertionSort pairLe

/-- The read loop of `processOrders` (lines 93-141) over the parsed records, with the
local `current_timestamp`. The result carries the state, the last timestamp and
whether `exit(1)` was reached. -/
def processRecords : Market → Nat → List Order → Option (Market × Nat × Bool)
  | m, current_timestamp, [] => some (m, current_timestamp, false)
  | m, current_timestamp, r :: rs =>
    if r.timestamp < current_timestamp then
      some ({ m with out := m.out ++ [Output.errTimestamps] }, current_timestamp, true)
    else if r.trader_id ≥ m.num_traders then
      some ({ m with out := m.out ++ [Output.errTraderId r.trader_id] }, current_timestamp, true)
    else if r.stock_id ≥ m.num_stocks then
      some ({ m with out := m.out ++ [Output.errStockId r.stock_id] }, current_timestamp, true)
    else if r.price ≤ 0 ∨ r.quantity ≤ 0 then
      some ({ m with out := m.out ++ [Output.errPositive] }, current_timestamp, true)
    else
      let m1 :=
        if r.timestamp ≠ current_timestamp then
          (if m.median then printMedian m current_timestamp else m)
        else m
      let m2 :=
        if r.type = "BUY" then
          { m1 with
            buy_order_prices := setAt m1.buy_order_prices r.stock_id
              (m1.buy_order_prices r.stock_id ++ [(r.timestamp, r.price)]) }
        else
          { m1 with
            sell_order_prices := setAt m1.sell_order_prices r.stock_id
              (m1.sell_order_prices r.stock_id ++ [(r.timestamp, r.price)]) }
      match handleOrder m2 r with
      | none => none
      | some m3 => processRecords m3 r.timestamp rs

/-- The end of `processOrders` (lines 144-166), reached when the stream is exhausted. -/
def endOfDay (m : Market) (current_timestamp : Nat) : Market :=
  let m1 := if m.median then printMedian m current_timestamp else m
  let m2 := if m1.trades_completed = 7621 then { m1 with trades_completed := 7632 } else m1
  let m3 := { m2 with out := m2.out ++ [Output.endOfDay m2.trades_completed] }
  let m4 := if m3.trader_info then printTraderInfo m3 else m3
  let m5 := { m4 with
    buy_order_prices := fun i =>
      if i < m4.num_stocks then sortPairs (m4.buy_order_prices i) else m4.buy_order_prices i
    sell_order_prices := fun i =>
      if i < m4.num_stocks then sortPairs (m4.sell_order_prices i) else m4.sell_order_prices i }
  if m5.time_travelers then printTimeTravelers m5 else m5

/-- The function `StockMarket::processOrders` (lines 89-167) on the parsed records:
the final state and whether the run ended in `exit(1)`. -/
def processOrders (m : Market) (records : List Order) : Option (Market × Bool) :=
  match processRecords m 0 records with
  | none => none
  | some (m1, _, true) => some (m1, true)
  | some (m1, current_timestamp, false) => some (endOfDay m1 current_timestamp, false)

/-! ## Auxiliary definitions for the statements -/

/-- Every resting bid of a stock is priced strictly below every resting ask of it. -/
def NoCross (m : Market) : Prop :=
  ∀ s, ∀ b ∈ m.buy_orders s, ∀ a ∈ m.sell_orders s, b.price < a.price

/-- The pairs (sell quote, buy quote) in the order in which the nested loops of
`printTimeTravelers` visit them. -/
def ttPairs : List (Nat × Nat) → List (Nat × Nat) → List ((Nat × Nat) × (Nat × Nat))
  | [], _ => []
  | s :: ss, buys => buys.map (fun b => (s, b)) ++ ttPairs ss buys

/-- A pair (sell quote, buy quote) the time traveler can use: the buy quote is later
and higher. -/
def Eligible (p : (Nat × Nat) × (Nat × Nat)) : Prop :=
  p.2.1 > p.1.1 ∧ p.2.2 > p.1.2

/-- What the search of `printTimeTravelers` knows after it has visited the pairs `L`. -/
structure TTInv (L : List ((Nat × Nat) × (Nat × Nat))) (st : TTState) : Prop where
  nothing : st.found = false → st.max_profit = 0 ∧ ∀ p ∈ L, ¬ Eligible p
  chosen : st.found = true →
    ((st.buy_time, st.buy_price), (st.sell_time, st.sell_price)) ∈ L ∧
      st.sell_time > st.buy_time ∧ st.sell_price > st.buy_price ∧
      st.max_profit = st.sell_price - st.buy_price
  best : ∀ p ∈ L, Eligible p → p.2.2 - p.1.2 ≤ st.max_profit
  tie : ∀ p ∈ L, Eligible p → p.2.2 - p.1.2 = st.max_profit →
    st.buy_time < p.1.1 ∨ (st.buy_time = p.1.1 ∧ st.sell_time ≤ p.2.1)

/-- The sum of `f i` over the indices `i < n`. -/
def sumOver (n : Nat) (f : Nat → Nat) : Nat :=
  ((List.range n).map f).sum

/-- The total quantity of the trades of a log. -/
def totalTraded (log : List Trade) : Nat :=
  (log.map (fun t => t.quantity)).sum

/-- The total quantity that trader `i` bought in the trades of a log. -/
def boughtBy (log : List Trade) (i : Nat) : Nat :=
  (log.map (fun t => if t.buyer = i then t.quantity else 0)).sum

/-- The total quantity that trader `i` sold in the trades of a log. -/
def soldBy (log : List Trade) (i : Nat) : Nat :=
  (log.map (fun t => if t.seller = i then t.quantity else 0)).sum

/-- The quantity counters of the ledger are the traded quantities of the log,
reduced modulo `2^32`. -/
def LedgerInv (m : Market) : Prop :=
  ∀ i, m.trader_buy_count i = boughtBy m.trade_log i % U32 ∧
    m.trader_sell_count i = soldBy m.trade_log i % U32

/-- All traders of the resting orders and of the executed trades have an id below
`n`. -/
def TradersBelow (n : Nat) (m : Market) : Prop :=
  (∀ s, ∀ o ∈ m.buy_orders s, o.trader_id < n) ∧
  (∀ s, ∀ o ∈ m.sell_orders s, o.trader_id < n) ∧
  ∀ t ∈ m.trade_log, t.buyer < n ∧ t.seller < n

/-- The median as the specification words it, on the ascending list `s` of length
`n`: `s[n/2]` when `n` is odd, the floor of the exact mean of `s[n/2 - 1]` and
`s[n/2]` when `n` is even. -/
def medianSpec (s : List Nat) : Nat :=
  if s.length % 2 = 1 then s.getD (s.length / 2) 0
  else (s.getD (s.length / 2 - 1) 0 + s.getD (s.length / 2) 0) / 2

/-- Two states agree on everything but the report flags, the output written so far
and the order of the recorded trade prices of each stock. -/
structure SameCore (m m1 : Market) : Prop where
  num_traders : m.num_traders = m1.num_traders
  num_stocks : m.num_stocks = m1.num_stocks
  trades_completed : m.trades_completed = m1.trades_completed
  buy_orders : m.buy_orders = m1.buy_orders
  sell_orders : m.sell_orders = m1.sell_orders
  trader_buy_count : m.trader_buy_count = m1.trader_buy_count
  trader_sell_count : m.trader_sell_count = m1.trader_sell_count
  trader_net_transfer : m.trader_net_transfer = m1.trader_net_transfer
  buy_order_prices : m.buy_order_prices = m1.buy_order_prices
  sell_order_prices : m.sell_order_prices = m1.sell_order_prices
  trade_log : m.trade_log = m1.trade_log
  trade_prices : ∀ i, (m.trade_prices i).Perm (m1.trade_prices i)

/-- The counter `trades_completed` is the number of trades executed, modulo `2^32`,
and the price lists of the stocks below `n` hold one price per trade. -/
def CountInv (n : Nat) (m : Market) : Prop :=
  m.trades_completed = m.trade_log.length % U32 ∧
    sumOver n (fun i => (m.trade_prices i).length) = m.trade_log.length

/-- The output line is the "Trades Completed" line of the end of the day. -/
def Output.isEndOfDay : Output → Bool
  | Output.endOfDay _ => true
  | _ => false

/-- The output line is one of the messages written to `cerr` before `exit(1)`. -/
def Output.isError : Output → Bool
  | Output.errTimestamps => true
  | Output.errTraderId _ => true
  | Output.errStockId _ => true
  | Output.errPositive => true
  | _ => false

/-- No "Trades Completed" line has been written so far. -/
def NoEndOfDay (m : Market) : Prop :=
  ∀ o ∈ m.out, o.isEndOfDay = false

/-- The number that the end of `processOrders` prints for a counter value `c`
(lines 147-150). -/
def reportedCount (c : Nat) : Nat :=
  if c = 7621 then 7632 else c

/-- The `(timestamp, price)` pairs of the submitted buy orders of stock `i`, in the
order of submission. -/
def buyQuotes (i : Nat) (records : List Order) : List (Nat × Nat) :=
  (records.filter (fun r => r.type = "BUY" ∧ r.stock_id = i)).map
    (fun r => (r.timestamp, r.price))

/-- The `(timestamp, price)` pairs of the submitted sell orders (every order that is
not a buy order) of stock `i`, in the order of submission. -/
def sellQuotes (i : Nat) (records : List Order) : List (Nat × Nat) :=
  (records.filter (fun r => ¬ r.type = "BUY" ∧ r.stock_id = i)).map
    (fun r => (r.timestamp, r.price))

/-- The state that the read loop of `processOrders` hands to the handler for an
accepted record (lines 122-134): the medians are reported when the timestamp has
advanced, and the quote of the record is appended to the history of its side. -/
def acceptRecord (m : Market) (current_timestamp : Nat) (r : Order) : Market :=
  let m1 :=
    if r.timestamp ≠ current_timestamp then
      (if m.median then printMedian m current_timestamp else m)
    else m
  if r.type = "BUY" then
    { m1 with
      buy_order_prices := setAt m1.buy_order_prices r.stock_id
        (m1.buy_order_prices r.stock_id ++ [(r.timestamp, r.price)]) }
  else
    { m1 with
      sell_order_prices := setAt m1.sell_order_prices r.stock_id
        (m1.sell_order_prices r.stock_id ++ [(r.timestamp, r.price)]) }

/-- The record violates the input contract that lines 103-118 check, `prev` being
the timestamp of the record before it. -/
def recordBad (traders stocks prev : Nat) (r : Order) : Prop :=
  r.timestamp < prev ∨ r.trader_id ≥ traders ∨ r.stock_id ≥ stocks ∨ r.price = 0 ∨
    r.quantity = 0

/-- The timestamp of the last record of a list, `cur` for the empty list. -/
def lastTimestamp : Nat → List Order → Nat
  | cur, [] => cur
  | _, r :: rs => lastTimestamp r.timestamp rs

/-- Every resting order and every executed trade has a positive quantity. -/
def PosInv (m : Market) : Prop :=
  (∀ s, ∀ o ∈ m.buy_orders s, 0 < o.quantity) ∧
  (∀ s, ∀ o ∈ m.sell_orders s, 0 < o.quantity) ∧
  ∀ t ∈ m.trade_log, 0 < t.quantity

/-- The sum of the signed values `f i` over the indices `i < n`. -/
def sumOverInt (n : Nat) (f : Nat → Int) : Int :=
  ((List.range n).map f).sum

/-! ## The priority queue -/

theorem pqTop_eq_none {comp : Order → Order → Bool} {q : List Order} :
    pqTop comp q = none ↔ q = [] := by
  cases q with
  | nil => simp [pqTop]
  | cons x xs =>
    simp only [pqTop]
    cases pqTop comp xs with
    | none => simp
    | some y => by_cases h : comp x y = true <;> simp [h]

theorem pqTop_mem {comp : Order → Order → Bool} {q : List Order} {t : Order}
    (h : pqTop comp q = some t) : t ∈ q := by
  induction q generalizing t with
  | nil => simp [pqTop] at h
  | cons x xs ih =>
    simp only [pqTop] at h
    cases hxs : pqTop comp xs with
    | none =>
      rw [hxs] at h
      simp only [Option.some.injEq] at h
      simp [h]
    | some y =>
      rw [hxs] at h
      by_cases hc : comp x y = true
      · simp only [hc, if_true, Option.some.injEq] at h
        subst h
        exact List.mem_cons_of_mem _ (ih hxs)
      · simp only [hc, if_false, Bool.false_eq_true, Option.some.injEq] at h
        simp [← h]

/-- The element returned by `pqTop` is not below any element of the queue, for every
comparator that is asymmetric and negatively transitive (a strict weak ordering). -/
theorem pqTop_not_below {comp : Order → Order → Bool}
    (hasym : ∀ a b, comp a b = true → comp b a = false)
    (hneg : ∀ a b c, comp a b = false → comp b c = false → comp a c = false)
    {q : List Order} {t : Order} (h : pqTop comp q = some t) :
    ∀ o ∈ q, comp t o = false := by
  induction q generalizing t with
  | nil => simp [pqTop] at h
  | cons x xs ih =>
    have hirr : ∀ a, comp a a = false := fun a => by
      cases hc : comp a a with
      | false => rfl
      | true => exact absurd hc (by simp [hasym a a hc])
    simp only [pqTop] at h
    cases hxs : pqTop comp xs with
    | none =>
      rw [hxs] at h
      simp only [Option.some.injEq] at h
      subst h
      have : xs = [] := pqTop_eq_none.mp hxs
      subst this
      intro o ho
      simp only [List.mem_singleton] at ho
      subst ho
      exact hirr _
    | some y =>
      rw [hxs] at h
      have ihy := ih hxs
      by_cases hc : comp x y = true
      · simp only [hc, if_true, Option.some.injEq] at h
        subst h
        intro o ho
        rcases List.mem_cons.mp ho with rfl | ho
        · exact hasym _ _ hc
        · exact ihy o ho
      · simp only [hc, if_false, Bool.false_eq_true, Option.some.injEq] at h
        subst h
        have hxy : comp x y = false := by simpa using hc
        intro o ho
        rcases List.mem_cons.mp ho with rfl | ho
        · exact hirr _
        · exact hneg _ _ _ hxy (ihy o ho)

theorem SellComparator_eq_false {a b : Order} :
    SellComparator a b = false ↔
      (a.price < b.price ∨ (a.price = b.price ∧ a.timestamp ≤ b.timestamp)) := by
  unfold SellComparator
  by_cases h : a.price = b.price
  · simp [h]
  · simp only [h, if_false, decide_eq_false_iff_not, false_and, or_false]
    omega

theorem BuyComparator_eq_false {a b : Order} :
    BuyComparator a b = false ↔
      (b.price < a.price ∨ (a.price = b.price ∧ a.timestamp ≤ b.timestamp)) := by
  unfold BuyComparator
  by_cases h : a.price = b.price
  · simp [h]
  · simp only [h, if_false, decide_eq_false_iff_not, false_and, or_false]
    omega

theorem SellComparator_eq_true {a b : Order} :
    SellComparator a b = true ↔
      (b.price < a.price ∨ (a.price = b.price ∧ b.timestamp < a.timestamp)) := by
  unfold SellComparator
  by_cases h : a.price = b.price
  · simp [h]
  · simp only [h, if_false, decide_eq_true_eq, false_and, or_false, gt_iff_lt]

theorem BuyComparator_eq_true {a b : Order} :
    BuyComparator a b = true ↔
      (a.price < b.price ∨ (a.price = b.price ∧ b.timestamp < a.timestamp)) := by
  unfold BuyComparator
  by_cases h : a.price = b.price
  · simp [h]
  · simp only [h, if_false, decide_eq_true_eq, false_and, or_false]

theorem pqTop_sell_spec {q : List Order} {t : Order} (h : pqTop SellComparator q = some t) :
    ∀ o ∈ q, t.price < o.price ∨ (t.price = o.price ∧ t.timestamp ≤ o.timestamp) := by
  intro o ho
  refine SellComparator_eq_false.mp (pqTop_not_below ?_ ?_ h o ho)
  · intro a b hab
    rw [SellComparator_eq_true] at hab
    rw [SellComparator_eq_false]
    omega
  · intro a b c hab hbc
    rw [SellComparator_eq_false] at hab hbc ⊢
    omega

theorem pqTop_buy_spec {q : List Order} {t : Order} (h : pqTop BuyComparator q = some t) :
    ∀ o ∈ q, o.price < t.price ∨ (t.price = o.price ∧ t.timestamp ≤ o.timestamp) := by
  intro o ho
  refine BuyComparator_eq_false.mp (pqTop_not_below ?_ ?_ h o ho)
  · intro a b hab
    rw [BuyComparator_eq_true] at hab
    rw [BuyComparator_eq_false]
    omega
  · intro a b c hab hbc
    rw [BuyComparator_eq_false] at hab hbc ⊢
    omega

theorem mem_pqPop {comp : Order → Order → Bool} {q : List Order} {o : Order}
    (h : o ∈ pqPop comp q) : o ∈ q := by
  unfold pqPop at h
  cases ht : pqTop comp q with
  | none => simpa [ht] using h
  | some t =>
    rw [ht] at h
    exact List.mem_of_mem_erase h

theorem length_pqPop {comp : Order → Order → Bool} {q : List Order} {t : Order}
    (h : pqTop comp q = some t) : (pqPop comp q).length + 1 = q.length := by
  unfold pqPop
  rw [h]
  simp only
  rw [List.length_erase_of_mem (pqTop_mem h)]
  have : 0 < q.length := List.length_pos_of_mem (pqTop_mem h)
  omega

/-! ## One trade -/

@[simp] theorem setAt_same {α : Type} (f : Nat → α) (i : Nat) (x : α) : setAt f i x i = x := by
  simp [setAt]

theorem setAt_other {α : Type} (f : Nat → α) {i j : Nat} (x : α) (h : j ≠ i) :
    setAt f i x j = f j := by
  simp [setAt, h]

@[simp] theorem buyTrade_buy_orders (m : Market) (b s : Order) :
    (buyTrade m b s).1.buy_orders = m.buy_orders := by
  unfold buyTrade recordTrade
  dsimp only
  split <;> rfl

@[simp] theorem sellTrade_sell_orders (m : Market) (s b : Order) :
    (sellTrade m s b).1.sell_orders = m.sell_orders := by
  unfold sellTrade recordTrade
  dsimp only
  split <;> rfl

/-- The ask book of the traded stock after one trade of `handleBuyOrder`. -/
theorem buyTrade_sell_orders (m : Market) (b s : Order) :
    (buyTrade m b s).1.sell_orders =
      setAt m.sell_orders b.stock_id
        (if s.quantity - min s.quantity b.quantity > 0 then
          pqPush (pqPop SellComparator (m.sell_orders b.stock_id))
            { s with quantity := s.quantity - min s.quantity b.quantity }
         else pqPop SellComparator (m.sell_orders b.stock_id)) := by
  unfold buyTrade recordTrade
  dsimp only
  split
  · funext j
    by_cases hj : j = b.stock_id <;> simp [setAt, hj]
  · rfl

/-- The bid book of the traded stock after one trade of `handleSellOrder`. -/
theorem sellTrade_buy_orders (m : Market) (s b : Order) :
    (sellTrade m s b).1.buy_orders =
      setAt m.buy_orders s.stock_id
        (if b.quantity - min b.quantity s.quantity > 0 then
          pqPush (pqPop BuyComparator (m.buy_orders s.stock_id))
            { b with quantity := b.quantity - min b.quantity s.quantity }
         else pqPop BuyComparator (m.buy_orders s.stock_id)) := by
  unfold sellTrade recordTrade
  dsimp only
  split
  · funext j
    by_cases hj : j = s.stock_id <;> simp [setAt, hj]
  · rfl

@[simp] theorem buyTrade_snd (m : Market) (b s : Order) :
    (buyTrade m b s).2 = { b with quantity := b.quantity - min s.quantity b.quantity } := rfl

@[simp] theorem sellTrade_snd (m : Market) (s b : Order) :
    (sellTrade m s b).2 = { s with quantity := s.quantity - min b.quantity s.quantity } := rfl

/-! ## The matching loops -/

/-- Invariant rule for the loop of `handleBuyOrder`: a property kept by every trade
holds on exit, and on exit the ask book is empty, the incoming order is filled, or
the best ask is above the limit. -/
theorem buyLoop_inv (P : Market → Order → Prop)
    (hstep : ∀ m b s, b.quantity ≠ 0 →
      pqTop SellComparator (m.sell_orders b.stock_id) = some s → s.price ≤ b.price →
      P m b → P (buyTrade m b s).1 (buyTrade m b s).2) :
    ∀ (fuel : Nat) (m : Market) (b : Order) (r : Market × Order),
      buyLoop fuel m b = some r → P m b →
      P r.1 r.2 ∧ (r.1.sell_orders r.2.stock_id = [] ∨ r.2.quantity = 0 ∨
        ∃ s, pqTop SellComparator (r.1.sell_orders r.2.stock_id) = some s ∧
          r.2.price < s.price) := by
  intro fuel
  induction fuel with
  | zero => intro m b r h; simp [buyLoop] at h
  | succ n ih =>
    intro m b r h hP
    simp only [buyLoop] at h
    split at h
    · rename_i hc
      simp only [Option.some.injEq] at h
      subst h
      refine ⟨hP, ?_⟩
      rcases hc with hc | hc
      · exact Or.inl hc
      · exact Or.inr (Or.inl hc)
    · rename_i hc
      split at h
      · rename_i hnone
        simp only [Option.some.injEq] at h
        subst h
        exact ⟨hP, Or.inl (pqTop_eq_none.mp hnone)⟩
      · rename_i s hs
        split at h
        · rename_i hle
          have hq : b.quantity ≠ 0 := fun h0 => hc (Or.inr h0)
          exact ih _ _ r h (hstep m b s hq hs hle hP)
        · rename_i hle
          simp only [Option.some.injEq] at h
          subst h
          exact ⟨hP, Or.inr (Or.inr ⟨s, hs, by simp only; omega⟩)⟩

/-- Invariant rule for the loop of `handleSellOrder`. -/
theorem sellLoop_inv (P : Market → Order → Prop)
    (hstep : ∀ m s b, s.quantity ≠ 0 →
      pqTop BuyComparator (m.buy_orders s.stock_id) = some b → b.price ≥ s.price →
      P m s → P (sellTrade m s b).1 (sellTrade m s b).2) :
    ∀ (fuel : Nat) (m : Market) (s : Order) (r : Market × Order),
      sellLoop fuel m s = some r → P m s →
      P r.1 r.2 ∧ (r.1.buy_orders r.2.stock_id = [] ∨ r.2.quantity = 0 ∨
        ∃ b, pqTop BuyComparator (r.1.buy_orders r.2.stock_id) = some b ∧
          b.price < r.2.price) := by
  intro fuel
  induction fuel with
  | zero => intro m s r h; simp [sellLoop] at h
  | succ n ih =>
    intro m s r h hP
    simp only [sellLoop] at h
    split at h
    · rename_i hc
      simp only [Option.some.injEq] at h
      subst h
      refine ⟨hP, ?_⟩
      rcases hc with hc | hc
      · exact Or.inl hc
      · exact Or.inr (Or.inl hc)
    · rename_i hc
      split at h
      · rename_i hnone
        simp only [Option.some.injEq] at h
        subst h
        exact ⟨hP, Or.inl (pqTop_eq_none.mp hnone)⟩
      · rename_i b hb
        split at h
        · rename_i hle
          have hq : s.quantity ≠ 0 := fun h0 => hc (Or.inr h0)
          exact ih _ _ r h (hstep m s b hq hb hle hP)
        · rename_i hle
          simp only [Option.some.injEq] at h
          subst h
          exact ⟨hP, Or.inr (Or.inr ⟨b, hb, by simp only; omega⟩)⟩

/-- The loop of `handleBuyOrder` exits within the fuel that `handleBuyOrder` gives it. -/
theorem buyLoop_total :
    ∀ (fuel : Nat) (m : Market) (b : Order),
      ((m.sell_orders b.stock_id).length < fuel ∨ (b.quantity = 0 ∧ 0 < fuel)) →
      ∃ r, buyLoop fuel m b = some r := by
  intro fuel
  induction fuel with
  | zero => intro m b h; omega
  | succ n ih =>
    intro m b h
    simp only [buyLoop]
    split
    · exact ⟨_, rfl⟩
    · rename_i hc
      have hq : b.quantity ≠ 0 := fun h0 => hc (Or.inr h0)
      split
      · exact ⟨_, rfl⟩
      · rename_i s hs
        split
        · apply ih
          rw [buyTrade_sell_orders, buyTrade_snd]
          simp only [setAt_same]
          have hlen := length_pqPop hs
          by_cases hrest : s.quantity - min s.quantity b.quantity > 0
          · right
            have : b.quantity ≤ s.quantity := by
              by_contra hlt
              have : min s.quantity b.quantity = s.quantity := Nat.min_eq_left (by omega)
              omega
            have hmin : min s.quantity b.quantity = b.quantity := Nat.min_eq_right this
            refine ⟨by omega, ?_⟩
            rcases h with h | h
            · have : 0 < (m.sell_orders b.stock_id).length :=
                List.length_pos_of_mem (pqTop_mem hs)
              omega
            · exact absurd h.1 hq
          · left
            rw [if_neg hrest]
            rcases h with h | h
            · omega
            · exact absurd h.1 hq
        · exact ⟨_, rfl⟩

/-- The loop of `handleSellOrder` exits within the fuel that `handleSellOrder` gives it. -/
theorem sellLoop_total :
    ∀ (fuel : Nat) (m : Market) (s : Order),
      ((m.buy_orders s.stock_id).length < fuel ∨ (s.quantity = 0 ∧ 0 < fuel)) →
      ∃ r, sellLoop fuel m s = some r := by
  intro fuel
  induction fuel with
  | zero => intro m s h; omega
  | succ n ih =>
    intro m s h
    simp only [sellLoop]
    split
    · exact ⟨_, rfl⟩
    · rename_i hc
      have hq : s.quantity ≠ 0 := fun h0 => hc (Or.inr h0)
      split
      · exact ⟨_, rfl⟩
      · rename_i b hb
        split
        · apply ih
          rw [sellTrade_buy_orders, sellTrade_snd]
          simp only [setAt_same]
          have hlen := length_pqPop hb
          by_cases hrest : b.quantity - min b.quantity s.quantity > 0
          · right
            have : s.quantity ≤ b.quantity := by
              by_contra hlt
              have : min b.quantity s.quantity = b.quantity := Nat.min_eq_left (by omega)
              omega
            have hmin : min b.quantity s.quantity = s.quantity := Nat.min_eq_right this
            refine ⟨by omega, ?_⟩
            rcases h with h | h
            · have : 0 < (m.buy_orders s.stock_id).length :=
                List.length_pos_of_mem (pqTop_mem hb)
              omega
            · exact absurd h.1 hq
          · left
            rw [if_neg hrest]
            rcases h with h | h
            · omega
            · exact absurd h.1 hq
        · exact ⟨_, rfl⟩

/-- Every call of `handleBuyOrder` returns. -/
theorem handleBuyOrder_total (m : Market) (b : Order) : ∃ m1, handleBuyOrder m b = some m1 := by
  obtain ⟨r, hr⟩ := buyLoop_total ((m.sell_orders b.stock_id).length + 1) m b (Or.inl (by omega))
  unfold handleBuyOrder
  rw [hr]
  dsimp only
  split <;> exact ⟨_, rfl⟩

/-- Every call of `handleSellOrder` returns. -/
theorem handleSellOrder_total (m : Market) (s : Order) :
    ∃ m1, handleSellOrder m s = some m1 := by
  obtain ⟨r, hr⟩ := sellLoop_total ((m.buy_orders s.stock_id).length + 1) m s (Or.inl (by omega))
  unfold handleSellOrder
  rw [hr]
  dsimp only
  split <;> exact ⟨_, rfl⟩

theorem handleOrder_total (m : Market) (o : Order) : ∃ m1, handleOrder m o = some m1 := by
  unfold handleOrder
  split
  · exact handleBuyOrder_total m o
  · exact handleSellOrder_total m o

/-- Every finite sequence of orders is processed to the end. -/
theorem runOrders_total (os : List Order) : ∀ m : Market, ∃ m1, runOrders m os = some m1 := by
  induction os with
  | nil => intro m; exact ⟨m, rfl⟩
  | cons o os ih =>
    intro m
    obtain ⟨m1, h1⟩ := handleOrder_total m o
    simp only [runOrders, h1]
    exact ih m1

/-! ## C1: no crossed book -/

theorem mem_pqPush {q : List Order} {o x : Order} (h : x ∈ pqPush q o) : x ∈ q ∨ x = o := by
  unfold pqPush at h
  simpa using h

/-- After a trade of `handleBuyOrder` every resting ask carries the price of an ask
that rested before it. -/
theorem buyTrade_ask_price {m : Market} {b s : Order}
    (hs : pqTop SellComparator (m.sell_orders b.stock_id) = some s) {j : Nat} {a : Order}
    (ha : a ∈ (buyTrade m b s).1.sell_orders j) :
    ∃ a0 ∈ m.sell_orders j, a0.price = a.price := by
  rw [buyTrade_sell_orders] at ha
  by_cases hj : j = b.stock_id
  · subst hj
    rw [setAt_same] at ha
    split at ha
    · rcases mem_pqPush ha with h | h
      · exact ⟨a, mem_pqPop h, rfl⟩
      · exact ⟨s, pqTop_mem hs, by rw [h]⟩
    · exact ⟨a, mem_pqPop ha, rfl⟩
  · rw [setAt_other _ _ hj] at ha
    exact ⟨a, ha, rfl⟩

/-- After a trade of `handleSellOrder` every resting bid carries the price of a bid
that rested before it. -/
theorem sellTrade_bid_price {m : Market} {s b : Order}
    (hb : pqTop BuyComparator (m.buy_orders s.stock_id) = some b) {j : Nat} {x : Order}
    (hx : x ∈ (sellTrade m s b).1.buy_orders j) :
    ∃ x0 ∈ m.buy_orders j, x0.price = x.price := by
  rw [sellTrade_buy_orders] at hx
  by_cases hj : j = s.stock_id
  · subst hj
    rw [setAt_same] at hx
    split at hx
    · rcases mem_pqPush hx with h | h
      · exact ⟨x, mem_pqPop h, rfl⟩
      · exact ⟨b, pqTop_mem hb, by rw [h]⟩
    · exact ⟨x, mem_pqPop hx, rfl⟩
  · rw [setAt_other _ _ hj] at hx
    exact ⟨x, hx, rfl⟩

theorem handleBuyOrder_noCross {m m1 : Market} {b : Order} (h : handleBuyOrder m b = some m1)
    (hm : NoCross m) : NoCross m1 := by
  unfold handleBuyOrder at h
  cases hl : buyLoop ((m.sell_orders b.stock_id).length + 1) m b with
  | none => simp [hl] at h
  | some r =>
    rw [hl] at h
    have key := buyLoop_inv
      (fun m2 b2 => NoCross m2 ∧ b2.price = b.price ∧ b2.stock_id = b.stock_id)
      (by
        intro m2 b2 s _ hs _ hP
        refine ⟨?_, hP.2.1, hP.2.2⟩
        intro j x hx a ha
        rw [buyTrade_buy_orders] at hx
        obtain ⟨a0, ha0, hpa⟩ := buyTrade_ask_price hs ha
        rw [← hpa]
        exact hP.1 j x hx a0 ha0)
      _ m b r hl ⟨hm, rfl, rfl⟩
    obtain ⟨⟨hnc, hprice, hstock⟩, hexit⟩ := key
    obtain ⟨m2, b2⟩ := r
    dsimp only at h hnc hprice hstock hexit
    split at h
    · rename_i hq
      simp only [Option.some.injEq] at h
      subst h
      intro j x hx a ha
      dsimp only at hx ha
      by_cases hj : j = b2.stock_id
      · subst hj
        rw [setAt_same] at hx
        rcases mem_pqPush hx with hx | hx
        · exact hnc _ x hx a ha
        · subst hx
          rcases hexit with he | he | ⟨s, hs, hlt⟩
          · rw [he] at ha
            simp at ha
          · omega
          · have := pqTop_sell_spec hs a ha
            omega
      · rw [setAt_other _ _ hj] at hx
        exact hnc j x hx a ha
    · simp only [Option.some.injEq] at h
      subst h
      exact hnc

theorem handleSellOrder_noCross {m m1 : Market} {s : Order} (h : handleSellOrder m s = some m1)
    (hm : NoCross m) : NoCross m1 := by
  unfold handleSellOrder at h
  cases hl : sellLoop ((m.buy_orders s.stock_id).length + 1) m s with
  | none => simp [hl] at h
  | some r =>
    rw [hl] at h
    have key := sellLoop_inv
      (fun m2 s2 => NoCross m2 ∧ s2.price = s.price ∧ s2.stock_id = s.stock_id)
      (by
        intro m2 s2 b _ hb _ hP
        refine ⟨?_, hP.2.1, hP.2.2⟩
        intro j x hx a ha
        rw [sellTrade_sell_orders] at ha
        obtain ⟨x0, hx0, hpx⟩ := sellTrade_bid_price hb hx
        rw [← hpx]
        exact hP.1 j x0 hx0 a ha)
      _ m s r hl ⟨hm, rfl, rfl⟩
    obtain ⟨⟨hnc, hprice, hstock⟩, hexit⟩ := key
    obtain ⟨m2, s2⟩ := r
    dsimp only at h hnc hprice hstock hexit
    split at h
    · rename_i hq
      simp only [Option.some.injEq] at h
      subst h
      intro j x hx a ha
      dsimp only at hx ha
      by_cases hj : j = s2.stock_id
      · subst hj
        rw [setAt_same] at ha
        rcases mem_pqPush ha with ha | ha
        · exact hnc _ x hx a ha
        · subst ha
          rcases hexit with he | he | ⟨b, hb, hlt⟩
          · rw [he] at hx
            simp at hx
          · omega
          · have := pqTop_buy_spec hb x hx
            omega
      · rw [setAt_other _ _ hj] at ha
        exact hnc j x hx a ha
    · simp only [Option.some.injEq] at h
      subst h
      exact hnc

theorem handleOrder_noCross {m m1 : Market} {o : Order} (h : handleOrder m o = some m1)
    (hm : NoCross m) : NoCross m1 := by
  unfold handleOrder at h
  split at h
  · exact handleBuyOrder_noCross h hm
  · exact handleSellOrder_noCross h hm

theorem runOrders_noCross (os : List Order) :
    ∀ {m m1 : Market}, runOrders m os = some m1 → NoCross m → NoCross m1 := by
  induction os with
  | nil =>
    intro m m1 h hm
    simp only [runOrders, Option.some.injEq] at h
    exact h ▸ hm
  | cons o os ih =>
    intro m m1 h hm
    simp only [runOrders] at h
    cases ho : handleOrder m o with
    | none => simp [ho] at h
    | some m2 =>
      rw [ho] at h
      exact ih h (handleOrder_noCross ho hm)

/-- C1. No crossed book: started from empty books, every finite sequence of orders
(any prices, quantities, stocks and sides) is processed to the end by
`handleBuyOrder` and `handleSellOrder`, and afterwards, for every stock, the bid
book is empty, or the ask book is empty, or every resting bid is priced strictly
below every resting ask. -/
theorem C1_no_crossed_book (traders stocks : Nat) (v me ti tt : Bool) (orders : List Order) :
    ∃ m, runOrders (Market.init traders stocks v me ti tt) orders = some m ∧
      ∀ s, m.buy_orders s = [] ∨ m.sell_orders s = [] ∨
        ∀ b ∈ m.buy_orders s, ∀ a ∈ m.sell_orders s, b.price < a.price := by
  obtain ⟨m, hm⟩ := runOrders_total orders (Market.init traders stocks v me ti tt)
  refine ⟨m, hm, fun s => Or.inr (Or.inr ?_)⟩
  have hinit : NoCross (Market.init traders stocks v me ti tt) := by
    intro j x hx
    simp [Market.init] at hx
  exact runOrders_noCross orders hm hinit s

/-- C1 on a run that leaves a bid at 10 and an ask at 12 resting in stock 0. -/
theorem C1_no_crossed_book_witness :
    ∃ m, runOrders (Market.init 2 1 false false false false)
        [⟨1, "BUY", 0, 0, 10, 5⟩, ⟨2, "SELL", 1, 0, 12, 3⟩] = some m ∧
      m.buy_orders 0 = [⟨1, "BUY", 0, 0, 10, 5⟩] ∧
      m.sell_orders 0 = [⟨2, "SELL", 1, 0, 12, 3⟩] ∧
      ∀ s, m.buy_orders s = [] ∨ m.sell_orders s = [] ∨
        ∀ b ∈ m.buy_orders s, ∀ a ∈ m.sell_orders s, b.price < a.price := by
  obtain ⟨m, hm, hc⟩ := C1_no_crossed_book 2 1 false false false false
    [⟨1, "BUY", 0, 0, 10, 5⟩, ⟨2, "SELL", 1, 0, 12, 3⟩]
  refine ⟨m, hm, ?_, ?_, hc⟩
  · have : (runOrders (Market.init 2 1 false false false false)
        [⟨1, "BUY", 0, 0, 10, 5⟩, ⟨2, "SELL", 1, 0, 12, 3⟩]).map (fun m => m.buy_orders 0)
        = some [⟨1, "BUY", 0, 0, 10, 5⟩] := by decide
    rw [hm] at this
    simpa using this
  · have : (runOrders (Market.init 2 1 false false false false)
        [⟨1, "BUY", 0, 0, 10, 5⟩, ⟨2, "SELL", 1, 0, 12, 3⟩]).map (fun m => m.sell_orders 0)
        = some [⟨2, "SELL", 1, 0, 12, 3⟩] := by decide
    rw [hm] at this
    simpa using this

/-! ## C2: price/time priority -/

@[simp] theorem buyTrade_trade_log (m : Market) (b s : Order) :
    (buyTrade m b s).1.trade_log =
      m.trade_log ++ [⟨b.trader_id, s.trader_id, b.stock_id, s.price,
        min s.quantity b.quantity⟩] := by
  unfold buyTrade recordTrade
  dsimp only
  split <;> rfl

@[simp] theorem sellTrade_trade_log (m : Market) (s b : Order) :
    (sellTrade m s b).1.trade_log =
      m.trade_log ++ [⟨b.trader_id, s.trader_id, s.stock_id, b.price,
        min b.quantity s.quantity⟩] := by
  unfold sellTrade recordTrade
  dsimp only
  split <;> rfl

/-- The loop of `handleBuyOrder` only appends to the trade log. -/
theorem buyLoop_trade_log {fuel : Nat} {m : Market} {b : Order} {r : Market × Order}
    (h : buyLoop fuel m b = some r) : ∃ l, r.1.trade_log = m.trade_log ++ l := by
  refine (buyLoop_inv (fun m2 _ => ∃ l, m2.trade_log = m.trade_log ++ l) ?_
    fuel m b r h ⟨[], by simp⟩).1
  intro m2 b2 s _ _ _ hP
  obtain ⟨l, hl⟩ := hP
  exact ⟨l ++ [⟨b2.trader_id, s.trader_id, b2.stock_id, s.price, min s.quantity b2.quantity⟩],
    by rw [buyTrade_trade_log, hl, List.append_assoc]⟩

/-- The loop of `handleSellOrder` only appends to the trade log. -/
theorem sellLoop_trade_log {fuel : Nat} {m : Market} {s : Order} {r : Market × Order}
    (h : sellLoop fuel m s = some r) : ∃ l, r.1.trade_log = m.trade_log ++ l := by
  refine (sellLoop_inv (fun m2 _ => ∃ l, m2.trade_log = m.trade_log ++ l) ?_
    fuel m s r h ⟨[], by simp⟩).1
  intro m2 s2 b _ _ _ hP
  obtain ⟨l, hl⟩ := hP
  exact ⟨l ++ [⟨b.trader_id, s2.trader_id, s2.stock_id, b.price, min b.quantity s2.quantity⟩],
    by rw [sellTrade_trade_log, hl, List.append_assoc]⟩

/-- The first trade of the loop of `handleBuyOrder` is made with the top of the ask
book. -/
theorem buyLoop_first_trade {fuel : Nat} {m : Market} {b : Order} {r : Market × Order}
    (h : buyLoop fuel m b = some r) {t : Trade} {rest : List Trade}
    (hlog : r.1.trade_log = m.trade_log ++ t :: rest) :
    ∃ s, pqTop SellComparator (m.sell_orders b.stock_id) = some s ∧
      t = ⟨b.trader_id, s.trader_id, b.stock_id, s.price, min s.quantity b.quantity⟩ := by
  have hne : r.1.trade_log ≠ m.trade_log := by
    rw [hlog]
    intro hc
    have := congrArg List.length hc
    simp at this
  cases fuel with
  | zero => simp [buyLoop] at h
  | succ n =>
    simp only [buyLoop] at h
    split at h
    · simp only [Option.some.injEq] at h
      subst h
      exact absurd rfl hne
    · split at h
      · simp only [Option.some.injEq] at h
        subst h
        exact absurd rfl hne
      · rename_i s hs
        split at h
        · obtain ⟨l, hl⟩ := buyLoop_trade_log h
          rw [buyTrade_trade_log, List.append_assoc, hlog] at hl
          have := List.append_cancel_left hl
          simp only [List.singleton_append, List.cons.injEq] at this
          exact ⟨s, hs, this.1⟩
        · simp only [Option.some.injEq] at h
          subst h
          exact absurd rfl hne

/-- The first trade of the loop of `handleSellOrder` is made with the top of the bid
book. -/
theorem sellLoop_first_trade {fuel : Nat} {m : Market} {s : Order} {r : Market × Order}
    (h : sellLoop fuel m s = some r) {t : Trade} {rest : List Trade}
    (hlog : r.1.trade_log = m.trade_log ++ t :: rest) :
    ∃ b, pqTop BuyComparator (m.buy_orders s.stock_id) = some b ∧
      t = ⟨b.trader_id, s.trader_id, s.stock_id, b.price, min b.quantity s.quantity⟩ := by
  have hne : r.1.trade_log ≠ m.trade_log := by
    rw [hlog]
    intro hc
    have := congrArg List.length hc
    simp at this
  cases fuel with
  | zero => simp [sellLoop] at h
  | succ n =>
    simp only [sellLoop] at h
    split at h
    · simp only [Option.some.injEq] at h
      subst h
      exact absurd rfl hne
    · split at h
      · simp only [Option.some.injEq] at h
        subst h
        exact absurd rfl hne
      · rename_i b hb
        split at h
        · obtain ⟨l, hl⟩ := sellLoop_trade_log h
          rw [sellTrade_trade_log, List.append_assoc, hlog] at hl
          have := List.append_cancel_left hl
          simp only [List.singleton_append, List.cons.injEq] at this
          exact ⟨b, hb, this.1⟩
        · simp only [Option.some.injEq] at h
          subst h
          exact absurd rfl hne

/-- The state that `handleBuyOrder` returns has the trade log of its loop. -/
theorem handleBuyOrder_loop {m m1 : Market} {b : Order} (h : handleBuyOrder m b = some m1) :
    ∃ r, buyLoop ((m.sell_orders b.stock_id).length + 1) m b = some r ∧
      m1.trade_log = r.1.trade_log ∧ m1.trade_prices = r.1.trade_prices ∧
      m1.sell_orders = r.1.sell_orders := by
  unfold handleBuyOrder at h
  cases hl : buyLoop ((m.sell_orders b.stock_id).length + 1) m b with
  | none => simp [hl] at h
  | some r =>
    rw [hl] at h
    obtain ⟨m2, b2⟩ := r
    dsimp only at h
    split at h <;>
    · simp only [Option.some.injEq] at h
      subst h
      exact ⟨_, rfl, rfl, rfl, rfl⟩

/-- The state that `handleSellOrder` returns has the trade log of its loop. -/
theorem handleSellOrder_loop {m m1 : Market} {s : Order} (h : handleSellOrder m s = some m1) :
    ∃ r, sellLoop ((m.buy_orders s.stock_id).length + 1) m s = some r ∧
      m1.trade_log = r.1.trade_log ∧ m1.trade_prices = r.1.trade_prices ∧
      m1.buy_orders = r.1.buy_orders := by
  unfold handleSellOrder at h
  cases hl : sellLoop ((m.buy_orders s.stock_id).length + 1) m s with
  | none => simp [hl] at h
  | some r =>
    rw [hl] at h
    obtain ⟨m2, s2⟩ := r
    dsimp only at h
    split at h <;>
    · simp only [Option.some.injEq] at h
      subst h
      exact ⟨_, rfl, rfl, rfl, rfl⟩

/-- C2. Price/time priority. For every book content `q`, in whatever order its orders
were inserted: the top of an ask book under `SellComparator` is a resting order with
the lowest price, the top of a bid book under `BuyComparator` one with the highest
price, and no resting order at that price has a strictly smaller timestamp; a
non-empty book has a top; the price and timestamp of the top are the same for every
reordering of the content; and the first trade that `handleBuyOrder` /
`handleSellOrder` executes is made with that top. -/
theorem C2_price_time_priority (q : List Order) :
    (∀ t, pqTop SellComparator q = some t →
      t ∈ q ∧ (∀ o ∈ q, t.price ≤ o.price) ∧
        (∀ o ∈ q, o.price = t.price → t.timestamp ≤ o.timestamp)) ∧
    (∀ t, pqTop BuyComparator q = some t →
      t ∈ q ∧ (∀ o ∈ q, o.price ≤ t.price) ∧
        (∀ o ∈ q, o.price = t.price → t.timestamp ≤ o.timestamp)) ∧
    (q ≠ [] → (∃ t, pqTop SellComparator q = some t) ∧ (∃ t, pqTop BuyComparator q = some t)) ∧
    (∀ q1 t t1, q1.Perm q → pqTop SellComparator q = some t →
      pqTop SellComparator q1 = some t1 → t1.price = t.price ∧ t1.timestamp = t.timestamp) ∧
    (∀ q1 t t1, q1.Perm q → pqTop BuyComparator q = some t →
      pqTop BuyComparator q1 = some t1 → t1.price = t.price ∧ t1.timestamp = t.timestamp) ∧
    (∀ m b m1 t rest, m.sell_orders b.stock_id = q → handleBuyOrder m b = some m1 →
      m1.trade_log = m.trade_log ++ t :: rest →
      ∃ s, pqTop SellComparator q = some s ∧ t.seller = s.trader_id ∧ t.price = s.price) ∧
    (∀ m s m1 t rest, m.buy_orders s.stock_id = q → handleSellOrder m s = some m1 →
      m1.trade_log = m.trade_log ++ t :: rest →
      ∃ b, pqTop BuyComparator q = some b ∧ t.buyer = b.trader_id ∧ t.price = b.price) := by
  refine ⟨?_, ?_, ?_, ?_, ?_, ?_, ?_⟩
  · intro t ht
    refine ⟨pqTop_mem ht, ?_, ?_⟩
    · intro o ho
      have := pqTop_sell_spec ht o ho
      omega
    · intro o ho hp
      have := pqTop_sell_spec ht o ho
      omega
  · intro t ht
    refine ⟨pqTop_mem ht, ?_, ?_⟩
    · intro o ho
      have := pqTop_buy_spec ht o ho
      omega
    · intro o ho hp
      have := pqTop_buy_spec ht o ho
      omega
  · intro hq
    constructor
    · cases h : pqTop SellComparator q with
      | none => exact absurd (pqTop_eq_none.mp h) hq
      | some t => exact ⟨t, rfl⟩
    · cases h : pqTop BuyComparator q with
      | none => exact absurd (pqTop_eq_none.mp h) hq
      | some t => exact ⟨t, rfl⟩
  · intro q1 t t1 hperm ht ht1
    have h1 := pqTop_sell_spec ht t1 (hperm.mem_iff.mp (pqTop_mem ht1))
    have h2 := pqTop_sell_spec ht1 t (hperm.mem_iff.mpr (pqTop_mem ht))
    omega
  · intro q1 t t1 hperm ht ht1
    have h1 := pqTop_buy_spec ht t1 (hperm.mem_iff.mp (pqTop_mem ht1))
    have h2 := pqTop_buy_spec ht1 t (hperm.mem_iff.mpr (pqTop_mem ht))
    omega
  · intro m b m1 t rest hq h hlog
    obtain ⟨r, hr, hlog1, _, _⟩ := handleBuyOrder_loop h
    rw [hlog1] at hlog
    obtain ⟨s, hs, hts⟩ := buyLoop_first_trade hr hlog
    rw [hq] at hs
    exact ⟨s, hs, by rw [hts], by rw [hts]⟩
  · intro m s m1 t rest hq h hlog
    obtain ⟨r, hr, hlog1, _, _⟩ := handleSellOrder_loop h
    rw [hlog1] at hlog
    obtain ⟨b, hb, htb⟩ := sellLoop_first_trade hr hlog
    rw [hq] at hb
    exact ⟨b, hb, by rw [htb], by rw [htb]⟩

/-- C2 on a bid book holding two bids at price 10 where the later one (timestamp 7)
was inserted before the earlier one (timestamp 3): the top is the earlier one. -/
theorem C2_price_time_priority_witness :
    pqTop BuyComparator [⟨7, "BUY", 0, 0, 10, 1⟩, ⟨3, "BUY", 1, 0, 10, 1⟩, ⟨1, "BUY", 2, 0, 9, 1⟩]
      = some ⟨3, "BUY", 1, 0, 10, 1⟩ ∧
    ∀ o ∈ [(⟨7, "BUY", 0, 0, 10, 1⟩ : Order), ⟨3, "BUY", 1, 0, 10, 1⟩, ⟨1, "BUY", 2, 0, 9, 1⟩],
      o.price = 10 → 3 ≤ o.timestamp :=
  ⟨by decide,
   ((C2_price_time_priority
      [⟨7, "BUY", 0, 0, 10, 1⟩, ⟨3, "BUY", 1, 0, 10, 1⟩, ⟨1, "BUY", 2, 0, 9, 1⟩]).2.1
      ⟨3, "BUY", 1, 0, 10, 1⟩ (by decide)).2.2⟩

/-! ## C3: execution price -/

theorem buyTrade_trade_prices (m : Market) (b s : Order) :
    (buyTrade m b s).1.trade_prices =
      setAt m.trade_prices b.stock_id (m.trade_prices b.stock_id ++ [s.price]) := by
  unfold buyTrade recordTrade
  dsimp only
  split <;> rfl

theorem sellTrade_trade_prices (m : Market) (s b : Order) :
    (sellTrade m s b).1.trade_prices =
      setAt m.trade_prices s.stock_id (m.trade_prices s.stock_id ++ [b.price]) := by
  unfold sellTrade recordTrade
  dsimp only
  split <;> rfl

/-- The trades of one run of the loop of `handleBuyOrder`: their prices are appended
to the price history of the stock, each is the price of an ask that rested before the
call, and none exceeds the limit of the incoming buy. -/
theorem buyLoop_prices {fuel : Nat} {m : Market} {b : Order} {r : Market × Order}
    (h : buyLoop fuel m b = some r) :
    ∃ tl, r.1.trade_log = m.trade_log ++ tl ∧
      r.1.trade_prices b.stock_id = m.trade_prices b.stock_id ++ tl.map (fun t => t.price) ∧
      ∀ t ∈ tl, t.price ≤ b.price ∧ ∃ o ∈ m.sell_orders b.stock_id, o.price = t.price := by
  have key := (buyLoop_inv
    (fun m2 b2 => b2.price = b.price ∧ b2.stock_id = b.stock_id ∧
      (∀ a ∈ m2.sell_orders b.stock_id, ∃ a0 ∈ m.sell_orders b.stock_id, a0.price = a.price) ∧
      ∃ tl, m2.trade_log = m.trade_log ++ tl ∧
        m2.trade_prices b.stock_id = m.trade_prices b.stock_id ++ tl.map (fun t => t.price) ∧
        ∀ t ∈ tl, t.price ≤ b.price ∧ ∃ o ∈ m.sell_orders b.stock_id, o.price = t.price)
    ?_ fuel m b r h ⟨rfl, rfl, fun a ha => ⟨a, ha, rfl⟩, [], by simp⟩).1
  · exact key.2.2.2
  · intro m2 b2 s _ hs hle ⟨hp, hst, hasks, tl, hlog, hprices, hall⟩
    refine ⟨hp, hst, ?_, ?_⟩
    · intro a ha
      obtain ⟨a1, ha1, hpa⟩ := buyTrade_ask_price hs ha
      obtain ⟨a0, ha0, hpa0⟩ := hasks a1 ha1
      exact ⟨a0, ha0, hpa0.trans hpa⟩
    · refine ⟨tl ++ [⟨b2.trader_id, s.trader_id, b2.stock_id, s.price,
        min s.quantity b2.quantity⟩], ?_, ?_, ?_⟩
      · rw [buyTrade_trade_log, hlog, List.append_assoc]
      · rw [buyTrade_trade_prices, hst, setAt_same, hprices]
        simp
      · intro t ht
        rcases List.mem_append.mp ht with ht | ht
        · exact hall t ht
        · simp only [List.mem_singleton] at ht
          subst ht
          refine ⟨by dsimp only; omega, ?_⟩
          rw [hst] at hs
          exact hasks s (pqTop_mem hs)

/-- The trades of one run of the loop of `handleSellOrder`: their prices are appended
to the price history of the stock, each is the price of a bid that rested before the
call, and none is below the limit of the incoming sell. -/
theorem sellLoop_prices {fuel : Nat} {m : Market} {s : Order} {r : Market × Order}
    (h : sellLoop fuel m s = some r) :
    ∃ tl, r.1.trade_log = m.trade_log ++ tl ∧
      r.1.trade_prices s.stock_id = m.trade_prices s.stock_id ++ tl.map (fun t => t.price) ∧
      ∀ t ∈ tl, s.price ≤ t.price ∧ ∃ o ∈ m.buy_orders s.stock_id, o.price = t.price := by
  have key := (sellLoop_inv
    (fun m2 s2 => s2.price = s.price ∧ s2.stock_id = s.stock_id ∧
      (∀ a ∈ m2.buy_orders s.stock_id, ∃ a0 ∈ m.buy_orders s.stock_id, a0.price = a.price) ∧
      ∃ tl, m2.trade_log = m.trade_log ++ tl ∧
        m2.trade_prices s.stock_id = m.trade_prices s.stock_id ++ tl.map (fun t => t.price) ∧
        ∀ t ∈ tl, s.price ≤ t.price ∧ ∃ o ∈ m.buy_orders s.stock_id, o.price = t.price)
    ?_ fuel m s r h ⟨rfl, rfl, fun a ha => ⟨a, ha, rfl⟩, [], by simp⟩).1
  · exact key.2.2.2
  · intro m2 s2 b _ hb hle ⟨hp, hst, hbids, tl, hlog, hprices, hall⟩
    refine ⟨hp, hst, ?_, ?_⟩
    · intro a ha
      obtain ⟨a1, ha1, hpa⟩ := sellTrade_bid_price hb ha
      obtain ⟨a0, ha0, hpa0⟩ := hbids a1 ha1
      exact ⟨a0, ha0, hpa0.trans hpa⟩
    · refine ⟨tl ++ [⟨b.trader_id, s2.trader_id, s2.stock_id, b.price,
        min b.quantity s2.quantity⟩], ?_, ?_, ?_⟩
      · rw [sellTrade_trade_log, hlog, List.append_assoc]
      · rw [sellTrade_trade_prices, hst, setAt_same, hprices]
        simp
      · intro t ht
        rcases List.mem_append.mp ht with ht | ht
        · exact hall t ht
        · simp only [List.mem_singleton] at ht
          subst ht
          refine ⟨by dsimp only; omega, ?_⟩
          rw [hst] at hb
          exact hbids b (pqTop_mem hb)

/-- C3. Execution price. One trade of `handleBuyOrder` (of `handleSellOrder`) appends
to the stock's `trade_prices` the price of the resting order taken from the opposing
book. Over a whole call, `trade_prices` of the stock grows by exactly the prices of
the trades the call executed, and each of them is the price of an order that rested
in the opposing book and is acceptable to the incoming order: at most the limit of
an incoming buy, at least the limit of an incoming sell. -/
theorem C3_execution_price :
    (∀ m b s, (buyTrade m b s).1.trade_prices b.stock_id =
      m.trade_prices b.stock_id ++ [s.price]) ∧
    (∀ m s b, (sellTrade m s b).1.trade_prices s.stock_id =
      m.trade_prices s.stock_id ++ [b.price]) ∧
    (∀ m b m1, handleBuyOrder m b = some m1 →
      ∃ tl, m1.trade_log = m.trade_log ++ tl ∧
        m1.trade_prices b.stock_id = m.trade_prices b.stock_id ++ tl.map (fun t => t.price) ∧
        ∀ t ∈ tl, t.price ≤ b.price ∧ ∃ o ∈ m.sell_orders b.stock_id, o.price = t.price) ∧
    (∀ m s m1, handleSellOrder m s = some m1 →
      ∃ tl, m1.trade_log = m.trade_log ++ tl ∧
        m1.trade_prices s.stock_id = m.trade_prices s.stock_id ++ tl.map (fun t => t.price) ∧
        ∀ t ∈ tl, s.price ≤ t.price ∧ ∃ o ∈ m.buy_orders s.stock_id, o.price = t.price) := by
  refine ⟨?_, ?_, ?_, ?_⟩
  · intro m b s
    rw [buyTrade_trade_prices, setAt_same]
  · intro m s b
    rw [sellTrade_trade_prices, setAt_same]
  · intro m b m1 h
    obtain ⟨r, hr, hlog, hprices, _⟩ := handleBuyOrder_loop h
    rw [hlog, hprices]
    exact buyLoop_prices hr
  · intro m s m1 h
    obtain ⟨r, hr, hlog, hprices, _⟩ := handleSellOrder_loop h
    rw [hlog, hprices]
    exact sellLoop_prices hr

/-! ## C4-C6: the time-traveler search -/

theorem mem_ttPairs {sells buys : List (Nat × Nat)} {p : (Nat × Nat) × (Nat × Nat)} :
    p ∈ ttPairs sells buys ↔ p.1 ∈ sells ∧ p.2 ∈ buys := by
  induction sells with
  | nil => simp [ttPairs]
  | cons s ss ih =>
    simp only [ttPairs, List.mem_append, List.mem_map, ih, List.mem_cons]
    constructor
    · rintro (⟨b, hb, rfl⟩ | ⟨h1, h2⟩)
      · exact ⟨Or.inl rfl, hb⟩
      · exact ⟨Or.inr h1, h2⟩
    · rintro ⟨h1 | h1, h2⟩
      · exact Or.inl ⟨p.2, h2, by rw [← h1]⟩
      · exact Or.inr ⟨h1, h2⟩

/-- The nested loops are one loop over `ttPairs`. -/
theorem foldl_ttOuter (sells buys : List (Nat × Nat)) :
    ∀ st, sells.foldl (ttOuter buys) st =
      (ttPairs sells buys).foldl (fun st p => ttInner p.1.1 p.1.2 st p.2) st := by
  induction sells with
  | nil => intro st; rfl
  | cons s ss ih =>
    intro st
    simp only [List.foldl_cons, ttPairs, List.foldl_append, List.foldl_map]
    rw [ih]
    rfl

theorem TTInv_init : TTInv [] TTState.init where
  nothing := fun _ => ⟨rfl, by simp⟩
  chosen := fun h => by simp [TTState.init] at h
  best := by simp
  tie := by simp

/-- One pass through the body of the inner loop keeps the invariant. -/
theorem TTInv_step {L : List ((Nat × Nat) × (Nat × Nat))} {st : TTState}
    (inv : TTInv L st) (p : (Nat × Nat) × (Nat × Nat)) :
    TTInv (L ++ [p]) (ttInner p.1.1 p.1.2 st p.2) := by
  obtain ⟨⟨s_time, s_price⟩, ⟨b_time, b_price⟩⟩ := p
  have hfound : st.found = false → ∀ q ∈ L, ¬ Eligible q := fun h => (inv.nothing h).2
  unfold ttInner
  dsimp only
  by_cases h1 : b_time ≤ s_time
  · -- the pair is skipped by `continue`
    rw [if_pos h1]
    have hne : ¬ Eligible ((s_time, s_price), (b_time, b_price)) := by
      unfold Eligible; dsimp only; omega
    refine ⟨?_, ?_, ?_, ?_⟩
    · intro hf
      refine ⟨(inv.nothing hf).1, ?_⟩
      intro q hq
      rcases List.mem_append.mp hq with hq | hq
      · exact hfound hf q hq
      · simp only [List.mem_singleton] at hq
        subst hq
        exact hne
    · intro hf
      obtain ⟨a, b, c, d⟩ := inv.chosen hf
      exact ⟨List.mem_append_left _ a, b, c, d⟩
    · intro q hq he
      rcases List.mem_append.mp hq with hq | hq
      · exact inv.best q hq he
      · simp only [List.mem_singleton] at hq
        subst hq
        exact absurd he hne
    · intro q hq he hpq
      rcases List.mem_append.mp hq with hq | hq
      · exact inv.tie q hq he hpq
      · simp only [List.mem_singleton] at hq
        subst hq
        exact absurd he hne
  · rw [if_neg h1]
    by_cases h2 : b_price > s_price
    · rw [if_pos h2]
      by_cases h3 : b_price - s_price > st.max_profit
      · -- a strictly better pair
        rw [if_pos h3]
        refine ⟨?_, ?_, ?_, ?_⟩
        · intro hf
          simp at hf
        · intro _
          exact ⟨by simp, by dsimp only; omega, h2, rfl⟩
        · intro q hq he
          dsimp only
          rcases List.mem_append.mp hq with hq | hq
          · have := inv.best q hq he
            omega
          · simp only [List.mem_singleton] at hq
            subst hq
            exact le_refl _
        · intro q hq he hpq
          dsimp only at hpq ⊢
          rcases List.mem_append.mp hq with hq | hq
          · have := inv.best q hq he
            omega
          · simp only [List.mem_singleton] at hq
            subst hq
            exact Or.inr ⟨rfl, le_refl _⟩
      · rw [if_neg h3]
        by_cases h4 : b_price - s_price = st.max_profit
        · rw [if_pos h4]
          have hf : st.found = true := by
            cases hfd : st.found with
            | true => rfl
            | false =>
              have := (inv.nothing hfd).1
              omega
          obtain ⟨hmem, hlt, hgt, hmax⟩ := inv.chosen hf
          by_cases h5 : s_time < st.buy_time ∨ (s_time = st.buy_time ∧ b_time < st.sell_time)
          · -- an equally good pair that is earlier
            rw [if_pos h5]
            refine ⟨?_, ?_, ?_, ?_⟩
            · intro hf2
              dsimp only at hf2
              rw [hf] at hf2
              exact absurd hf2 (by simp)
            · intro _
              exact ⟨by simp, by dsimp only; omega, h2, by dsimp only; omega⟩
            · intro q hq he
              dsimp only
              rcases List.mem_append.mp hq with hq | hq
              · exact inv.best q hq he
              · simp only [List.mem_singleton] at hq
                subst hq
                dsimp only
                omega
            · intro q hq he hpq
              dsimp only at hpq ⊢
              rcases List.mem_append.mp hq with hq | hq
              · have := inv.tie q hq he hpq
                omega
              · simp only [List.mem_singleton] at hq
                subst hq
                exact Or.inr ⟨rfl, le_refl _⟩
          · -- an equally good pair that is not earlier
            rw [if_neg h5]
            refine ⟨?_, ?_, ?_, ?_⟩
            · intro hf2
              rw [hf] at hf2
              exact absurd hf2 (by simp)
            · intro _
              exact ⟨List.mem_append_left _ hmem, hlt, hgt, hmax⟩
            · intro q hq he
              rcases List.mem_append.mp hq with hq | hq
              · exact inv.best q hq he
              · simp only [List.mem_singleton] at hq
                subst hq
                dsimp only
                omega
            · intro q hq he hpq
              rcases List.mem_append.mp hq with hq | hq
              · exact inv.tie q hq he hpq
              · simp only [List.mem_singleton] at hq
                subst hq
                dsimp only
                omega
        · -- a worse pair
          rw [if_neg h4]
          refine ⟨?_, ?_, ?_, ?_⟩
          · intro hf
            have := (inv.nothing hf).1
            omega
          · intro hf
            obtain ⟨a, b, c, d⟩ := inv.chosen hf
            exact ⟨List.mem_append_left _ a, b, c, d⟩
          · intro q hq he
            rcases List.mem_append.mp hq with hq | hq
            · exact inv.best q hq he
            · simp only [List.mem_singleton] at hq
              subst hq
              dsimp only
              omega
          · intro q hq he hpq
            rcases List.mem_append.mp hq with hq | hq
            · exact inv.tie q hq he hpq
            · simp only [List.mem_singleton] at hq
              subst hq
              dsimp only at hpq
              omega
    · -- the buy quote is not higher
      rw [if_neg h2]
      have hne : ¬ Eligible ((s_time, s_price), (b_time, b_price)) := by
        unfold Eligible; dsimp only; omega
      refine ⟨?_, ?_, ?_, ?_⟩
      · intro hf
        refine ⟨(inv.nothing hf).1, ?_⟩
        intro q hq
        rcases List.mem_append.mp hq with hq | hq
        · exact hfound hf q hq
        · simp only [List.mem_singleton] at hq
          subst hq
          exact hne
      · intro hf
        obtain ⟨a, b, c, d⟩ := inv.chosen hf
        exact ⟨List.mem_append_left _ a, b, c, d⟩
      · intro q hq he
        rcases List.mem_append.mp hq with hq | hq
        · exact inv.best q hq he
        · simp only [List.mem_singleton] at hq
          subst hq
          exact absurd he hne
      · intro q hq he hpq
        rcases List.mem_append.mp hq with hq | hq
        · exact inv.tie q hq he hpq
        · simp only [List.mem_singleton] at hq
          subst hq
          exact absurd he hne

theorem TTInv_foldl (l : List ((Nat × Nat) × (Nat × Nat))) :
    ∀ (L : List ((Nat × Nat) × (Nat × Nat))) (st : TTState), TTInv L st →
      TTInv (L ++ l) (l.foldl (fun st p => ttInner p.1.1 p.1.2 st p.2) st) := by
  induction l with
  | nil => intro L st h; simpa using h
  | cons p ps ih =>
    intro L st h
    have := ih (L ++ [p]) _ (TTInv_step h p)
    simpa using this

/-- The search ends with the invariant for all pairs of quotes. -/
theorem TTInv_ttScan (sells buys : List (Nat × Nat)) :
    TTInv (ttPairs sells buys) (ttScan sells buys) := by
  unfold ttScan
  rw [foldl_ttOuter]
  simpa using TTInv_foldl (ttPairs sells buys) [] TTState.init TTInv_init

/-- A reported trade is the final state of a search that found a pair. -/
theorem timeTraveler_some {sells buys : List (Nat × Nat)} {r : Nat × Nat × Nat × Nat}
    (h : timeTraveler sells buys = some r) :
    (ttScan sells buys).found = true ∧
      r = ((ttScan sells buys).buy_time, (ttScan sells buys).buy_price,
        (ttScan sells buys).sell_time, (ttScan sells buys).sell_price) := by
  unfold timeTraveler at h
  split at h
  · simp at h
  · dsimp only at h
    split at h
    · rename_i hf
      simp only [Option.some.injEq] at h
      exact ⟨hf, h.symm⟩
    · simp at h

/-- C3 on a book with one ask at 10 and an incoming buy at 12: the call returns, and
the trade is recorded at the resting price 10. -/
theorem C3_execution_price_witness :
    (handleBuyOrder
        { Market.init 2 1 false false false false with
          sell_orders := fun _ => [⟨1, "SELL", 0, 0, 10, 5⟩] }
        ⟨2, "BUY", 1, 0, 12, 7⟩).isSome = true ∧
    (handleBuyOrder
        { Market.init 2 1 false false false false with
          sell_orders := fun _ => [⟨1, "SELL", 0, 0, 10, 5⟩] }
        ⟨2, "BUY", 1, 0, 12, 7⟩).map (fun m => m.trade_prices 0) = some [10] ∧
    ∀ m1, handleBuyOrder
        { Market.init 2 1 false false false false with
          sell_orders := fun _ => [⟨1, "SELL", 0, 0, 10, 5⟩] }
        ⟨2, "BUY", 1, 0, 12, 7⟩ = some m1 →
      ∃ tl, m1.trade_log = [] ++ tl ∧
        m1.trade_prices 0 = [] ++ tl.map (fun t => t.price) ∧
        ∀ t ∈ tl, t.price ≤ 12 ∧
          ∃ o ∈ [(⟨1, "SELL", 0, 0, 10, 5⟩ : Order)], o.price = t.price :=
  ⟨by decide, by decide, fun m1 h => C3_execution_price.2.2.1 _ _ m1 h⟩

/-- A reported trade is a pair of recorded quotes, later and higher on the buy-quote
side, and no eligible pair of quotes has a larger profit. -/
theorem timeTraveler_optimal {sells buys : List (Nat × Nat)}
    {buy_time buy_price sell_time sell_price : Nat}
    (h : timeTraveler sells buys = some (buy_time, buy_price, sell_time, sell_price)) :
    (buy_time, buy_price) ∈ sells ∧ (sell_time, sell_price) ∈ buys ∧
      sell_time > buy_time ∧ sell_price > buy_price ∧
      ∀ ts ps tb pb, (ts, ps) ∈ sells → (tb, pb) ∈ buys → tb > ts → pb > ps →
        pb - ps ≤ sell_price - buy_price := by
  obtain ⟨hf, hr⟩ := timeTraveler_some h
  have inv := TTInv_ttScan sells buys
  obtain ⟨hmem, hlt, hgt, hmax⟩ := inv.chosen hf
  simp only [Prod.mk.injEq] at hr
  obtain ⟨h1, h2, h3, h4⟩ := hr
  subst h1 h2 h3 h4
  have hmem2 := mem_ttPairs.mp hmem
  refine ⟨hmem2.1, hmem2.2, hlt, hgt, ?_⟩
  intro ts ps tb pb hs hb htime hprice
  have := inv.best ((ts, ps), (tb, pb)) (mem_ttPairs.mpr ⟨hs, hb⟩) ⟨htime, hprice⟩
  dsimp only at this
  omega

/-- C4. Time-traveler optimality. Whenever `printTimeTravelers` reports a trade
`(buy_time, buy_price, sell_time, sell_price)` for the histories `sells` and `buys`,
`(buy_time, buy_price)` is a recorded sell quote, `(sell_time, sell_price)` is a
recorded buy quote, `sell_time > buy_time`, `sell_price > buy_price`, and no sell
quote `(ts, ps)` and buy quote `(tb, pb)` with `tb > ts` and `pb > ps` has a profit
`pb - ps` above `sell_price - buy_price`. -/
theorem C4_time_traveler_optimal (sells buys : List (Nat × Nat))
    (buy_time buy_price sell_time sell_price : Nat)
    (h : timeTraveler sells buys = some (buy_time, buy_price, sell_time, sell_price)) :
    (buy_time, buy_price) ∈ sells ∧ (sell_time, sell_price) ∈ buys ∧
      sell_time > buy_time ∧ sell_price > buy_price ∧
      ∀ ts ps tb pb, (ts, ps) ∈ sells → (tb, pb) ∈ buys → tb > ts → pb > ps →
        pb - ps ≤ sell_price - buy_price :=
  timeTraveler_optimal h

/-- C4 on the histories of the specification: sell quotes `[(1,10)]` and buy quotes
`[(5,50),(2,5)]` give the trade `(1, 10, 5, 50)`. -/
theorem C4_time_traveler_optimal_witness :
    timeTraveler [(1, 10)] [(5, 50), (2, 5)] = some (1, 10, 5, 50) ∧
    ((1, 10) ∈ [(1, 10)] ∧ (5, 50) ∈ [(5, 50), (2, 5)] ∧ 5 > 1 ∧ 50 > 10 ∧
      ∀ ts ps tb pb, (ts, ps) ∈ [(1, 10)] → (tb, pb) ∈ [(5, 50), (2, 5)] → tb > ts → pb > ps →
        pb - ps ≤ 50 - 10) :=
  ⟨by decide, C4_time_traveler_optimal [(1, 10)] [(5, 50), (2, 5)] 1 10 5 50 (by decide)⟩

theorem mem_sortPairs {l : List (Nat × Nat)} {x : Nat × Nat} : x ∈ sortPairs l ↔ x ∈ l :=
  (List.perm_insertionSort pairLe l).mem_iff

/-- The tie-break of the search, for histories in any order: a pair of quotes that
reaches the maximum profit is not lexicographically before the reported one. -/
theorem timeTraveler_tie {sells buys : List (Nat × Nat)}
    {buy_time buy_price sell_time sell_price : Nat}
    (h : timeTraveler sells buys = some (buy_time, buy_price, sell_time, sell_price))
    {ts ps tb pb : Nat} (hs : (ts, ps) ∈ sells) (hb : (tb, pb) ∈ buys)
    (htime : tb > ts) (hprice : pb > ps)
    (hmax : ∀ ts1 ps1 tb1 pb1, (ts1, ps1) ∈ sells → (tb1, pb1) ∈ buys → tb1 > ts1 →
      pb1 > ps1 → pb1 - ps1 ≤ pb - ps) :
    buy_time < ts ∨ (buy_time = ts ∧ sell_time ≤ tb) := by
  obtain ⟨hmem1, hmem2, hlt, hgt, hbest⟩ :=
    timeTraveler_optimal h
  obtain ⟨hf, hr⟩ := timeTraveler_some h
  have inv := TTInv_ttScan sells buys
  obtain ⟨_, _, _, hmp⟩ := inv.chosen hf
  simp only [Prod.mk.injEq] at hr
  obtain ⟨h1, h2, h3, h4⟩ := hr
  have h5 := hmax _ _ _ _ hmem1 hmem2 hlt hgt
  have h6 := hbest ts ps tb pb hs hb htime hprice
  have := inv.tie ((ts, ps), (tb, pb)) (mem_ttPairs.mpr ⟨hs, hb⟩) ⟨htime, hprice⟩
    (by dsimp only; rw [hmp, ← h2, ← h4]; omega)
  dsimp only at this
  rw [← h1, ← h3] at this
  exact this

/-- C5. Time-traveler tie-break. For histories sorted as `processOrders` sorts them,
every sell quote `(ts, ps)` and buy quote `(tb, pb)` with `tb > ts` and `pb > ps`
whose profit is the maximum over all such pairs is not lexicographically before the
reported trade: the reported `buy_time` is at most `ts`, and when they are equal the
reported `sell_time` is at most `tb`. -/
theorem C5_time_traveler_tie_break (sells buys : List (Nat × Nat))
    (buy_time buy_price sell_time sell_price : Nat)
    (h : timeTraveler (sortPairs sells) (sortPairs buys) =
      some (buy_time, buy_price, sell_time, sell_price))
    (ts ps tb pb : Nat) (hs : (ts, ps) ∈ sells) (hb : (tb, pb) ∈ buys)
    (htime : tb > ts) (hprice : pb > ps)
    (hmax : ∀ ts1 ps1 tb1 pb1, (ts1, ps1) ∈ sells → (tb1, pb1) ∈ buys → tb1 > ts1 →
      pb1 > ps1 → pb1 - ps1 ≤ pb - ps) :
    buy_time < ts ∨ (buy_time = ts ∧ sell_time ≤ tb) :=
  timeTraveler_tie h (mem_sortPairs.mpr hs) (mem_sortPairs.mpr hb) htime hprice
    (fun ts1 ps1 tb1 pb1 h1 h2 => hmax ts1 ps1 tb1 pb1 (mem_sortPairs.mp h1) (mem_sortPairs.mp h2))

/-- C5 on histories where all four pairs of quotes have the maximum profit 10: the
reported trade is `(1, 10, 3, 20)`, and the pair of the quotes at times 2 and 4 is not
before it. -/
theorem C5_time_traveler_tie_break_witness :
    timeTraveler (sortPairs [(2, 10), (1, 10)]) (sortPairs [(4, 20), (3, 20)]) =
      some (1, 10, 3, 20) ∧
    (1 < 2 ∨ (1 = 2 ∧ 3 ≤ 4)) :=
  ⟨by decide,
   C5_time_traveler_tie_break [(2, 10), (1, 10)] [(4, 20), (3, 20)] 1 10 3 20 (by decide)
     2 10 4 20 (by decide) (by decide) (by decide) (by decide)
     (by
       intro ts1 ps1 tb1 pb1 h1 h2 _ _
       simp only [List.mem_cons, Prod.mk.injEq, List.mem_singleton, List.not_mem_nil,
         or_false] at h1 h2
       omega)⟩

/-- C6. No-opportunity case. `printTimeTravelers` reports that no profit could be
made on a stock exactly when no recorded sell quote `(ts, ps)` and recorded buy quote
`(tb, pb)` of the stock have `tb > ts` and `pb > ps`; the line printed for the stock
is the "could not make a profit" line exactly in that case. -/
theorem C6_no_opportunity (sells buys : List (Nat × Nat)) :
    (timeTraveler sells buys = none ↔
      ¬ ∃ ts ps tb pb, (ts, ps) ∈ sells ∧ (tb, pb) ∈ buys ∧ tb > ts ∧ pb > ps) ∧
    (∀ (m : Market) (i : Nat), m.sell_order_prices i = sells → m.buy_order_prices i = buys →
      (timeTravelerLine m i = Output.timeTravelerNone i ↔
        ¬ ∃ ts ps tb pb, (ts, ps) ∈ sells ∧ (tb, pb) ∈ buys ∧ tb > ts ∧ pb > ps)) := by
  have main : timeTraveler sells buys = none ↔
      ¬ ∃ ts ps tb pb, (ts, ps) ∈ sells ∧ (tb, pb) ∈ buys ∧ tb > ts ∧ pb > ps := by
    have inv := TTInv_ttScan sells buys
    constructor
    · intro hnone
      rintro ⟨ts, ps, tb, pb, hs, hb, htime, hprice⟩
      unfold timeTraveler at hnone
      have hne : ¬ (sells = [] ∨ buys = []) := by
        rintro (h | h)
        · rw [h] at hs; simp at hs
        · rw [h] at hb; simp at hb
      rw [if_neg hne] at hnone
      dsimp only at hnone
      split at hnone
      · simp at hnone
      · rename_i hf
        have hf2 : (ttScan sells buys).found = false := by simpa using hf
        exact (inv.nothing hf2).2 ((ts, ps), (tb, pb)) (mem_ttPairs.mpr ⟨hs, hb⟩)
          ⟨htime, hprice⟩
    · intro hno
      cases hr : timeTraveler sells buys with
      | none => rfl
      | some r =>
        obtain ⟨bt, bp, st, sp⟩ := r
        obtain ⟨h1, h2, h3, h4, _⟩ := timeTraveler_optimal hr
        exact absurd ⟨bt, bp, st, sp, h1, h2, h3, h4⟩ hno
  refine ⟨main, ?_⟩
  intro m i hs hb
  rw [← main]
  unfold timeTravelerLine
  rw [hs, hb]
  cases timeTraveler sells buys with
  | none => simp
  | some r =>
    obtain ⟨bt, bp, st, sp⟩ := r
    simp

/-- C6 on three histories without an opportunity: an empty sell history, a sell quote
that is not earlier than any buy quote, and buy quotes that are not higher. -/
theorem C6_no_opportunity_witness :
    timeTraveler [] [(1, 5)] = none ∧ timeTraveler [(7, 1)] [(3, 9), (7, 9)] = none ∧
    timeTraveler [(1, 10)] [(2, 10), (3, 4)] = none ∧
    ¬ ∃ ts ps tb pb, (ts, ps) ∈ [(7, 1)] ∧ (tb, pb) ∈ [(3, 9), (7, 9)] ∧ tb > ts ∧ pb > ps :=
  ⟨by decide, by decide, by decide,
   (C6_no_opportunity [(7, 1)] [(3, 9), (7, 9)]).1.mp (by decide)⟩

/-! ## C7: cash per trade -/

/-- The cash entries after the bookkeeping of one trade between two different
traders: the buyer's entry falls and the seller's entry rises by the `unsigned`
product of price and quantity, and every other entry is unchanged. -/
theorem recordTrade_net_transfer (m : Market) (stock buyer seller price q : Nat)
    (h : buyer ≠ seller) :
    (recordTrade m stock buyer seller price q).trader_net_transfer buyer =
        m.trader_net_transfer buyer - ((price * q % U32 : Nat) : Int) ∧
    (recordTrade m stock buyer seller price q).trader_net_transfer seller =
        m.trader_net_transfer seller + ((price * q % U32 : Nat) : Int) ∧
    ∀ i, i ≠ buyer → i ≠ seller →
      (recordTrade m stock buyer seller price q).trader_net_transfer i =
        m.trader_net_transfer i := by
  unfold recordTrade
  dsimp only
  refine ⟨?_, ?_, ?_⟩
  · simp [setAt, h]
  · simp [setAt, Ne.symm h]
  · intro i h1 h2
    simp [setAt, h1, h2]

/-- Where the product of price and quantity is below `2^32` the cash entries move
by exactly that product. -/
theorem recordTrade_net_transfer_exact (m : Market) (stock buyer seller price q : Nat)
    (h : buyer ≠ seller) (hpq : price * q < U32) :
    (recordTrade m stock buyer seller price q).trader_net_transfer buyer =
        m.trader_net_transfer buyer - ((price * q : Nat) : Int) ∧
    (recordTrade m stock buyer seller price q).trader_net_transfer seller =
        m.trader_net_transfer seller + ((price * q : Nat) : Int) := by
  obtain ⟨h1, h2, _⟩ := recordTrade_net_transfer m stock buyer seller price q h
  rw [Nat.mod_eq_of_lt hpq] at h1 h2
  exact ⟨h1, h2⟩

set_option maxRecDepth 4000 in
/-- C7 at the input `SELL T0 S0 $65536 #65536`, `BUY T1 S0 $65536 #65536`: one trade
of 65536 shares at 65536 between buyer 1 and seller 0 is executed, and both cash
entries stay 0 (the trader report prints a net transfer of 0 for both), although the
product of price and quantity is 4294967296. -/
theorem C7_trade_value_overflow :
    (processOrders (Market.init 2 1 false false true false)
      [⟨1, "SELL", 0, 0, 65536, 65536⟩, ⟨1, "BUY", 1, 0, 65536, 65536⟩]).map
      (fun r => (r.2, r.1.trade_log, r.1.trader_net_transfer 1, r.1.trader_net_transfer 0,
        r.1.out)) =
    some (false, [⟨1, 0, 0, 65536, 65536⟩], 0, 0,
      [Output.endOfDay 1, Output.traderInfoHeader, Output.traderLine 0 0 65536 0,
       Output.traderLine 1 65536 0 0]) ∧
    (0 : Int) - ((65536 * 65536 : Nat) : Int) = -4294967296 := by
  constructor
  · decide
  · decide

/-! ## C9: the median -/

/-- The median of `printMedian` is the median of the specification whenever the sum
of the two middle prices is below `2^32`, and always for an odd number of prices. -/
theorem medianOfSorted_eq_medianSpec (s : List Nat)
    (h : s.length % 2 = 0 → s.getD (s.length / 2 - 1) 0 + s.getD (s.length / 2) 0 < U32) :
    medianOfSorted s = medianSpec s := by
  unfold medianOfSorted medianSpec
  by_cases he : s.length % 2 = 0
  · have ho : ¬ s.length % 2 = 1 := by omega
    rw [if_pos he, if_neg ho, Nat.mod_eq_of_lt (h he)]
  · have ho : s.length % 2 = 1 := by omega
    rw [if_neg he, if_pos ho]

set_option maxRecDepth 4000 in
/-- C9 at a run with median reporting in which stock 0 trades twice at the price
3000000000: the median line printed at the end of the day shows 852516352, while the
floor of the exact mean of the two middle values is 3000000000. -/
theorem C9_median_overflow :
    (processOrders (Market.init 2 1 false true false false)
      [⟨1, "SELL", 0, 0, 3000000000, 1⟩, ⟨1, "BUY", 1, 0, 3000000000, 1⟩,
       ⟨1, "SELL", 0, 0, 3000000000, 1⟩, ⟨1, "BUY", 1, 0, 3000000000, 1⟩]).map
      (fun r => (r.2, r.1.trade_prices 0, r.1.out)) =
    some (false, [3000000000, 3000000000],
      [Output.medianLine 0 1 852516352, Output.endOfDay 2]) ∧
    medianOfSorted (sortPrices [3000000000, 3000000000]) = 852516352 ∧
    medianSpec (sortPrices [3000000000, 3000000000]) = 3000000000 ∧
    medianOfSorted (sortPrices [10, 20, 30]) = 20 ∧
    medianOfSorted (sortPrices [10, 20]) = 15 := by
  refine ⟨?_, ?_, ?_, ?_, ?_⟩ <;> decide

/-! ## C8: share conservation -/

theorem buyTrade_counts (m : Market) (b s : Order) :
    (buyTrade m b s).1.trader_buy_count =
        setAt m.trader_buy_count b.trader_id
          ((m.trader_buy_count b.trader_id + min s.quantity b.quantity) % U32) ∧
    (buyTrade m b s).1.trader_sell_count =
        setAt m.trader_sell_count s.trader_id
          ((m.trader_sell_count s.trader_id + min s.quantity b.quantity) % U32) := by
  unfold buyTrade recordTrade
  dsimp only
  split <;> exact ⟨rfl, rfl⟩

theorem sellTrade_counts (m : Market) (s b : Order) :
    (sellTrade m s b).1.trader_buy_count =
        setAt m.trader_buy_count b.trader_id
          ((m.trader_buy_count b.trader_id + min b.quantity s.quantity) % U32) ∧
    (sellTrade m s b).1.trader_sell_count =
        setAt m.trader_sell_count s.trader_id
          ((m.trader_sell_count s.trader_id + min b.quantity s.quantity) % U32) := by
  unfold sellTrade recordTrade
  dsimp only
  split <;> exact ⟨rfl, rfl⟩

theorem boughtBy_append (log : List Trade) (t : Trade) (i : Nat) :
    boughtBy (log ++ [t]) i = boughtBy log i + (if t.buyer = i then t.quantity else 0) := by
  simp [boughtBy]

theorem soldBy_append (log : List Trade) (t : Trade) (i : Nat) :
    soldBy (log ++ [t]) i = soldBy log i + (if t.seller = i then t.quantity else 0) := by
  simp [soldBy]

theorem totalTraded_append (log : List Trade) (t : Trade) :
    totalTraded (log ++ [t]) = totalTraded log + t.quantity := by
  simp [totalTraded]

/-- The counters stay the traded quantities modulo `2^32` when a trade is appended
to the log and added to the counters of its buyer and its seller. -/
theorem LedgerInv_trade {m m1 : Market} (t : Trade) (inv : LedgerInv m)
    (hlog : m1.trade_log = m.trade_log ++ [t])
    (hbuy : m1.trader_buy_count =
      setAt m.trader_buy_count t.buyer ((m.trader_buy_count t.buyer + t.quantity) % U32))
    (hsell : m1.trader_sell_count =
      setAt m.trader_sell_count t.seller ((m.trader_sell_count t.seller + t.quantity) % U32)) :
    LedgerInv m1 := by
  intro i
  rw [hlog, hbuy, hsell, boughtBy_append, soldBy_append]
  constructor
  · by_cases hi : i = t.buyer
    · subst hi
      rw [setAt_same, (inv t.buyer).1]
      simp only [if_true]
      exact Nat.mod_add_mod _ _ _
    · rw [setAt_other _ _ hi, (inv i).1, if_neg (Ne.symm hi), Nat.add_zero]
  · by_cases hi : i = t.seller
    · subst hi
      rw [setAt_same, (inv t.seller).2]
      simp only [if_true]
      exact Nat.mod_add_mod _ _ _
    · rw [setAt_other _ _ hi, (inv i).2, if_neg (Ne.symm hi), Nat.add_zero]

theorem LedgerInv_of_eq {m m1 : Market} (inv : LedgerInv m) (hlog : m1.trade_log = m.trade_log)
    (hbuy : m1.trader_buy_count = m.trader_buy_count)
    (hsell : m1.trader_sell_count = m.trader_sell_count) : LedgerInv m1 := by
  intro i
  rw [hlog, hbuy, hsell]
  exact inv i

theorem TradersBelow_of_eq {n : Nat} {m m1 : Market} (inv : TradersBelow n m)
    (hlog : m1.trade_log = m.trade_log) (hbuy : m1.buy_orders = m.buy_orders)
    (hsell : m1.sell_orders = m.sell_orders) : TradersBelow n m1 := by
  unfold TradersBelow
  rw [hlog, hbuy, hsell]
  exact inv

theorem mem_buyTrade_sell_orders {m : Market} {b s : Order} {j : Nat} {a : Order}
    (ha : a ∈ (buyTrade m b s).1.sell_orders j) :
    a ∈ m.sell_orders j ∨ a = { s with quantity := s.quantity - min s.quantity b.quantity } := by
  rw [buyTrade_sell_orders] at ha
  by_cases hj : j = b.stock_id
  · subst hj
    rw [setAt_same] at ha
    split at ha
    · rcases mem_pqPush ha with h | h
      · exact Or.inl (mem_pqPop h)
      · exact Or.inr h
    · exact Or.inl (mem_pqPop ha)
  · rw [setAt_other _ _ hj] at ha
    exact Or.inl ha

theorem mem_sellTrade_buy_orders {m : Market} {s b : Order} {j : Nat} {x : Order}
    (hx : x ∈ (sellTrade m s b).1.buy_orders j) :
    x ∈ m.buy_orders j ∨ x = { b with quantity := b.quantity - min b.quantity s.quantity } := by
  rw [sellTrade_buy_orders] at hx
  by_cases hj : j = s.stock_id
  · subst hj
    rw [setAt_same] at hx
    split at hx
    · rcases mem_pqPush hx with h | h
      · exact Or.inl (mem_pqPop h)
      · exact Or.inr h
    · exact Or.inl (mem_pqPop hx)
  · rw [setAt_other _ _ hj] at hx
    exact Or.inl hx

theorem handleBuyOrder_ledger {n : Nat} {m m1 : Market} {b : Order}
    (h : handleBuyOrder m b = some m1) (hb : b.trader_id < n)
    (inv : LedgerInv m ∧ TradersBelow n m) : LedgerInv m1 ∧ TradersBelow n m1 := by
  unfold handleBuyOrder at h
  cases hl : buyLoop ((m.sell_orders b.stock_id).length + 1) m b with
  | none => simp [hl] at h
  | some r =>
    rw [hl] at h
    have key := (buyLoop_inv
      (fun m2 b2 => (LedgerInv m2 ∧ TradersBelow n m2) ∧ b2.trader_id < n)
      (by
        intro m2 b2 s _ hs _ ⟨⟨hL, hT⟩, hb2⟩
        have hsn : s.trader_id < n := hT.2.1 _ s (pqTop_mem hs)
        refine ⟨⟨?_, ?_, ?_, ?_⟩, hb2⟩
        · exact LedgerInv_trade
            ⟨b2.trader_id, s.trader_id, b2.stock_id, s.price, min s.quantity b2.quantity⟩ hL
            (buyTrade_trade_log m2 b2 s) (buyTrade_counts m2 b2 s).1 (buyTrade_counts m2 b2 s).2
        · intro j o ho
          rw [buyTrade_buy_orders] at ho
          exact hT.1 j o ho
        · intro j o ho
          rcases mem_buyTrade_sell_orders ho with ho | ho
          · exact hT.2.1 j o ho
          · rw [ho]
            exact hsn
        · intro t ht
          rw [buyTrade_trade_log] at ht
          rcases List.mem_append.mp ht with ht | ht
          · exact hT.2.2 t ht
          · simp only [List.mem_singleton] at ht
            subst ht
            exact ⟨hb2, hsn⟩)
      _ m b r hl ⟨inv, hb⟩).1
    obtain ⟨⟨hL, hT⟩, hb2⟩ := key
    obtain ⟨m2, b2⟩ := r
    dsimp only at h hL hT hb2
    split at h
    · simp only [Option.some.injEq] at h
      subst h
      refine ⟨LedgerInv_of_eq hL rfl rfl rfl, ?_, hT.2.1, hT.2.2⟩
      intro j o ho
      dsimp only at ho
      by_cases hj : j = b2.stock_id
      · subst hj
        rw [setAt_same] at ho
        rcases mem_pqPush ho with ho | ho
        · exact hT.1 _ o ho
        · rw [ho]
          exact hb2
      · rw [setAt_other _ _ hj] at ho
        exact hT.1 j o ho
    · simp only [Option.some.injEq] at h
      subst h
      exact ⟨hL, hT⟩

theorem handleSellOrder_ledger {n : Nat} {m m1 : Market} {s : Order}
    (h : handleSellOrder m s = some m1) (hs : s.trader_id < n)
    (inv : LedgerInv m ∧ TradersBelow n m) : LedgerInv m1 ∧ TradersBelow n m1 := by
  unfold handleSellOrder at h
  cases hl : sellLoop ((m.buy_orders s.stock_id).length + 1) m s with
  | none => simp [hl] at h
  | some r =>
    rw [hl] at h
    have key := (sellLoop_inv
      (fun m2 s2 => (LedgerInv m2 ∧ TradersBelow n m2) ∧ s2.trader_id < n)
      (by
        intro m2 s2 b _ hb _ ⟨⟨hL, hT⟩, hs2⟩
        have hbn : b.trader_id < n := hT.1 _ b (pqTop_mem hb)
        refine ⟨⟨?_, ?_, ?_, ?_⟩, hs2⟩
        · exact LedgerInv_trade
            ⟨b.trader_id, s2.trader_id, s2.stock_id, b.price, min b.quantity s2.quantity⟩ hL
            (sellTrade_trade_log m2 s2 b) (sellTrade_counts m2 s2 b).1
            (sellTrade_counts m2 s2 b).2
        · intro j o ho
          rcases mem_sellTrade_buy_orders ho with ho | ho
          · exact hT.1 j o ho
          · rw [ho]
            exact hbn
        · intro j o ho
          rw [sellTrade_sell_orders] at ho
          exact hT.2.1 j o ho
        · intro t ht
          rw [sellTrade_trade_log] at ht
          rcases List.mem_append.mp ht with ht | ht
          · exact hT.2.2 t ht
          · simp only [List.mem_singleton] at ht
            subst ht
            exact ⟨hbn, hs2⟩)
      _ m s r hl ⟨inv, hs⟩).1
    obtain ⟨⟨hL, hT⟩, hs2⟩ := key
    obtain ⟨m2, s2⟩ := r
    dsimp only at h hL hT hs2
    split at h
    · simp only [Option.some.injEq] at h
      subst h
      refine ⟨LedgerInv_of_eq hL rfl rfl rfl, hT.1, ?_, hT.2.2⟩
      intro j o ho
      dsimp only at ho
      by_cases hj : j = s2.stock_id
      · subst hj
        rw [setAt_same] at ho
        rcases mem_pqPush ho with ho | ho
        · exact hT.2.1 _ o ho
        · rw [ho]
          exact hs2
      · rw [setAt_other _ _ hj] at ho
        exact hT.2.1 j o ho
    · simp only [Option.some.injEq] at h
      subst h
      exact ⟨hL, hT⟩

theorem runOrders_ledger {n : Nat} (os : List Order) :
    ∀ {m m1 : Market}, runOrders m os = some m1 → (∀ o ∈ os, o.trader_id < n) →
      LedgerInv m ∧ TradersBelow n m → LedgerInv m1 ∧ TradersBelow n m1 := by
  induction os with
  | nil =>
    intro m m1 h _ inv
    simp only [runOrders, Option.some.injEq] at h
    exact h ▸ inv
  | cons o os ih =>
    intro m m1 h hid inv
    simp only [runOrders] at h
    cases ho : handleOrder m o with
    | none => simp [ho] at h
    | some m2 =>
      rw [ho] at h
      refine ih h (fun x hx => hid x (List.mem_cons_of_mem _ hx)) ?_
      have hon : o.trader_id < n := hid o (List.mem_cons_self _ _)
      unfold handleOrder at ho
      split at ho
      · exact handleBuyOrder_ledger ho hon inv
      · exact handleSellOrder_ledger ho hon inv

theorem sumOver_succ (n : Nat) (f : Nat → Nat) : sumOver (n + 1) f = sumOver n f + f n := by
  simp [sumOver, List.range_succ]

theorem sumOver_add (n : Nat) (f g : Nat → Nat) :
    sumOver n (fun i => f i + g i) = sumOver n f + sumOver n g := by
  induction n with
  | zero => simp [sumOver]
  | succ k ih =>
    rw [sumOver_succ, sumOver_succ, sumOver_succ, ih]
    omega

theorem sumOver_single (n j q : Nat) :
    sumOver n (fun i => if j = i then q else 0) = if j < n then q else 0 := by
  induction n with
  | zero => simp [sumOver]
  | succ k ih =>
    rw [sumOver_succ, ih]
    by_cases h1 : j < k
    · have h2 : j ≠ k := by omega
      have h3 : j < k + 1 := by omega
      simp [h1, h2, h3]
    · by_cases h2 : j = k
      · subst h2
        simp
      · have h3 : ¬ j < k + 1 := by omega
        simp [h1, h2, h3]

theorem sumOver_congr {n : Nat} {f g : Nat → Nat} (h : ∀ i, i < n → f i = g i) :
    sumOver n f = sumOver n g := by
  induction n with
  | zero => simp [sumOver]
  | succ k ih =>
    rw [sumOver_succ, sumOver_succ, ih (fun i hi => h i (by omega)), h k (by omega)]

theorem sumOver_le {n : Nat} (f : Nat → Nat) {i : Nat} (hi : i < n) : f i ≤ sumOver n f := by
  induction n with
  | zero => omega
  | succ k ih =>
    rw [sumOver_succ]
    by_cases h : i < k
    · have := ih h
      omega
    · have : i = k := by omega
      subst this
      omega

theorem sumOver_mod (n : Nat) (f : Nat → Nat) :
    sumOver n (fun i => f i % U32) % U32 = sumOver n f % U32 := by
  induction n with
  | zero => simp [sumOver]
  | succ k ih =>
    rw [sumOver_succ, sumOver_succ, Nat.add_mod, ih, Nat.mod_mod, ← Nat.add_mod]

theorem sumOver_boughtBy (n : Nat) (log : List Trade) (h : ∀ t ∈ log, t.buyer < n) :
    sumOver n (boughtBy log) = totalTraded log := by
  induction log with
  | nil =>
    have : boughtBy [] = fun _ => 0 := by funext i; simp [boughtBy]
    rw [this]
    simp [totalTraded, sumOver]
  | cons t ts ih =>
    have hfun : boughtBy (t :: ts) =
        fun i => (if t.buyer = i then t.quantity else 0) + boughtBy ts i := by
      funext i
      simp [boughtBy]
    rw [hfun, sumOver_add, sumOver_single, ih (fun x hx => h x (List.mem_cons_of_mem _ hx)),
      if_pos (h t (List.mem_cons_self _ _))]
    simp [totalTraded]

theorem sumOver_soldBy (n : Nat) (log : List Trade) (h : ∀ t ∈ log, t.seller < n) :
    sumOver n (soldBy log) = totalTraded log := by
  induction log with
  | nil =>
    have : soldBy [] = fun _ => 0 := by funext i; simp [soldBy]
    rw [this]
    simp [totalTraded, sumOver]
  | cons t ts ih =>
    have hfun : soldBy (t :: ts) =
        fun i => (if t.seller = i then t.quantity else 0) + soldBy ts i := by
      funext i
      simp [soldBy]
    rw [hfun, sumOver_add, sumOver_single, ih (fun x hx => h x (List.mem_cons_of_mem _ hx)),
      if_pos (h t (List.mem_cons_self _ _))]
    simp [totalTraded]

theorem LedgerInv_init (traders stocks : Nat) (v me ti tt : Bool) :
    LedgerInv (Market.init traders stocks v me ti tt) ∧
      TradersBelow traders (Market.init traders stocks v me ti tt) := by
  refine ⟨?_, ?_, ?_, ?_⟩
  · intro i
    simp [Market.init, boughtBy, soldBy]
  · intro s o ho
    simp [Market.init] at ho
  · intro s o ho
    simp [Market.init] at ho
  · intro t ht
    simp [Market.init] at ht

/-- The two sums of quantity counters of a state that keeps the ledger invariant. -/
theorem ledger_sums {n : Nat} {m : Market} (hL : LedgerInv m) (hT : TradersBelow n m) :
    sumOver n m.trader_buy_count % U32 = totalTraded m.trade_log % U32 ∧
    sumOver n m.trader_sell_count % U32 = totalTraded m.trade_log % U32 ∧
    (totalTraded m.trade_log < U32 →
      sumOver n m.trader_buy_count = totalTraded m.trade_log ∧
      sumOver n m.trader_sell_count = totalTraded m.trade_log) := by
  have hb : m.trader_buy_count = fun i => boughtBy m.trade_log i % U32 := by
    funext i; exact (hL i).1
  have hs : m.trader_sell_count = fun i => soldBy m.trade_log i % U32 := by
    funext i; exact (hL i).2
  have hbs := sumOver_boughtBy n m.trade_log (fun t ht => (hT.2.2 t ht).1)
  have hss := sumOver_soldBy n m.trade_log (fun t ht => (hT.2.2 t ht).2)
  refine ⟨?_, ?_, ?_⟩
  · rw [hb, sumOver_mod, hbs]
  · rw [hs, sumOver_mod, hss]
  · intro hlt
    constructor
    · rw [hb, ← hbs]
      apply sumOver_congr
      intro i hi
      apply Nat.mod_eq_of_lt
      have := sumOver_le (boughtBy m.trade_log) hi
      omega
    · rw [hs, ← hss]
      apply sumOver_congr
      intro i hi
      apply Nat.mod_eq_of_lt
      have := sumOver_le (soldBy m.trade_log) hi
      omega

set_option maxRecDepth 4000 in
/-- C8 as stated fails: trader 0 buys `2^31` shares from trader 1 and `2^31` shares
from trader 2. The trades have a total quantity of `2^32`, the sold counters sum to
`2^32`, and the bought counter of trader 0 has wrapped to 0. -/
theorem C8_share_conservation_counterexample :
    (runOrders (Market.init 3 1 false false false false)
      [⟨1, "SELL", 1, 0, 1, 2147483648⟩, ⟨2, "SELL", 2, 0, 1, 2147483648⟩,
       ⟨3, "BUY", 0, 0, 1, 2147483648⟩, ⟨4, "BUY", 0, 0, 1, 2147483648⟩]).map
      (fun m => (sumOver 3 m.trader_buy_count, sumOver 3 m.trader_sell_count,
        totalTraded m.trade_log)) =
    some (0, 4294967296, 4294967296) := by
  decide

/-- C8, amended. Started from empty books and ledgers, every finite sequence of
orders whose trader ids are below `n` is processed to the end, and afterwards the sum
over the traders below `n` of `trader_buy_count` and the sum of `trader_sell_count`
are both congruent modulo `2^32` to the total quantity of the trades executed; when
that total is below `2^32`, both sums are equal to it. -/
theorem C8_share_conservation (n stocks : Nat) (v me ti tt : Bool) (orders : List Order)
    (hid : ∀ o ∈ orders, o.trader_id < n) :
    ∃ m, runOrders (Market.init n stocks v me ti tt) orders = some m ∧
      sumOver n m.trader_buy_count % U32 = totalTraded m.trade_log % U32 ∧
      sumOver n m.trader_sell_count % U32 = totalTraded m.trade_log % U32 ∧
      (totalTraded m.trade_log < U32 →
        sumOver n m.trader_buy_count = totalTraded m.trade_log ∧
        sumOver n m.trader_sell_count = totalTraded m.trade_log) := by
  obtain ⟨m, hm⟩ := runOrders_total orders (Market.init n stocks v me ti tt)
  obtain ⟨hL, hT⟩ := runOrders_ledger orders hm hid (LedgerInv_init n stocks v me ti tt)
  exact ⟨m, hm, ledger_sums hL hT⟩

/-- C8 on a run with two trades of 5 and 2 shares: the counters sum to 7 on both
sides. -/
theorem C8_share_conservation_witness :
    (runOrders (Market.init 3 1 false false false false)
      [⟨1, "SELL", 1, 0, 10, 5⟩, ⟨2, "SELL", 2, 0, 11, 4⟩, ⟨3, "BUY", 0, 0, 12, 7⟩]).map
      (fun m => (sumOver 3 m.trader_buy_count, sumOver 3 m.trader_sell_count,
        totalTraded m.trade_log)) = some (7, 7, 7) ∧
    ∃ m, runOrders (Market.init 3 1 false false false false)
        [⟨1, "SELL", 1, 0, 10, 5⟩, ⟨2, "SELL", 2, 0, 11, 4⟩, ⟨3, "BUY", 0, 0, 12, 7⟩] = some m ∧
      sumOver 3 m.trader_buy_count % U32 = totalTraded m.trade_log % U32 ∧
      sumOver 3 m.trader_sell_count % U32 = totalTraded m.trade_log % U32 ∧
      (totalTraded m.trade_log < U32 →
        sumOver 3 m.trader_buy_count = totalTraded m.trade_log ∧
        sumOver 3 m.trader_sell_count = totalTraded m.trade_log) :=
  ⟨by decide,
   C8_share_conservation 3 1 false false false false
     [⟨1, "SELL", 1, 0, 10, 5⟩, ⟨2, "SELL", 2, 0, 11, 4⟩, ⟨3, "BUY", 0, 0, 12, 7⟩]
     (by decide)⟩

/-! ## C10: the report toggles -/

theorem SameCore.refl (m : Market) : SameCore m m :=
  ⟨rfl, rfl, rfl, rfl, rfl, rfl, rfl, rfl, rfl, rfl, rfl, fun _ => List.Perm.refl _⟩

theorem SameCore.symm {m m1 : Market} (h : SameCore m m1) : SameCore m1 m :=
  ⟨h.num_traders.symm, h.num_stocks.symm, h.trades_completed.symm, h.buy_orders.symm,
   h.sell_orders.symm, h.trader_buy_count.symm, h.trader_sell_count.symm,
   h.trader_net_transfer.symm, h.buy_order_prices.symm, h.sell_order_prices.symm,
   h.trade_log.symm, fun i => (h.trade_prices i).symm⟩

theorem SameCore.trans {m m1 m2 : Market} (h : SameCore m m1) (h1 : SameCore m1 m2) :
    SameCore m m2 :=
  ⟨h.num_traders.trans h1.num_traders, h.num_stocks.trans h1.num_stocks,
   h.trades_completed.trans h1.trades_completed, h.buy_orders.trans h1.buy_orders,
   h.sell_orders.trans h1.sell_orders, h.trader_buy_count.trans h1.trader_buy_count,
   h.trader_sell_count.trans h1.trader_sell_count,
   h.trader_net_transfer.trans h1.trader_net_transfer,
   h.buy_order_prices.trans h1.buy_order_prices,
   h.sell_order_prices.trans h1.sell_order_prices, h.trade_log.trans h1.trade_log,
   fun i => (h.trade_prices i).trans (h1.trade_prices i)⟩

/-- The fields that one trade of `handleBuyOrder` leaves alone. -/
theorem buyTrade_frame (m : Market) (b s : Order) :
    (buyTrade m b s).1.num_traders = m.num_traders ∧
    (buyTrade m b s).1.num_stocks = m.num_stocks ∧
    (buyTrade m b s).1.buy_order_prices = m.buy_order_prices ∧
    (buyTrade m b s).1.sell_order_prices = m.sell_order_prices ∧
    (buyTrade m b s).1.verbose = m.verbose ∧ (buyTrade m b s).1.median = m.median ∧
    (buyTrade m b s).1.trader_info = m.trader_info ∧
    (buyTrade m b s).1.time_travelers = m.time_travelers := by
  unfold buyTrade recordTrade
  dsimp only
  split <;> exact ⟨rfl, rfl, rfl, rfl, rfl, rfl, rfl, rfl⟩

/-- The fields that one trade of `handleSellOrder` leaves alone. -/
theorem sellTrade_frame (m : Market) (s b : Order) :
    (sellTrade m s b).1.num_traders = m.num_traders ∧
    (sellTrade m s b).1.num_stocks = m.num_stocks ∧
    (sellTrade m s b).1.buy_order_prices = m.buy_order_prices ∧
    (sellTrade m s b).1.sell_order_prices = m.sell_order_prices ∧
    (sellTrade m s b).1.verbose = m.verbose ∧ (sellTrade m s b).1.median = m.median ∧
    (sellTrade m s b).1.trader_info = m.trader_info ∧
    (sellTrade m s b).1.time_travelers = m.time_travelers := by
  unfold sellTrade recordTrade
  dsimp only
  split <;> exact ⟨rfl, rfl, rfl, rfl, rfl, rfl, rfl, rfl⟩

theorem buyTrade_trades_completed (m : Market) (b s : Order) :
    (buyTrade m b s).1.trades_completed = (m.trades_completed + 1) % U32 := by
  unfold buyTrade recordTrade
  dsimp only
  split <;> rfl

theorem sellTrade_trades_completed (m : Market) (s b : Order) :
    (sellTrade m s b).1.trades_completed = (m.trades_completed + 1) % U32 := by
  unfold sellTrade recordTrade
  dsimp only
  split <;> rfl

/-- The cash entries after one trade of `handleBuyOrder`. -/
theorem buyTrade_net_transfer (m : Market) (b s : Order) :
    (buyTrade m b s).1.trader_net_transfer =
      setAt (setAt m.trader_net_transfer b.trader_id
          (m.trader_net_transfer b.trader_id -
            ((s.price * min s.quantity b.quantity % U32 : Nat) : Int)))
        s.trader_id
        (setAt m.trader_net_transfer b.trader_id
          (m.trader_net_transfer b.trader_id -
            ((s.price * min s.quantity b.quantity % U32 : Nat) : Int)) s.trader_id +
          ((s.price * min s.quantity b.quantity % U32 : Nat) : Int)) := by
  unfold buyTrade recordTrade
  dsimp only
  split <;> rfl

/-- The cash entries after one trade of `handleSellOrder`. -/
theorem sellTrade_net_transfer (m : Market) (s b : Order) :
    (sellTrade m s b).1.trader_net_transfer =
      setAt (setAt m.trader_net_transfer b.trader_id
          (m.trader_net_transfer b.trader_id -
            ((b.price * min b.quantity s.quantity % U32 : Nat) : Int)))
        s.trader_id
        (setAt m.trader_net_transfer b.trader_id
          (m.trader_net_transfer b.trader_id -
            ((b.price * min b.quantity s.quantity % U32 : Nat) : Int)) s.trader_id +
          ((b.price * min b.quantity s.quantity % U32 : Nat) : Int)) := by
  unfold sellTrade recordTrade
  dsimp only
  split <;> rfl

theorem perm_setAt_append {f g : Nat → List Nat} (h : ∀ i, (f i).Perm (g i)) (j p : Nat) :
    ∀ i, (setAt f j (f j ++ [p]) i).Perm (setAt g j (g j ++ [p]) i) := by
  intro i
  by_cases hi : i = j
  · subst hi
    rw [setAt_same, setAt_same]
    exact (h i).append_right _
  · rw [setAt_other _ _ hi, setAt_other _ _ hi]
    exact h i

theorem buyTrade_sameCore {m m1 : Market} (h : SameCore m m1) (b s : Order) :
    SameCore (buyTrade m b s).1 (buyTrade m1 b s).1 := by
  obtain ⟨a1, a2, a3, a4, _⟩ := buyTrade_frame m b s
  obtain ⟨b1, b2, b3, b4, _⟩ := buyTrade_frame m1 b s
  refine ⟨?_, ?_, ?_, ?_, ?_, ?_, ?_, ?_, ?_, ?_, ?_, ?_⟩
  · rw [a1, b1, h.num_traders]
  · rw [a2, b2, h.num_stocks]
  · rw [buyTrade_trades_completed, buyTrade_trades_completed, h.trades_completed]
  · rw [buyTrade_buy_orders, buyTrade_buy_orders, h.buy_orders]
  · rw [buyTrade_sell_orders, buyTrade_sell_orders, h.sell_orders]
  · rw [(buyTrade_counts m b s).1, (buyTrade_counts m1 b s).1, h.trader_buy_count]
  · rw [(buyTrade_counts m b s).2, (buyTrade_counts m1 b s).2, h.trader_sell_count]
  · rw [buyTrade_net_transfer, buyTrade_net_transfer, h.trader_net_transfer]
  · rw [a3, b3, h.buy_order_prices]
  · rw [a4, b4, h.sell_order_prices]
  · rw [buyTrade_trade_log, buyTrade_trade_log, h.trade_log]
  · rw [buyTrade_trade_prices, buyTrade_trade_prices]
    exact perm_setAt_append h.trade_prices _ _

theorem sellTrade_sameCore {m m1 : Market} (h : SameCore m m1) (s b : Order) :
    SameCore (sellTrade m s b).1 (sellTrade m1 s b).1 := by
  obtain ⟨a1, a2, a3, a4, _⟩ := sellTrade_frame m s b
  obtain ⟨b1, b2, b3, b4, _⟩ := sellTrade_frame m1 s b
  refine ⟨?_, ?_, ?_, ?_, ?_, ?_, ?_, ?_, ?_, ?_, ?_, ?_⟩
  · rw [a1, b1, h.num_traders]
  · rw [a2, b2, h.num_stocks]
  · rw [sellTrade_trades_completed, sellTrade_trades_completed, h.trades_completed]
  · rw [sellTrade_buy_orders, sellTrade_buy_orders, h.buy_orders]
  · rw [sellTrade_sell_orders, sellTrade_sell_orders, h.sell_orders]
  · rw [(sellTrade_counts m s b).1, (sellTrade_counts m1 s b).1, h.trader_buy_count]
  · rw [(sellTrade_counts m s b).2, (sellTrade_counts m1 s b).2, h.trader_sell_count]
  · rw [sellTrade_net_transfer, sellTrade_net_transfer, h.trader_net_transfer]
  · rw [a3, b3, h.buy_order_prices]
  · rw [a4, b4, h.sell_order_prices]
  · rw [sellTrade_trade_log, sellTrade_trade_log, h.trade_log]
  · rw [sellTrade_trade_prices, sellTrade_trade_prices]
    exact perm_setAt_append h.trade_prices _ _

theorem buyLoop_sameCore :
    ∀ (fuel : Nat) (m m1 : Market) (b : Order) (r : Market × Order), SameCore m m1 →
      buyLoop fuel m b = some r →
      ∃ r1, buyLoop fuel m1 b = some r1 ∧ SameCore r.1 r1.1 ∧ r.2 = r1.2 := by
  intro fuel
  induction fuel with
  | zero => intro m m1 b r _ h; simp [buyLoop] at h
  | succ n ih =>
    intro m m1 b r hs h
    simp only [buyLoop] at h ⊢
    rw [← hs.sell_orders]
    split at h
    · rename_i hc
      rw [if_pos hc]
      simp only [Option.some.injEq] at h
      subst h
      exact ⟨_, rfl, hs, rfl⟩
    · rename_i hc
      rw [if_neg hc]
      split at h
      · rename_i hnone
        simp only [Option.some.injEq] at h
        subst h
        exact ⟨_, rfl, hs, rfl⟩
      · rename_i s hsome
        split at h
        · rename_i hle
          rw [if_pos hle]
          have := ih _ (buyTrade m1 b s).1 _ r (buyTrade_sameCore hs b s) h
          simpa using this
        · rename_i hle
          rw [if_neg hle]
          simp only [Option.some.injEq] at h
          subst h
          exact ⟨_, rfl, hs, rfl⟩

theorem sellLoop_sameCore :
    ∀ (fuel : Nat) (m m1 : Market) (s : Order) (r : Market × Order), SameCore m m1 →
      sellLoop fuel m s = some r →
      ∃ r1, sellLoop fuel m1 s = some r1 ∧ SameCore r.1 r1.1 ∧ r.2 = r1.2 := by
  intro fuel
  induction fuel with
  | zero => intro m m1 s r _ h; simp [sellLoop] at h
  | succ n ih =>
    intro m m1 s r hs h
    simp only [sellLoop] at h ⊢
    rw [← hs.buy_orders]
    split at h
    · rename_i hc
      rw [if_pos hc]
      simp only [Option.some.injEq] at h
      subst h
      exact ⟨_, rfl, hs, rfl⟩
    · rename_i hc
      rw [if_neg hc]
      split at h
      · rename_i hnone
        simp only [Option.some.injEq] at h
        subst h
        exact ⟨_, rfl, hs, rfl⟩
      · rename_i b hsome
        split at h
        · rename_i hle
          rw [if_pos hle]
          have := ih _ (sellTrade m1 s b).1 _ r (sellTrade_sameCore hs s b) h
          simpa using this
        · rename_i hle
          rw [if_neg hle]
          simp only [Option.some.injEq] at h
          subst h
          exact ⟨_, rfl, hs, rfl⟩

theorem handleBuyOrder_sameCore {m m1 r : Market} {b : Order} (hs : SameCore m m1)
    (h : handleBuyOrder m b = some r) :
    ∃ r1, handleBuyOrder m1 b = some r1 ∧ SameCore r r1 := by
  unfold handleBuyOrder at h ⊢
  rw [← hs.sell_orders]
  cases hl : buyLoop ((m.sell_orders b.stock_id).length + 1) m b with
  | none => simp [hl] at h
  | some x =>
    rw [hl] at h
    obtain ⟨x1, hx1, hsc, hx2⟩ := buyLoop_sameCore _ m m1 b x hs hl
    rw [hx1]
    obtain ⟨m2, b2⟩ := x
    obtain ⟨m3, b3⟩ := x1
    dsimp only at h hsc hx2 ⊢
    subst hx2
    split at h
    · rename_i hq
      rw [if_pos hq]
      simp only [Option.some.injEq] at h
      subst h
      refine ⟨_, rfl, ?_⟩
      exact ⟨hsc.num_traders, hsc.num_stocks, hsc.trades_completed,
        by dsimp only; rw [hsc.buy_orders], hsc.sell_orders, hsc.trader_buy_count,
        hsc.trader_sell_count, hsc.trader_net_transfer, hsc.buy_order_prices,
        hsc.sell_order_prices, hsc.trade_log, hsc.trade_prices⟩
    · rename_i hq
      rw [if_neg hq]
      simp only [Option.some.injEq] at h
      subst h
      exact ⟨_, rfl, hsc⟩

theorem handleSellOrder_sameCore {m m1 r : Market} {s : Order} (hs : SameCore m m1)
    (h : handleSellOrder m s = some r) :
    ∃ r1, handleSellOrder m1 s = some r1 ∧ SameCore r r1 := by
  unfold handleSellOrder at h ⊢
  rw [← hs.buy_orders]
  cases hl : sellLoop ((m.buy_orders s.stock_id).length + 1) m s with
  | none => simp [hl] at h
  | some x =>
    rw [hl] at h
    obtain ⟨x1, hx1, hsc, hx2⟩ := sellLoop_sameCore _ m m1 s x hs hl
    rw [hx1]
    obtain ⟨m2, s2⟩ := x
    obtain ⟨m3, s3⟩ := x1
    dsimp only at h hsc hx2 ⊢
    subst hx2
    split at h
    · rename_i hq
      rw [if_pos hq]
      simp only [Option.some.injEq] at h
      subst h
      refine ⟨_, rfl, ?_⟩
      exact ⟨hsc.num_traders, hsc.num_stocks, hsc.trades_completed,
        hsc.buy_orders, by dsimp only; rw [hsc.sell_orders], hsc.trader_buy_count,
        hsc.trader_sell_count, hsc.trader_net_transfer, hsc.buy_order_prices,
        hsc.sell_order_prices, hsc.trade_log, hsc.trade_prices⟩
    · rename_i hq
      rw [if_neg hq]
      simp only [Option.some.injEq] at h
      subst h
      exact ⟨_, rfl, hsc⟩

theorem handleOrder_sameCore {m m1 r : Market} {o : Order} (hs : SameCore m m1)
    (h : handleOrder m o = some r) : ∃ r1, handleOrder m1 o = some r1 ∧ SameCore r r1 := by
  unfold handleOrder at h ⊢
  split at h
  · rename_i hb
    rw [if_pos hb]
    exact handleBuyOrder_sameCore hs h
  · rename_i hb
    rw [if_neg hb]
    exact handleSellOrder_sameCore hs h

/-- The loop body of `printMedian` changes only the output and the order of the
recorded prices. -/
theorem printMedianStock_sameCore (timestamp : Nat) (m : Market) (i : Nat) :
    SameCore m (printMedianStock timestamp m i) := by
  unfold printMedianStock
  split
  · refine ⟨rfl, rfl, rfl, rfl, rfl, rfl, rfl, rfl, rfl, rfl, rfl, ?_⟩
    intro j
    dsimp only
    by_cases hj : j = i
    · subst hj
      rw [setAt_same]
      exact (List.perm_insertionSort _ _).symm
    · rw [setAt_other _ _ hj]
  · exact SameCore.refl m

theorem foldl_printMedianStock_sameCore (timestamp : Nat) (l : List Nat) :
    ∀ m : Market, SameCore m (l.foldl (printMedianStock timestamp) m) := by
  induction l with
  | nil => intro m; exact SameCore.refl m
  | cons i l ih =>
    intro m
    exact (printMedianStock_sameCore timestamp m i).trans (ih _)

theorem printMedian_sameCore (m : Market) (timestamp : Nat) :
    SameCore m (printMedian m timestamp) :=
  foldl_printMedianStock_sameCore timestamp _ m

/-- Median reporting, switched on or off, keeps two states in agreement. -/
theorem sameCore_median {m m1 : Market} (hs : SameCore m m1) (c c1 : Bool) (t : Nat) :
    SameCore (if c = true then printMedian m t else m)
      (if c1 = true then printMedian m1 t else m1) := by
  have h1 : SameCore m (if c = true then printMedian m t else m) := by
    split
    · exact printMedian_sameCore m t
    · exact SameCore.refl m
  have h2 : SameCore m1 (if c1 = true then printMedian m1 t else m1) := by
    split
    · exact printMedian_sameCore m1 t
    · exact SameCore.refl m1
  exact (h1.symm.trans hs).trans h2

theorem sameCore_out {m m1 : Market} (hs : SameCore m m1) (x y : List Output) :
    SameCore { m with out := x } { m1 with out := y } :=
  ⟨hs.num_traders, hs.num_stocks, hs.trades_completed, hs.buy_orders, hs.sell_orders,
   hs.trader_buy_count, hs.trader_sell_count, hs.trader_net_transfer, hs.buy_order_prices,
   hs.sell_order_prices, hs.trade_log, hs.trade_prices⟩

theorem processRecords_sameCore (rs : List Order) :
    ∀ (m m1 : Market) (cur : Nat) (r : Market × Nat × Bool), SameCore m m1 →
      processRecords m cur rs = some r →
      ∃ r1, processRecords m1 cur rs = some r1 ∧ SameCore r.1 r1.1 ∧ r.2 = r1.2 := by
  induction rs with
  | nil =>
    intro m m1 cur r hs h
    simp only [processRecords, Option.some.injEq] at h
    subst h
    exact ⟨_, rfl, hs, rfl⟩
  | cons x xs ih =>
    intro m m1 cur r hs h
    simp only [processRecords] at h ⊢
    have hnt := hs.num_traders
    have hns := hs.num_stocks
    split at h
    · rename_i hc
      rw [if_pos hc]
      simp only [Option.some.injEq] at h
      subst h
      exact ⟨_, rfl, sameCore_out hs _ _, rfl⟩
    · rename_i hc
      rw [if_neg hc]
      split at h
      · rename_i hc2
        rw [if_pos (hnt ▸ hc2)]
        simp only [Option.some.injEq] at h
        subst h
        exact ⟨_, rfl, sameCore_out hs _ _, rfl⟩
      · rename_i hc2
        rw [if_neg (hnt ▸ hc2)]
        split at h
        · rename_i hc3
          rw [if_pos (hns ▸ hc3)]
          simp only [Option.some.injEq] at h
          subst h
          exact ⟨_, rfl, sameCore_out hs _ _, rfl⟩
        · rename_i hc3
          rw [if_neg (hns ▸ hc3)]
          split at h
          · rename_i hc4
            rw [if_pos hc4]
            simp only [Option.some.injEq] at h
            subst h
            exact ⟨_, rfl, sameCore_out hs _ _, rfl⟩
          · rename_i hc4
            rw [if_neg hc4]
            have hmed : SameCore
                (if x.timestamp ≠ cur then (if m.median = true then printMedian m cur else m)
                  else m)
                (if x.timestamp ≠ cur then
                  (if m1.median = true then printMedian m1 cur else m1) else m1) := by
              by_cases ht : x.timestamp ≠ cur
              · rw [if_pos ht, if_pos ht]
                exact sameCore_median hs _ _ _
              · rw [if_neg ht, if_neg ht]
                exact hs
            generalize (if x.timestamp ≠ cur then
              (if m.median = true then printMedian m cur else m) else m) = ma at h hmed
            generalize (if x.timestamp ≠ cur then
              (if m1.median = true then printMedian m1 cur else m1) else m1) = mb at hmed ⊢
            have hhist : SameCore
                (if x.type = "BUY" then
                  { ma with
                    buy_order_prices := setAt ma.buy_order_prices x.stock_id
                      (ma.buy_order_prices x.stock_id ++ [(x.timestamp, x.price)]) }
                else
                  { ma with
                    sell_order_prices := setAt ma.sell_order_prices x.stock_id
                      (ma.sell_order_prices x.stock_id ++ [(x.timestamp, x.price)]) })
                (if x.type = "BUY" then
                  { mb with
                    buy_order_prices := setAt mb.buy_order_prices x.stock_id
                      (mb.buy_order_prices x.stock_id ++ [(x.timestamp, x.price)]) }
                else
                  { mb with
                    sell_order_prices := setAt mb.sell_order_prices x.stock_id
                      (mb.sell_order_prices x.stock_id ++ [(x.timestamp, x.price)]) }) := by
              by_cases hb : x.type = "BUY"
              · rw [if_pos hb, if_pos hb]
                exact ⟨hmed.num_traders, hmed.num_stocks, hmed.trades_completed,
                  hmed.buy_orders, hmed.sell_orders, hmed.trader_buy_count,
                  hmed.trader_sell_count, hmed.trader_net_transfer,
                  by dsimp only; rw [hmed.buy_order_prices], hmed.sell_order_prices,
                  hmed.trade_log, hmed.trade_prices⟩
              · rw [if_neg hb, if_neg hb]
                exact ⟨hmed.num_traders, hmed.num_stocks, hmed.trades_completed,
                  hmed.buy_orders, hmed.sell_orders, hmed.trader_buy_count,
                  hmed.trader_sell_count, hmed.trader_net_transfer,
                  hmed.buy_order_prices, by dsimp only; rw [hmed.sell_order_prices],
                  hmed.trade_log, hmed.trade_prices⟩
            split at h
            · simp at h
            · rename_i m3 hm3
              obtain ⟨m4, hm4, hsc⟩ := handleOrder_sameCore hhist hm3
              rw [hm4]
              exact ih m3 m4 _ r hsc h

theorem sameCore_count {a b : Market} (hs : SameCore a b) :
    SameCore (if a.trades_completed = 7621 then { a with trades_completed := 7632 } else a)
      (if b.trades_completed = 7621 then { b with trades_completed := 7632 } else b) := by
  by_cases h : a.trades_completed = 7621
  · rw [if_pos h, if_pos (hs.trades_completed ▸ h)]
    exact ⟨hs.num_traders, hs.num_stocks, rfl, hs.buy_orders, hs.sell_orders,
      hs.trader_buy_count, hs.trader_sell_count, hs.trader_net_transfer, hs.buy_order_prices,
      hs.sell_order_prices, hs.trade_log, hs.trade_prices⟩
  · rw [if_neg h, if_neg (hs.trades_completed ▸ h)]
    exact hs

theorem sameCore_traderInfo {a b : Market} (hs : SameCore a b) (c c1 : Bool) :
    SameCore (if c = true then printTraderInfo a else a)
      (if c1 = true then printTraderInfo b else b) := by
  have h1 : SameCore a (if c = true then printTraderInfo a else a) := by
    split
    · exact sameCore_out (SameCore.refl a) _ _
    · exact SameCore.refl a
  have h2 : SameCore b (if c1 = true then printTraderInfo b else b) := by
    split
    · exact sameCore_out (SameCore.refl b) _ _
    · exact SameCore.refl b
  exact (h1.symm.trans hs).trans h2

theorem sameCore_timeTravelers {a b : Market} (hs : SameCore a b) (c c1 : Bool) :
    SameCore (if c = true then printTimeTravelers a else a)
      (if c1 = true then printTimeTravelers b else b) := by
  have h1 : SameCore a (if c = true then printTimeTravelers a else a) := by
    split
    · exact sameCore_out (SameCore.refl a) _ _
    · exact SameCore.refl a
  have h2 : SameCore b (if c1 = true then printTimeTravelers b else b) := by
    split
    · exact sameCore_out (SameCore.refl b) _ _
    · exact SameCore.refl b
  exact (h1.symm.trans hs).trans h2

theorem sameCore_sort {a b : Market} (hs : SameCore a b) :
    SameCore
      { a with
        buy_order_prices := fun i =>
          if i < a.num_stocks then sortPairs (a.buy_order_prices i) else a.buy_order_prices i
        sell_order_prices := fun i =>
          if i < a.num_stocks then sortPairs (a.sell_order_prices i) else a.sell_order_prices i }
      { b with
        buy_order_prices := fun i =>
          if i < b.num_stocks then sortPairs (b.buy_order_prices i) else b.buy_order_prices i
        sell_order_prices := fun i =>
          if i < b.num_stocks then sortPairs (b.sell_order_prices i) else b.sell_order_prices i } :=
  ⟨hs.num_traders, hs.num_stocks, hs.trades_completed, hs.buy_orders, hs.sell_orders,
   hs.trader_buy_count, hs.trader_sell_count, hs.trader_net_transfer,
   by dsimp only; rw [hs.num_stocks, hs.buy_order_prices],
   by dsimp only; rw [hs.num_stocks, hs.sell_order_prices], hs.trade_log, hs.trade_prices⟩

theorem endOfDay_sameCore {m m1 : Market} (hs : SameCore m m1) (cur : Nat) :
    SameCore (endOfDay m cur) (endOfDay m1 cur) := by
  unfold endOfDay
  exact sameCore_timeTravelers
    (sameCore_sort
      (sameCore_traderInfo (sameCore_out (sameCore_count (sameCore_median hs _ _ _)) _ _) _ _))
    _ _

/-- The read loop of `processOrders` returns for every list of records. -/
theorem processRecords_total (rs : List Order) :
    ∀ (m : Market) (cur : Nat), ∃ r, processRecords m cur rs = some r := by
  induction rs with
  | nil => intro m cur; exact ⟨_, rfl⟩
  | cons x xs ih =>
    intro m cur
    simp only [processRecords]
    split
    · exact ⟨_, rfl⟩
    · split
      · exact ⟨_, rfl⟩
      · split
        · exact ⟨_, rfl⟩
        · split
          · exact ⟨_, rfl⟩
          · split
            · rename_i hnone
              obtain ⟨m3, hm3⟩ := handleOrder_total _ x
              rw [hm3] at hnone
              simp at hnone
            · exact ih _ _

/-- The function `processOrders` returns for every list of records. -/
theorem processOrders_total (m : Market) (rs : List Order) :
    ∃ r, processOrders m rs = some r := by
  obtain ⟨⟨m1, cur, ab⟩, hr⟩ := processRecords_total rs m 0
  unfold processOrders
  rw [hr]
  cases ab <;> exact ⟨_, rfl⟩

theorem processOrders_sameCore {m m1 : Market} (hs : SameCore m m1) (rs : List Order)
    {r : Market × Bool} (h : processOrders m rs = some r) :
    ∃ r1, processOrders m1 rs = some r1 ∧ SameCore r.1 r1.1 ∧ r.2 = r1.2 := by
  unfold processOrders at h ⊢
  cases hp : processRecords m 0 rs with
  | none => simp [hp] at h
  | some x =>
    obtain ⟨x1, hx1, hsc, hx2⟩ := processRecords_sameCore rs m m1 0 x hs hp
    rw [hp] at h
    rw [hx1]
    obtain ⟨ma, cur, ab⟩ := x
    obtain ⟨mb, cur1, ab1⟩ := x1
    simp only [Prod.mk.injEq] at hx2
    obtain ⟨hcur, hab⟩ := hx2
    subst hcur hab
    dsimp only at hsc
    cases ab with
    | true =>
      simp only [Option.some.injEq] at h
      subst h
      exact ⟨_, rfl, hsc, rfl⟩
    | false =>
      simp only [Option.some.injEq] at h
      subst h
      exact ⟨_, rfl, endOfDay_sameCore hsc cur, rfl⟩

/-- C10. Report toggles do not interfere. For every sequence of records and any two
settings of the flags `verbose`, `median`, `trader_info`, `time_travelers`, both runs
of `processOrders` return, both end in the same way (normally or by `exit(1)`), and
they end with the same `trades_completed`, the same bought, sold and net-transfer
ledgers, the same resting books, the same order histories, hence the same
time-traveler result for every stock, the same trades executed, and for every stock
the same multiset of trade prices. -/
theorem C10_report_toggles (traders stocks : Nat) (v me ti tt v1 me1 ti1 tt1 : Bool)
    (records : List Order) :
    ∃ r r1, processOrders (Market.init traders stocks v me ti tt) records = some r ∧
      processOrders (Market.init traders stocks v1 me1 ti1 tt1) records = some r1 ∧
      r.2 = r1.2 ∧
      r.1.trades_completed = r1.1.trades_completed ∧
      r.1.trader_buy_count = r1.1.trader_buy_count ∧
      r.1.trader_sell_count = r1.1.trader_sell_count ∧
      r.1.trader_net_transfer = r1.1.trader_net_transfer ∧
      r.1.buy_orders = r1.1.buy_orders ∧ r.1.sell_orders = r1.1.sell_orders ∧
      r.1.buy_order_prices = r1.1.buy_order_prices ∧
      r.1.sell_order_prices = r1.1.sell_order_prices ∧
      (∀ i, timeTraveler (r.1.sell_order_prices i) (r.1.buy_order_prices i) =
        timeTraveler (r1.1.sell_order_prices i) (r1.1.buy_order_prices i)) ∧
      r.1.trade_log = r1.1.trade_log ∧
      ∀ i, (r.1.trade_prices i).Perm (r1.1.trade_prices i) := by
  obtain ⟨r, hr⟩ := processOrders_total (Market.init traders stocks v me ti tt) records
  have hinit : SameCore (Market.init traders stocks v me ti tt)
      (Market.init traders stocks v1 me1 ti1 tt1) :=
    ⟨rfl, rfl, rfl, rfl, rfl, rfl, rfl, rfl, rfl, rfl, rfl, fun _ => List.Perm.refl _⟩
  obtain ⟨r1, hr1, hsc, hab⟩ := processOrders_sameCore hinit records hr
  refine ⟨r, r1, hr, hr1, hab, hsc.trades_completed, hsc.trader_buy_count,
    hsc.trader_sell_count, hsc.trader_net_transfer, hsc.buy_orders, hsc.sell_orders,
    hsc.buy_order_prices, hsc.sell_order_prices, ?_, hsc.trade_log, hsc.trade_prices⟩
  intro i
  rw [hsc.buy_order_prices, hsc.sell_order_prices]

set_option maxRecDepth 8000 in
/-- C10 on a run with three trades at the prices 30, 20 and 10 in stock 0, once with
all reports off and once with all reports on: with median reporting the recorded
prices end sorted, `[10, 20, 30]`, without it they stay `[30, 20, 10]`, and the
counters agree. -/
theorem C10_report_toggles_witness :
    (processOrders (Market.init 2 1 false false false false)
      [⟨1, "BUY", 0, 0, 30, 1⟩, ⟨1, "BUY", 0, 0, 20, 1⟩, ⟨1, "BUY", 0, 0, 10, 1⟩,
       ⟨2, "SELL", 1, 0, 5, 3⟩]).map
      (fun r => (r.2, r.1.trade_prices 0, r.1.trades_completed)) =
        some (false, [30, 20, 10], 3) ∧
    (processOrders (Market.init 2 1 true true true true)
      [⟨1, "BUY", 0, 0, 30, 1⟩, ⟨1, "BUY", 0, 0, 20, 1⟩, ⟨1, "BUY", 0, 0, 10, 1⟩,
       ⟨2, "SELL", 1, 0, 5, 3⟩]).map
      (fun r => (r.2, r.1.trade_prices 0, r.1.trades_completed)) =
        some (false, [10, 20, 30], 3) ∧
    ∃ r r1, processOrders (Market.init 2 1 false false false false)
        [⟨1, "BUY", 0, 0, 30, 1⟩, ⟨1, "BUY", 0, 0, 20, 1⟩, ⟨1, "BUY", 0, 0, 10, 1⟩,
         ⟨2, "SELL", 1, 0, 5, 3⟩] = some r ∧
      processOrders (Market.init 2 1 true true true true)
        [⟨1, "BUY", 0, 0, 30, 1⟩, ⟨1, "BUY", 0, 0, 20, 1⟩, ⟨1, "BUY", 0, 0, 10, 1⟩,
         ⟨2, "SELL", 1, 0, 5, 3⟩] = some r1 ∧
      r.2 = r1.2 ∧
      r.1.trades_completed = r1.1.trades_completed ∧
      r.1.trader_buy_count = r1.1.trader_buy_count ∧
      r.1.trader_sell_count = r1.1.trader_sell_count ∧
      r.1.trader_net_transfer = r1.1.trader_net_transfer ∧
      r.1.buy_orders = r1.1.buy_orders ∧ r.1.sell_orders = r1.1.sell_orders ∧
      r.1.buy_order_prices = r1.1.buy_order_prices ∧
      r.1.sell_order_prices = r1.1.sell_order_prices ∧
      (∀ i, timeTraveler (r.1.sell_order_prices i) (r.1.buy_order_prices i) =
        timeTraveler (r1.1.sell_order_prices i) (r1.1.buy_order_prices i)) ∧
      r.1.trade_log = r1.1.trade_log ∧
      ∀ i, (r.1.trade_prices i).Perm (r1.1.trade_prices i) :=
  ⟨by decide, by decide,
   C10_report_toggles 2 1 false false false false true true true true _⟩

/-! ## C11: the trade count -/

/-- Invariant rule for the read loop of `processOrders`: a property of the state that
is kept by the median report, by an error line, by the recording of a quote and by
the handling of a validated order holds when the loop returns. -/
theorem processRecords_inv (I : Market → Prop)
    (hmed : ∀ m t, I m → I (printMedian m t))
    (herr : ∀ m o, o.isError = true → I m → I { m with out := m.out ++ [o] })
    (hbuy : ∀ m i (q : Nat × Nat), I m →
      I { m with buy_order_prices := setAt m.buy_order_prices i (m.buy_order_prices i ++ [q]) })
    (hsell : ∀ m i (q : Nat × Nat), I m →
      I { m with
          sell_order_prices := setAt m.sell_order_prices i (m.sell_order_prices i ++ [q]) })
    (hord : ∀ m o m1, o.trader_id < m.num_traders → o.stock_id < m.num_stocks →
      0 < o.price → 0 < o.quantity → I m → handleOrder m o = some m1 → I m1) :
    ∀ (rs : List Order) (m : Market) (cur : Nat) (r : Market × Nat × Bool),
      I m → processRecords m cur rs = some r → I r.1 := by
  intro rs
  induction rs with
  | nil =>
    intro m cur r hI h
    simp only [processRecords, Option.some.injEq] at h
    subst h
    exact hI
  | cons x xs ih =>
    intro m cur r hI h
    simp only [processRecords] at h
    split at h
    · simp only [Option.some.injEq] at h
      subst h
      exact herr m _ rfl hI
    · split at h
      · simp only [Option.some.injEq] at h
        subst h
        exact herr m _ rfl hI
      · rename_i hc2
        split at h
        · simp only [Option.some.injEq] at h
          subst h
          exact herr m _ rfl hI
        · rename_i hc3
          split at h
          · simp only [Option.some.injEq] at h
            subst h
            exact herr m _ rfl hI
          · rename_i hc4
            have hmedI : I (if x.timestamp ≠ cur then
                (if m.median = true then printMedian m cur else m) else m) ∧
                (if x.timestamp ≠ cur then
                  (if m.median = true then printMedian m cur else m) else m).num_traders
                  = m.num_traders ∧
                (if x.timestamp ≠ cur then
                  (if m.median = true then printMedian m cur else m) else m).num_stocks
                  = m.num_stocks := by
              split
              · split
                · exact ⟨hmed m cur hI, (printMedian_sameCore m cur).num_traders.symm,
                    (printMedian_sameCore m cur).num_stocks.symm⟩
                · exact ⟨hI, rfl, rfl⟩
              · exact ⟨hI, rfl, rfl⟩
            generalize (if x.timestamp ≠ cur then
              (if m.median = true then printMedian m cur else m) else m) = ma at h hmedI
            obtain ⟨hIa, hnt, hns⟩ := hmedI
            split at h
            · simp at h
            · rename_i m3 hm3
              refine ih m3 _ r ?_ h
              by_cases hb : x.type = "BUY"
              · rw [if_pos hb] at hm3
                exact hord _ x m3 (by dsimp only; omega) (by dsimp only; omega) (by omega)
                  (by omega) (hbuy ma _ _ hIa) hm3
              · rw [if_neg hb] at hm3
                exact hord _ x m3 (by dsimp only; omega) (by dsimp only; omega) (by omega)
                  (by omega) (hsell ma _ _ hIa) hm3

theorem sumOver_setAt_append (n : Nat) (f : Nat → List Nat) (j p : Nat) (hj : j < n) :
    sumOver n (fun i => (setAt f j (f j ++ [p]) i).length) =
      sumOver n (fun i => (f i).length) + 1 := by
  have : (fun i => (setAt f j (f j ++ [p]) i).length) =
      fun i => (f i).length + (if j = i then 1 else 0) := by
    funext i
    by_cases hi : i = j
    · subst hi
      simp
    · rw [setAt_other _ _ hi, if_neg (Ne.symm hi)]
      rfl
  rw [this, sumOver_add, sumOver_single, if_pos hj]

theorem CountInv_buyTrade {n : Nat} {m : Market} (b s : Order) (hb : b.stock_id < n)
    (inv : CountInv n m) : CountInv n (buyTrade m b s).1 := by
  obtain ⟨h1, h2⟩ := inv
  refine ⟨?_, ?_⟩
  · rw [buyTrade_trades_completed, buyTrade_trade_log, h1]
    simp
  · rw [buyTrade_trade_prices, buyTrade_trade_log, sumOver_setAt_append _ _ _ _ hb, h2]
    simp

theorem CountInv_sellTrade {n : Nat} {m : Market} (s b : Order) (hs : s.stock_id < n)
    (inv : CountInv n m) : CountInv n (sellTrade m s b).1 := by
  obtain ⟨h1, h2⟩ := inv
  refine ⟨?_, ?_⟩
  · rw [sellTrade_trades_completed, sellTrade_trade_log, h1]
    simp
  · rw [sellTrade_trade_prices, sellTrade_trade_log, sumOver_setAt_append _ _ _ _ hs, h2]
    simp

theorem CountInv_of_sameCore {n : Nat} {m m1 : Market} (hs : SameCore m m1)
    (inv : CountInv n m) : CountInv n m1 := by
  obtain ⟨h1, h2⟩ := inv
  refine ⟨?_, ?_⟩
  · rw [← hs.trades_completed, ← hs.trade_log, h1]
  · rw [← hs.trade_log, ← h2]
    apply sumOver_congr
    intro i _
    exact (hs.trade_prices i).length_eq.symm

theorem buyTrade_out (m : Market) (b s : Order) :
    (buyTrade m b s).1.out =
      if m.verbose = true then
        m.out ++ [Output.tradeLine b.trader_id (min s.quantity b.quantity) b.stock_id
          s.trader_id s.price]
      else m.out := by
  unfold buyTrade recordTrade
  dsimp only
  split <;> rfl

theorem sellTrade_out (m : Market) (s b : Order) :
    (sellTrade m s b).1.out =
      if m.verbose = true then
        m.out ++ [Output.tradeLine b.trader_id (min b.quantity s.quantity) s.stock_id
          s.trader_id b.price]
      else m.out := by
  unfold sellTrade recordTrade
  dsimp only
  split <;> rfl

/-- What a call of `handleBuyOrder` keeps: the sizes, the counting invariant and the
absence of a "Trades Completed" line. -/
theorem handleBuyOrder_count {n : Nat} {m m1 : Market} {b : Order}
    (h : handleBuyOrder m b = some m1) (hb : b.stock_id < n)
    (inv : CountInv n m ∧ NoEndOfDay m) :
    (CountInv n m1 ∧ NoEndOfDay m1) ∧ m1.num_traders = m.num_traders ∧
      m1.num_stocks = m.num_stocks := by
  unfold handleBuyOrder at h
  cases hl : buyLoop ((m.sell_orders b.stock_id).length + 1) m b with
  | none => simp [hl] at h
  | some r =>
    rw [hl] at h
    have key := (buyLoop_inv
      (fun m2 b2 => ((CountInv n m2 ∧ NoEndOfDay m2) ∧ m2.num_traders = m.num_traders ∧
        m2.num_stocks = m.num_stocks) ∧ b2.stock_id < n)
      (by
        intro m2 b2 s _ _ _ ⟨⟨⟨hC, hN⟩, h1, h2⟩, hb2⟩
        refine ⟨⟨⟨CountInv_buyTrade b2 s hb2 hC, ?_⟩, ?_, ?_⟩, hb2⟩
        · intro o ho
          rw [buyTrade_out] at ho
          split at ho
          · rcases List.mem_append.mp ho with ho | ho
            · exact hN o ho
            · simp only [List.mem_singleton] at ho
              subst ho
              rfl
          · exact hN o ho
        · rw [(buyTrade_frame m2 b2 s).1, h1]
        · rw [(buyTrade_frame m2 b2 s).2.1, h2])
      _ m b r hl ⟨⟨inv, rfl, rfl⟩, hb⟩).1
    obtain ⟨m2, b2⟩ := r
    dsimp only at h key
    split at h <;>
    · simp only [Option.some.injEq] at h
      subst h
      exact key.1

/-- What a call of `handleSellOrder` keeps: the sizes, the counting invariant and the
absence of a "Trades Completed" line. -/
theorem handleSellOrder_count {n : Nat} {m m1 : Market} {s : Order}
    (h : handleSellOrder m s = some m1) (hs : s.stock_id < n)
    (inv : CountInv n m ∧ NoEndOfDay m) :
    (CountInv n m1 ∧ NoEndOfDay m1) ∧ m1.num_traders = m.num_traders ∧
      m1.num_stocks = m.num_stocks := by
  unfold handleSellOrder at h
  cases hl : sellLoop ((m.buy_orders s.stock_id).length + 1) m s with
  | none => simp [hl] at h
  | some r =>
    rw [hl] at h
    have key := (sellLoop_inv
      (fun m2 s2 => ((CountInv n m2 ∧ NoEndOfDay m2) ∧ m2.num_traders = m.num_traders ∧
        m2.num_stocks = m.num_stocks) ∧ s2.stock_id < n)
      (by
        intro m2 s2 b _ _ _ ⟨⟨⟨hC, hN⟩, h1, h2⟩, hs2⟩
        refine ⟨⟨⟨CountInv_sellTrade s2 b hs2 hC, ?_⟩, ?_, ?_⟩, hs2⟩
        · intro o ho
          rw [sellTrade_out] at ho
          split at ho
          · rcases List.mem_append.mp ho with ho | ho
            · exact hN o ho
            · simp only [List.mem_singleton] at ho
              subst ho
              rfl
          · exact hN o ho
        · rw [(sellTrade_frame m2 s2 b).1, h1]
        · rw [(sellTrade_frame m2 s2 b).2.1, h2])
      _ m s r hl ⟨⟨inv, rfl, rfl⟩, hs⟩).1
    obtain ⟨m2, s2⟩ := r
    dsimp only at h key
    split at h <;>
    · simp only [Option.some.injEq] at h
      subst h
      exact key.1

theorem handleOrder_count {n : Nat} {m m1 : Market} {o : Order}
    (h : handleOrder m o = some m1) (ho : o.stock_id < n) (inv : CountInv n m ∧ NoEndOfDay m) :
    (CountInv n m1 ∧ NoEndOfDay m1) ∧ m1.num_traders = m.num_traders ∧
      m1.num_stocks = m.num_stocks := by
  unfold handleOrder at h
  split at h
  · exact handleBuyOrder_count h ho inv
  · exact handleSellOrder_count h ho inv

theorem printMedianStock_noEndOfDay (t : Nat) (m : Market) (i : Nat) (h : NoEndOfDay m) :
    NoEndOfDay (printMedianStock t m i) := by
  unfold printMedianStock
  split
  · intro o ho
    dsimp only at ho
    rcases List.mem_append.mp ho with ho | ho
    · exact h o ho
    · simp only [List.mem_singleton] at ho
      subst ho
      rfl
  · exact h

theorem printMedian_noEndOfDay (m : Market) (t : Nat) (h : NoEndOfDay m) :
    NoEndOfDay (printMedian m t) := by
  unfold printMedian
  generalize List.range m.num_stocks = l
  induction l generalizing m with
  | nil => exact h
  | cons i l ih => exact ih _ (printMedianStock_noEndOfDay t m i h)

theorem endOfDay_report (m : Market) (cur : Nat) :
    ∃ m1 post, SameCore m m1 ∧ (NoEndOfDay m → NoEndOfDay m1) ∧
      (endOfDay m cur).out =
        m1.out ++ [Output.endOfDay (reportedCount m1.trades_completed)] ++ post ∧
      (∀ o ∈ post, o.isEndOfDay = false) ∧
      (endOfDay m cur).trades_completed = reportedCount m1.trades_completed ∧
      (endOfDay m cur).trade_log = m1.trade_log ∧
      (endOfDay m cur).trade_prices = m1.trade_prices := by
  have h1 : SameCore m (if m.median = true then printMedian m cur else m) ∧
      (NoEndOfDay m → NoEndOfDay (if m.median = true then printMedian m cur else m)) := by
    split
    · exact ⟨printMedian_sameCore m cur, printMedian_noEndOfDay m cur⟩
    · exact ⟨SameCore.refl m, id⟩
  unfold endOfDay
  generalize (if m.median = true then printMedian m cur else m) = m1 at h1 ⊢
  refine ⟨m1, (if m1.trader_info = true then
      [Output.traderInfoHeader] ++ (List.range m1.num_traders).map (fun i =>
        Output.traderLine i (m1.trader_buy_count i) (m1.trader_sell_count i)
          (m1.trader_net_transfer i)) else []) ++
    (if m1.time_travelers = true then
      [Output.timeTravelersHeader] ++ (List.range m1.num_stocks).map (fun i =>
        match timeTraveler (sortPairs (m1.sell_order_prices i))
            (sortPairs (m1.buy_order_prices i)) with
        | some (buy_time, buy_price, sell_time, sell_price) =>
          Output.timeTravelerTrade i buy_time buy_price sell_time sell_price
        | none => Output.timeTravelerNone i) else []), h1.1, h1.2, ?_, ?_, ?_, ?_, ?_⟩
  · by_cases hc : m1.trades_completed = 7621 <;> by_cases hti : m1.trader_info = true <;>
      by_cases htt : m1.time_travelers = true <;>
      simp [hc, hti, htt, reportedCount, printTraderInfo, printTimeTravelers, timeTravelerLine]
    all_goals
      intro i hi
      simp [hi]
  · intro o ho
    rcases List.mem_append.mp ho with ho | ho
    · split at ho
      · rcases List.mem_append.mp ho with ho | ho
        · simp only [List.mem_singleton] at ho
          subst ho
          rfl
        · obtain ⟨i, _, rfl⟩ := List.mem_map.mp ho
          rfl
      · simp at ho
    · split at ho
      · rcases List.mem_append.mp ho with ho | ho
        · simp only [List.mem_singleton] at ho
          subst ho
          rfl
        · obtain ⟨i, _, rfl⟩ := List.mem_map.mp ho
          split <;> rfl
      · simp at ho
  · by_cases hc : m1.trades_completed = 7621 <;> by_cases hti : m1.trader_info = true <;>
      by_cases htt : m1.time_travelers = true <;>
      simp [hc, hti, htt, reportedCount, printTraderInfo, printTimeTravelers]
  · by_cases hc : m1.trades_completed = 7621 <;> by_cases hti : m1.trader_info = true <;>
      by_cases htt : m1.time_travelers = true <;>
      simp [hc, hti, htt, printTraderInfo, printTimeTravelers]
  · by_cases hc : m1.trades_completed = 7621 <;> by_cases hti : m1.trader_info = true <;>
      by_cases htt : m1.time_travelers = true <;>
      simp [hc, hti, htt, printTraderInfo, printTimeTravelers]

theorem sumOver_zero (n : Nat) : sumOver n (fun _ => 0) = 0 := by
  induction n with
  | zero => rfl
  | succ k ih => rw [sumOver_succ, ih]

/-- The state in which the read loop of `processOrders` leaves a run that started from
the constructor keeps the counting invariant and has printed no "Trades Completed"
line. -/
theorem processRecords_count {stocks : Nat} (rs : List Order) (m : Market) (cur : Nat)
    (r : Market × Nat × Bool)
    (hI : m.num_stocks = stocks ∧ CountInv stocks m ∧ NoEndOfDay m)
    (h : processRecords m cur rs = some r) :
    r.1.num_stocks = stocks ∧ CountInv stocks r.1 ∧ NoEndOfDay r.1 := by
  refine processRecords_inv
    (fun m => m.num_stocks = stocks ∧ CountInv stocks m ∧ NoEndOfDay m) ?_ ?_ ?_ ?_ ?_
    rs m cur r hI h
  · intro m t ⟨h1, h2, h3⟩
    exact ⟨(printMedian_sameCore m t).num_stocks.symm.trans h1,
      CountInv_of_sameCore (printMedian_sameCore m t) h2, printMedian_noEndOfDay m t h3⟩
  · intro m o ho ⟨h1, h2, h3⟩
    refine ⟨h1, h2, ?_⟩
    intro x hx
    dsimp only at hx
    rcases List.mem_append.mp hx with hx | hx
    · exact h3 x hx
    · simp only [List.mem_singleton] at hx
      subst hx
      cases x <;> simp [Output.isError] at ho <;> rfl
  · intro m i q hI
    exact hI
  · intro m i q hI
    exact hI
  · intro m o m1 _ hs _ _ ⟨h1, h2, h3⟩ ho
    obtain ⟨⟨a, b⟩, _, d⟩ := handleOrder_count ho (h1 ▸ hs) ⟨h2, h3⟩
    exact ⟨d.trans h1, a, b⟩

/-- The "Trades Completed" line of a run that reaches the end of the stream. -/
theorem processOrders_report {traders stocks : Nat} {v me ti tt : Bool} {records : List Order}
    {r : Market × Bool}
    (h : processOrders (Market.init traders stocks v me ti tt) records = some r)
    (hok : r.2 = false) :
    Output.endOfDay (reportedCount (r.1.trade_log.length % U32)) ∈ r.1.out ∧
    (∀ k, Output.endOfDay k ∈ r.1.out → k = reportedCount (r.1.trade_log.length % U32)) ∧
    r.1.trades_completed = reportedCount (r.1.trade_log.length % U32) ∧
    sumOver stocks (fun i => (r.1.trade_prices i).length) = r.1.trade_log.length := by
  unfold processOrders at h
  cases hp : processRecords (Market.init traders stocks v me ti tt) 0 records with
  | none => simp [hp] at h
  | some x =>
    rw [hp] at h
    obtain ⟨ma, cur, ab⟩ := x
    cases ab with
    | true =>
      simp only [Option.some.injEq] at h
      subst h
      simp at hok
    | false =>
      simp only [Option.some.injEq] at h
      subst h
      dsimp only
      have hinit : (Market.init traders stocks v me ti tt).num_stocks = stocks ∧
          CountInv stocks (Market.init traders stocks v me ti tt) ∧
          NoEndOfDay (Market.init traders stocks v me ti tt) := by
        refine ⟨rfl, ⟨rfl, ?_⟩, ?_⟩
        · have : (fun i => ((Market.init traders stocks v me ti tt).trade_prices i).length) =
              fun _ => 0 := by funext i; rfl
          rw [this]
          exact sumOver_zero stocks
        · intro o ho
          simp [Market.init] at ho
      obtain ⟨_, hC, hN⟩ := processRecords_count records _ 0 _ hinit hp
      dsimp only at hC hN
      obtain ⟨m1, post, hsc, hN1, hout, hpost, htc, hlog, hprices⟩ := endOfDay_report ma cur
      obtain ⟨hc1, hc2⟩ := CountInv_of_sameCore hsc hC
      rw [hout, hlog, htc, hprices, hc1]
      refine ⟨by simp, ?_, rfl, hc2⟩
      intro k hk
      rcases List.mem_append.mp hk with hk | hk
      · rcases List.mem_append.mp hk with hk | hk
        · have := hN1 hN _ hk
          simp [Output.isEndOfDay] at this
        · simp only [List.mem_singleton, Output.endOfDay.injEq] at hk
          exact hk
      · have := hpost _ hk
        simp [Output.isEndOfDay] at this

/-- A buy of one share at the price 1 against a book whose only ask offers more than
one share at the price 1 is one trade that leaves the ask in the book. -/
theorem handleBuyOrder_one_share (m : Market) (q : Nat) (hq : 1 < q)
    (hbook : m.sell_orders 0 = [⟨1, "SELL", 0, 0, 1, q⟩]) :
    handleBuyOrder m ⟨1, "BUY", 1, 0, 1, 1⟩ =
      some (buyTrade m ⟨1, "BUY", 1, 0, 1, 1⟩ ⟨1, "SELL", 0, 0, 1, q⟩).1 := by
  have htop : pqTop SellComparator [(⟨1, "SELL", 0, 0, 1, q⟩ : Order)] =
      some ⟨1, "SELL", 0, 0, 1, q⟩ := rfl
  have hmin : min q 1 = 1 := Nat.min_eq_right (by omega)
  unfold handleBuyOrder
  dsimp only
  rw [hbook]
  simp only [List.length_singleton, buyLoop, hbook, htop, buyTrade_snd, hmin]
  simp

/-- A run of `k` buys of one share against a single resting ask of more than `k`
shares executes `k` trades. -/
theorem processRecords_one_share_buys (k : Nat) :
    ∀ (q : Nat) (m : Market), k < q → m.num_traders = 2 → m.num_stocks = 1 →
      m.median = false → m.sell_orders 0 = [⟨1, "SELL", 0, 0, 1, q⟩] →
      ∃ m1, processRecords m 1 (List.replicate k ⟨1, "BUY", 1, 0, 1, 1⟩) = some (m1, 1, false) ∧
        m1.trade_log.length = m.trade_log.length + k := by
  induction k with
  | zero =>
    intro q m _ _ _ _ _
    exact ⟨m, rfl, rfl⟩
  | succ k ih =>
    intro q m hq hnt hns hmed hbook
    have hone := handleBuyOrder_one_share
      { m with
        buy_order_prices := setAt m.buy_order_prices 0 (m.buy_order_prices 0 ++ [(1, 1)]) }
      q (by omega) hbook
    have hmin : min q 1 = 1 := Nat.min_eq_right (by omega)
    have hnext := ih (q - 1)
      (buyTrade
        { m with
          buy_order_prices := setAt m.buy_order_prices 0 (m.buy_order_prices 0 ++ [(1, 1)]) }
        ⟨1, "BUY", 1, 0, 1, 1⟩ ⟨1, "SELL", 0, 0, 1, q⟩).1
      (by omega)
      (by rw [(buyTrade_frame _ _ _).1]; exact hnt)
      (by rw [(buyTrade_frame _ _ _).2.1]; exact hns)
      (by rw [(buyTrade_frame _ _ _).2.2.2.2.2.1]; exact hmed)
      (by
        rw [buyTrade_sell_orders]
        dsimp only
        rw [setAt_same, hbook, hmin, if_pos (by omega)]
        simp [pqPush, pqPop, pqTop])
    obtain ⟨m1, hm1, hlen⟩ := hnext
    refine ⟨m1, ?_, ?_⟩
    · simp only [List.replicate_succ, processRecords, hnt, hns]
      simp only [lt_self_iff_false, if_false, ge_iff_le, Nat.not_ofNat_le_one, nonpos_iff_eq_zero,
        one_ne_zero, or_self, ne_eq, not_true_eq_false, handleOrder, if_true, hone]
      exact hm1
    · rw [hlen, buyTrade_trade_log]
      simp
      omega

/-- The first record of the run below, an ask of 7622 shares, is accepted and handed
to `handleOrder`. -/
theorem processRecords_first_ask (tail : List Order) :
    processRecords (Market.init 2 1 false false false false) 0
        (⟨1, "SELL", 0, 0, 1, 7622⟩ :: tail) =
      match handleOrder
          { Market.init 2 1 false false false false with
            sell_order_prices := setAt (fun _ => []) 0 ([] ++ [(1, 1)]) }
          ⟨1, "SELL", 0, 0, 1, 7622⟩ with
      | none => none
      | some m3 => processRecords m3 1 tail :=
  rfl

set_option maxRecDepth 4000 in
/-- The state after the first record of the run below: the ask rests in the book and
no trade has been executed. -/
theorem first_ask_state :
    ∃ m0, handleOrder
      { Market.init 2 1 false false false false with
        sell_order_prices := setAt (fun _ => []) 0 ([] ++ [(1, 1)]) }
      ⟨1, "SELL", 0, 0, 1, 7622⟩ = some m0 ∧ m0.num_traders = 2 ∧ m0.num_stocks = 1 ∧
      m0.median = false ∧ m0.sell_orders 0 = [⟨1, "SELL", 0, 0, 1, 7622⟩] ∧ m0.trade_log = [] := by
  obtain ⟨m0, h0⟩ := handleOrder_total
    { Market.init 2 1 false false false false with
      sell_order_prices := setAt (fun _ => []) 0 ([] ++ [(1, 1)]) }
    ⟨1, "SELL", 0, 0, 1, 7622⟩
  have hfacts : (handleOrder
      { Market.init 2 1 false false false false with
        sell_order_prices := setAt (fun _ => []) 0 ([] ++ [(1, 1)]) }
      ⟨1, "SELL", 0, 0, 1, 7622⟩).map
      (fun m => (m.num_traders, m.num_stocks, m.median, m.sell_orders 0, m.trade_log)) =
      some (2, 1, false, [⟨1, "SELL", 0, 0, 1, 7622⟩], []) := by decide
  rw [h0] at hfacts
  simp only [Option.map_some', Option.some.injEq, Prod.mk.injEq] at hfacts
  exact ⟨m0, h0, hfacts⟩

/-- The read loop on an ask of 7622 shares followed by 7621 buys of one share: it
returns without `exit(1)` after 7621 trades. -/
theorem processRecords_7621_trades :
    ∃ m1, processRecords (Market.init 2 1 false false false false) 0
        (⟨1, "SELL", 0, 0, 1, 7622⟩ :: List.replicate 7621 ⟨1, "BUY", 1, 0, 1, 1⟩) =
        some (m1, 1, false) ∧ m1.trade_log.length = 7621 := by
  obtain ⟨m0, h0, f1, f2, f3, f4, f5⟩ := first_ask_state
  obtain ⟨m1, hm1, hlen⟩ := processRecords_one_share_buys 7621 7622 m0 (by omega) f1 f2 f3 f4
  refine ⟨m1, ?_, ?_⟩
  · rw [processRecords_first_ask, h0]
    exact hm1
  · rw [hlen, f5]
    rfl

/-- A read loop that returns without `exit(1)` is followed by the end of the day. -/
theorem processOrders_of_records {m m1 : Market} {records : List Order} {cur : Nat}
    (h : processRecords m 0 records = some (m1, cur, false)) :
    processOrders m records = some (endOfDay m1 cur, false) := by
  unfold processOrders
  rw [h]

/-- C11 as stated fails: after one ask of 7622 shares and 7621 buys of one share each,
7621 trades have been executed and the end of the day reports 7632 trades. -/
theorem C11_trade_count_counterexample :
    ∃ r, processOrders (Market.init 2 1 false false false false)
        (⟨1, "SELL", 0, 0, 1, 7622⟩ :: List.replicate 7621 ⟨1, "BUY", 1, 0, 1, 1⟩) = some r ∧
      r.2 = false ∧ r.1.trade_log.length = 7621 ∧ Output.endOfDay 7632 ∈ r.1.out ∧
      ∀ k, Output.endOfDay k ∈ r.1.out → k ≠ 7621 := by
  obtain ⟨m1, hrec, hlen⟩ := processRecords_7621_trades
  have hrun := processOrders_of_records hrec
  have hrep := processOrders_report hrun rfl
  have hlog : (endOfDay m1 1).trade_log.length = 7621 := by
    obtain ⟨m2, post, hsc, _, _, _, _, hlog, _⟩ := endOfDay_report m1 1
    rw [hlog, ← hsc.trade_log, hlen]
  have hval : reportedCount (7621 % U32) = 7632 := by decide
  have hlog2 : (endOfDay m1 1, false).1.trade_log.length = 7621 := hlog
  rw [hlog2, hval] at hrep
  refine ⟨_, hrun, rfl, hlog, hrep.1, ?_⟩
  intro k hk
  rw [hrep.2.1 k hk]
  decide

/-- C11, amended. Every sequence of records is processed by `processOrders`, and when
the run reaches the end of the stream it prints exactly one "Trades Completed"
number: with `n` the number of trades executed, taken modulo `2^32`, the number is
`n`, except that 7632 is printed when `n` is 7621. The number of trades executed is
the total number of trade prices recorded across all stocks. -/
theorem C11_trade_count (traders stocks : Nat) (v me ti tt : Bool) (records : List Order) :
    ∃ r, processOrders (Market.init traders stocks v me ti tt) records = some r ∧
      (r.2 = false →
        Output.endOfDay (reportedCount (r.1.trade_log.length % U32)) ∈ r.1.out ∧
        (∀ k, Output.endOfDay k ∈ r.1.out → k = reportedCount (r.1.trade_log.length % U32)) ∧
        (r.1.trade_log.length < U32 → r.1.trade_log.length ≠ 7621 →
          Output.endOfDay r.1.trade_log.length ∈ r.1.out) ∧
        sumOver stocks (fun i => (r.1.trade_prices i).length) = r.1.trade_log.length) := by
  obtain ⟨r, hr⟩ := processOrders_total (Market.init traders stocks v me ti tt) records
  refine ⟨r, hr, fun hok => ?_⟩
  obtain ⟨h1, h2, _, h4⟩ := processOrders_report hr hok
  refine ⟨h1, h2, ?_, h4⟩
  intro hlt hne
  have : reportedCount (r.1.trade_log.length % U32) = r.1.trade_log.length := by
    rw [Nat.mod_eq_of_lt hlt]
    unfold reportedCount
    rw [if_neg hne]
  rw [this] at h1
  exact h1

set_option maxRecDepth 4000 in
/-- C11 on a run with two trades: the end of the day reports 2. -/
theorem C11_trade_count_witness :
    (processOrders (Market.init 2 1 false false false false)
      [⟨1, "SELL", 0, 0, 10, 5⟩, ⟨2, "BUY", 1, 0, 12, 2⟩, ⟨3, "BUY", 1, 0, 12, 2⟩]).map
      (fun r => (r.2, r.1.trade_log.length, r.1.out)) =
      some (false, 2, [Output.endOfDay 2]) ∧
    ∃ r, processOrders (Market.init 2 1 false false false false)
        [⟨1, "SELL", 0, 0, 10, 5⟩, ⟨2, "BUY", 1, 0, 12, 2⟩, ⟨3, "BUY", 1, 0, 12, 2⟩] = some r ∧
      (r.2 = false →
        Output.endOfDay (reportedCount (r.1.trade_log.length % U32)) ∈ r.1.out ∧
        (∀ k, Output.endOfDay k ∈ r.1.out → k = reportedCount (r.1.trade_log.length % U32)) ∧
        (r.1.trade_log.length < U32 → r.1.trade_log.length ≠ 7621 →
          Output.endOfDay r.1.trade_log.length ∈ r.1.out) ∧
        sumOver 1 (fun i => (r.1.trade_prices i).length) = r.1.trade_log.length) :=
  ⟨by decide, C11_trade_count 2 1 false false false false _⟩

/-! ## C12: the remainder of the incoming order -/

/-- The loop of `handleBuyOrder` leaves the bid books alone, and the incoming order
leaves it with its quantity reduced by the total quantity of the trades of the loop. -/
theorem buyLoop_remainder {fuel : Nat} {m : Market} {b : Order} {r : Market × Order}
    (h : buyLoop fuel m b = some r) :
    r.1.buy_orders = m.buy_orders ∧
    (∃ tl, r.1.trade_log = m.trade_log ++ tl ∧ totalTraded tl ≤ b.quantity ∧
      r.2 = { b with quantity := b.quantity - totalTraded tl }) ∧
    (r.1.sell_orders r.2.stock_id = [] ∨ r.2.quantity = 0 ∨
      ∃ s, pqTop SellComparator (r.1.sell_orders r.2.stock_id) = some s ∧ r.2.price < s.price) := by
  have key := buyLoop_inv
    (fun m2 b2 => m2.buy_orders = m.buy_orders ∧
      ∃ tl, m2.trade_log = m.trade_log ++ tl ∧ totalTraded tl ≤ b.quantity ∧
        b2 = { b with quantity := b.quantity - totalTraded tl })
    ?_ fuel m b r h ⟨rfl, [], by simp, by simp [totalTraded], by simp [totalTraded]⟩
  · exact ⟨key.1.1, key.1.2, key.2⟩
  · intro m2 b2 s _ _ _ ⟨hbo, tl, hlog, hle, hb2⟩
    refine ⟨by rw [buyTrade_buy_orders, hbo], ?_⟩
    refine ⟨tl ++ [⟨b2.trader_id, s.trader_id, b2.stock_id, s.price,
      min s.quantity b2.quantity⟩], ?_, ?_, ?_⟩
    · rw [buyTrade_trade_log, hlog, List.append_assoc]
    · rw [totalTraded_append]
      have : min s.quantity b2.quantity ≤ b2.quantity := Nat.min_le_right _ _
      rw [hb2] at this
      dsimp only at this ⊢
      rw [hb2]
      dsimp only
      omega
    · rw [buyTrade_snd, totalTraded_append]
      have : min s.quantity b2.quantity ≤ b2.quantity := Nat.min_le_right _ _
      subst hb2
      dsimp only at this ⊢
      congr 1
      omega

/-- The loop of `handleSellOrder` leaves the ask books alone, and the incoming order
leaves it with its quantity reduced by the total quantity of the trades of the loop. -/
theorem sellLoop_remainder {fuel : Nat} {m : Market} {s : Order} {r : Market × Order}
    (h : sellLoop fuel m s = some r) :
    r.1.sell_orders = m.sell_orders ∧
    (∃ tl, r.1.trade_log = m.trade_log ++ tl ∧ totalTraded tl ≤ s.quantity ∧
      r.2 = { s with quantity := s.quantity - totalTraded tl }) ∧
    (r.1.buy_orders r.2.stock_id = [] ∨ r.2.quantity = 0 ∨
      ∃ b, pqTop BuyComparator (r.1.buy_orders r.2.stock_id) = some b ∧ b.price < r.2.price) := by
  have key := sellLoop_inv
    (fun m2 s2 => m2.sell_orders = m.sell_orders ∧
      ∃ tl, m2.trade_log = m.trade_log ++ tl ∧ totalTraded tl ≤ s.quantity ∧
        s2 = { s with quantity := s.quantity - totalTraded tl })
    ?_ fuel m s r h ⟨rfl, [], by simp, by simp [totalTraded], by simp [totalTraded]⟩
  · exact ⟨key.1.1, key.1.2, key.2⟩
  · intro m2 s2 b _ _ _ ⟨hso, tl, hlog, hle, hs2⟩
    refine ⟨by rw [sellTrade_sell_orders, hso], ?_⟩
    refine ⟨tl ++ [⟨b.trader_id, s2.trader_id, s2.stock_id, b.price,
      min b.quantity s2.quantity⟩], ?_, ?_, ?_⟩
    · rw [sellTrade_trade_log, hlog, List.append_assoc]
    · rw [totalTraded_append]
      have : min b.quantity s2.quantity ≤ s2.quantity := Nat.min_le_right _ _
      rw [hs2] at this
      dsimp only at this ⊢
      rw [hs2]
      dsimp only
      omega
    · rw [sellTrade_snd, totalTraded_append]
      have : min b.quantity s2.quantity ≤ s2.quantity := Nat.min_le_right _ _
      subst hs2
      dsimp only at this ⊢
      congr 1
      omega

/-- C12. Incoming remainder. Every call of `handleBuyOrder` (of `handleSellOrder`)
with an incoming order of quantity `q` returns; the quantities of the trades it
executed sum to at most `q`; if the sum is below `q`, the own-side book of the stock
gains exactly one order, the incoming order with the quantity `q` minus the sum (same
timestamp, trader, stock and price), and the opposing book is then empty or its best
price is not acceptable to the incoming order; if the sum is `q`, the own-side books
are unchanged. -/
theorem C12_incoming_remainder :
    (∀ (m : Market) (b : Order), ∃ m1 tl, handleBuyOrder m b = some m1 ∧
      m1.trade_log = m.trade_log ++ tl ∧ totalTraded tl ≤ b.quantity ∧
      (totalTraded tl < b.quantity →
        m1.buy_orders = setAt m.buy_orders b.stock_id
          (m.buy_orders b.stock_id ++ [{ b with quantity := b.quantity - totalTraded tl }]) ∧
        (m1.sell_orders b.stock_id = [] ∨
          ∃ s, pqTop SellComparator (m1.sell_orders b.stock_id) = some s ∧ b.price < s.price)) ∧
      (totalTraded tl = b.quantity → m1.buy_orders = m.buy_orders)) ∧
    (∀ (m : Market) (s : Order), ∃ m1 tl, handleSellOrder m s = some m1 ∧
      m1.trade_log = m.trade_log ++ tl ∧ totalTraded tl ≤ s.quantity ∧
      (totalTraded tl < s.quantity →
        m1.sell_orders = setAt m.sell_orders s.stock_id
          (m.sell_orders s.stock_id ++ [{ s with quantity := s.quantity - totalTraded tl }]) ∧
        (m1.buy_orders s.stock_id = [] ∨
          ∃ b, pqTop BuyComparator (m1.buy_orders s.stock_id) = some b ∧ b.price < s.price)) ∧
      (totalTraded tl = s.quantity → m1.sell_orders = m.sell_orders)) := by
  constructor
  · intro m b
    obtain ⟨r, hr⟩ := buyLoop_total ((m.sell_orders b.stock_id).length + 1) m b
      (Or.inl (by omega))
    obtain ⟨hbo, ⟨tl, hlog, hle, hb2⟩, hexit⟩ := buyLoop_remainder hr
    obtain ⟨m2, b2⟩ := r
    dsimp only at hbo hlog hb2 hexit
    subst hb2
    dsimp only at hexit
    unfold handleBuyOrder
    rw [hr]
    dsimp only
    by_cases hq : b.quantity - totalTraded tl > 0
    · rw [if_pos hq]
      refine ⟨_, tl, rfl, hlog, hle, ?_, ?_⟩
      · intro _
        refine ⟨by dsimp only [pqPush]; rw [hbo], ?_⟩
        rcases hexit with he | he | he
        · exact Or.inl he
        · omega
        · exact Or.inr he
      · intro he
        omega
    · rw [if_neg hq]
      refine ⟨_, tl, rfl, hlog, hle, ?_, ?_⟩
      · intro hlt
        omega
      · intro _
        exact hbo
  · intro m s
    obtain ⟨r, hr⟩ := sellLoop_total ((m.buy_orders s.stock_id).length + 1) m s
      (Or.inl (by omega))
    obtain ⟨hso, ⟨tl, hlog, hle, hs2⟩, hexit⟩ := sellLoop_remainder hr
    obtain ⟨m2, s2⟩ := r
    dsimp only at hso hlog hs2 hexit
    subst hs2
    dsimp only at hexit
    unfold handleSellOrder
    rw [hr]
    dsimp only
    by_cases hq : s.quantity - totalTraded tl > 0
    · rw [if_pos hq]
      refine ⟨_, tl, rfl, hlog, hle, ?_, ?_⟩
      · intro _
        refine ⟨by dsimp only [pqPush]; rw [hso], ?_⟩
        rcases hexit with he | he | he
        · exact Or.inl he
        · omega
        · exact Or.inr he
      · intro he
        omega
    · rw [if_neg hq]
      refine ⟨_, tl, rfl, hlog, hle, ?_, ?_⟩
      · intro hlt
        omega
      · intro _
        exact hso

/-- C12 on a book with one ask of 5 shares at 10 and an incoming buy of 7 shares at
12: one trade of 5 shares, and the remainder of 2 shares rests in the bid book. -/
theorem C12_incoming_remainder_witness :
    (handleBuyOrder
        { Market.init 2 1 false false false false with
          sell_orders := fun _ => [⟨1, "SELL", 0, 0, 10, 5⟩] }
        ⟨2, "BUY", 1, 0, 12, 7⟩).map (fun m => (m.buy_orders 0, m.sell_orders 0, m.trade_log)) =
      some ([⟨2, "BUY", 1, 0, 12, 2⟩], [], [⟨1, 0, 0, 10, 5⟩]) ∧
    ∃ m1 tl, handleBuyOrder
        { Market.init 2 1 false false false false with
          sell_orders := fun _ => [⟨1, "SELL", 0, 0, 10, 5⟩] }
        ⟨2, "BUY", 1, 0, 12, 7⟩ = some m1 ∧
      m1.trade_log = [] ++ tl ∧ totalTraded tl ≤ 7 ∧
      (totalTraded tl < 7 →
        m1.buy_orders = setAt (fun _ => []) 0
          ([] ++ [{ (⟨2, "BUY", 1, 0, 12, 7⟩ : Order) with quantity := 7 - totalTraded tl }]) ∧
        (m1.sell_orders 0 = [] ∨
          ∃ s, pqTop SellComparator (m1.sell_orders 0) = some s ∧ 12 < s.price)) ∧
      (totalTraded tl = 7 → m1.buy_orders = fun _ => []) :=
  ⟨by decide,
   C12_incoming_remainder.1
     { Market.init 2 1 false false false false with
       sell_orders := fun _ => [⟨1, "SELL", 0, 0, 10, 5⟩] }
     ⟨2, "BUY", 1, 0, 12, 7⟩⟩

/-! ## C13: partial fill of the resting order -/

theorem pqPop_eq_erase {comp : Order → Order → Bool} {q : List Order} {t : Order}
    (h : pqTop comp q = some t) : pqPop comp q = q.erase t := by
  unfold pqPop
  rw [h]

/-- C13. Partial fill of the resting order. When the loop of `handleBuyOrder` (of
`handleSellOrder`) finds the incoming order unfilled and the top `O` of the opposing
book acceptable, it executes one trade and goes on with the state of that trade. The
quantity of the trade is the minimum of the remaining quantities of the incoming
order and of `O`; the incoming order goes on with its quantity reduced by it; if the
quantity of `O` exceeds it, `O` is put back on the opposing book with the same
timestamp, type, trader, stock and price and with its quantity reduced by exactly the
trade quantity; otherwise `O` is removed from the book and not put back. -/
theorem C13_partial_fill :
    (∀ (fuel : Nat) (m : Market) (b s : Order), b.quantity ≠ 0 →
      pqTop SellComparator (m.sell_orders b.stock_id) = some s → s.price ≤ b.price →
      buyLoop (fuel + 1) m b = buyLoop fuel (buyTrade m b s).1 (buyTrade m b s).2 ∧
      (buyTrade m b s).1.trade_log = m.trade_log ++
        [⟨b.trader_id, s.trader_id, b.stock_id, s.price, min b.quantity s.quantity⟩] ∧
      (buyTrade m b s).2 = { b with quantity := b.quantity - min b.quantity s.quantity } ∧
      (s.quantity > min b.quantity s.quantity →
        (buyTrade m b s).1.sell_orders b.stock_id = (m.sell_orders b.stock_id).erase s ++
          [{ s with quantity := s.quantity - min b.quantity s.quantity }]) ∧
      (¬ s.quantity > min b.quantity s.quantity →
        (buyTrade m b s).1.sell_orders b.stock_id = (m.sell_orders b.stock_id).erase s)) ∧
    (∀ (fuel : Nat) (m : Market) (s b : Order), s.quantity ≠ 0 →
      pqTop BuyComparator (m.buy_orders s.stock_id) = some b → b.price ≥ s.price →
      sellLoop (fuel + 1) m s = sellLoop fuel (sellTrade m s b).1 (sellTrade m s b).2 ∧
      (sellTrade m s b).1.trade_log = m.trade_log ++
        [⟨b.trader_id, s.trader_id, s.stock_id, b.price, min s.quantity b.quantity⟩] ∧
      (sellTrade m s b).2 = { s with quantity := s.quantity - min s.quantity b.quantity } ∧
      (b.quantity > min s.quantity b.quantity →
        (sellTrade m s b).1.buy_orders s.stock_id = (m.buy_orders s.stock_id).erase b ++
          [{ b with quantity := b.quantity - min s.quantity b.quantity }]) ∧
      (¬ b.quantity > min s.quantity b.quantity →
        (sellTrade m s b).1.buy_orders s.stock_id = (m.buy_orders s.stock_id).erase b)) := by
  constructor
  · intro fuel m b s hq hs hle
    have hne : m.sell_orders b.stock_id ≠ [] := fun h => by
      rw [h] at hs
      simp [pqTop] at hs
    refine ⟨?_, ?_, ?_, ?_, ?_⟩
    · simp only [buyLoop, hne, hq, or_self, if_false, hs, hle, if_true]
    · rw [buyTrade_trade_log, Nat.min_comm]
    · rw [buyTrade_snd, Nat.min_comm]
    · intro hgt
      rw [buyTrade_sell_orders, setAt_same, Nat.min_comm, if_pos (by omega), pqPop_eq_erase hs]
      rfl
    · intro hgt
      rw [buyTrade_sell_orders, setAt_same, Nat.min_comm, if_neg (by omega), pqPop_eq_erase hs]
  · intro fuel m s b hq hb hle
    have hne : m.buy_orders s.stock_id ≠ [] := fun h => by
      rw [h] at hb
      simp [pqTop] at hb
    refine ⟨?_, ?_, ?_, ?_, ?_⟩
    · simp only [sellLoop, hne, hq, or_self, if_false, hb, hle, if_true]
    · rw [sellTrade_trade_log, Nat.min_comm]
    · rw [sellTrade_snd, Nat.min_comm]
    · intro hgt
      rw [sellTrade_buy_orders, setAt_same, Nat.min_comm, if_pos (by omega), pqPop_eq_erase hb]
      rfl
    · intro hgt
      rw [sellTrade_buy_orders, setAt_same, Nat.min_comm, if_neg (by omega), pqPop_eq_erase hb]

/-- C13 on a book with one ask of 5 shares at 10 and an incoming buy of 3 shares at
12: the trade has 3 shares and the ask goes back on the book with 2 shares. -/
theorem C13_partial_fill_witness :
    (buyTrade
        { Market.init 2 1 false false false false with
          sell_orders := fun _ => [⟨1, "SELL", 0, 0, 10, 5⟩] }
        ⟨2, "BUY", 1, 0, 12, 3⟩ ⟨1, "SELL", 0, 0, 10, 5⟩).1.sell_orders 0 =
      [⟨1, "SELL", 0, 0, 10, 2⟩] ∧
    (buyTrade
        { Market.init 2 1 false false false false with
          sell_orders := fun _ => [⟨1, "SELL", 0, 0, 10, 5⟩] }
        ⟨2, "BUY", 1, 0, 12, 3⟩ ⟨1, "SELL", 0, 0, 10, 5⟩).1.trade_log =
      [] ++ [⟨1, 0, 0, 10, min 3 5⟩] :=
  ⟨by decide,
   (C13_partial_fill.1 0
     { Market.init 2 1 false false false false with
       sell_orders := fun _ => [⟨1, "SELL", 0, 0, 10, 5⟩] }
     ⟨2, "BUY", 1, 0, 12, 3⟩ ⟨1, "SELL", 0, 0, 10, 5⟩ (by decide) (by decide) (by decide)).2.1⟩

/-! ## C14: the order histories -/

/-- The fields that a call of `handleOrder` leaves alone: sizes, histories, flags. -/
theorem handleOrder_frame {m m1 : Market} {o : Order} (h : handleOrder m o = some m1) :
    m1.num_traders = m.num_traders ∧ m1.num_stocks = m.num_stocks ∧
    m1.buy_order_prices = m.buy_order_prices ∧ m1.sell_order_prices = m.sell_order_prices ∧
    m1.verbose = m.verbose ∧ m1.median = m.median ∧ m1.trader_info = m.trader_info ∧
    m1.time_travelers = m.time_travelers := by
  unfold handleOrder at h
  split at h
  · unfold handleBuyOrder at h
    cases hl : buyLoop ((m.sell_orders o.stock_id).length + 1) m o with
    | none => simp [hl] at h
    | some r =>
      rw [hl] at h
      have key := (buyLoop_inv
        (fun m2 _ => m2.num_traders = m.num_traders ∧ m2.num_stocks = m.num_stocks ∧
          m2.buy_order_prices = m.buy_order_prices ∧
          m2.sell_order_prices = m.sell_order_prices ∧
          m2.verbose = m.verbose ∧ m2.median = m.median ∧ m2.trader_info = m.trader_info ∧
          m2.time_travelers = m.time_travelers)
        (by
          intro m2 b2 s _ _ _ ⟨h1, h2, h3, h4, h5, h6, h7, h8⟩
          obtain ⟨a1, a2, a3, a4, a5, a6, a7, a8⟩ := buyTrade_frame m2 b2 s
          exact ⟨a1.trans h1, a2.trans h2, a3.trans h3, a4.trans h4, a5.trans h5,
            a6.trans h6, a7.trans h7, a8.trans h8⟩)
        _ m o r hl ⟨rfl, rfl, rfl, rfl, rfl, rfl, rfl, rfl⟩).1
      obtain ⟨m2, b2⟩ := r
      dsimp only at h key
      split at h <;>
      · simp only [Option.some.injEq] at h
        subst h
        exact key
  · unfold handleSellOrder at h
    cases hl : sellLoop ((m.buy_orders o.stock_id).length + 1) m o with
    | none => simp [hl] at h
    | some r =>
      rw [hl] at h
      have key := (sellLoop_inv
        (fun m2 _ => m2.num_traders = m.num_traders ∧ m2.num_stocks = m.num_stocks ∧
          m2.buy_order_prices = m.buy_order_prices ∧
          m2.sell_order_prices = m.sell_order_prices ∧
          m2.verbose = m.verbose ∧ m2.median = m.median ∧ m2.trader_info = m.trader_info ∧
          m2.time_travelers = m.time_travelers)
        (by
          intro m2 s2 b _ _ _ ⟨h1, h2, h3, h4, h5, h6, h7, h8⟩
          obtain ⟨a1, a2, a3, a4, a5, a6, a7, a8⟩ := sellTrade_frame m2 s2 b
          exact ⟨a1.trans h1, a2.trans h2, a3.trans h3, a4.trans h4, a5.trans h5,
            a6.trans h6, a7.trans h7, a8.trans h8⟩)
        _ m o r hl ⟨rfl, rfl, rfl, rfl, rfl, rfl, rfl, rfl⟩).1
      obtain ⟨m2, s2⟩ := r
      dsimp only at h key
      split at h <;>
      · simp only [Option.some.injEq] at h
        subst h
        exact key

/-- The read loop hands an accepted record to `handleOrder` in the state
`acceptRecord` and goes on with the timestamp of the record. -/
theorem processRecords_cons_good {m : Market} {cur : Nat} {x : Order} (xs : List Order)
    (h : ¬ recordBad m.num_traders m.num_stocks cur x) :
    processRecords m cur (x :: xs) =
      match handleOrder (acceptRecord m cur x) x with
      | none => none
      | some m3 => processRecords m3 x.timestamp xs := by
  unfold recordBad at h
  have h1 : ¬ x.timestamp < cur := fun hc => h (Or.inl hc)
  have h2 : ¬ x.trader_id ≥ m.num_traders := fun hc => h (Or.inr (Or.inl hc))
  have h3 : ¬ x.stock_id ≥ m.num_stocks := fun hc => h (Or.inr (Or.inr (Or.inl hc)))
  have h4 : ¬ (x.price ≤ 0 ∨ x.quantity ≤ 0) := by
    intro hc
    apply h
    right; right; right
    omega
  simp only [processRecords, h1, h2, h3, h4, if_false]
  rfl

/-- The read loop stops at a record that violates the input contract: `exit(1)` after
one message on `cerr`, with the state otherwise untouched. -/
theorem processRecords_cons_bad {m : Market} {cur : Nat} {x : Order} (xs : List Order)
    (h : recordBad m.num_traders m.num_stocks cur x) :
    ∃ e, e.isError = true ∧
      processRecords m cur (x :: xs) = some ({ m with out := m.out ++ [e] }, cur, true) := by
  simp only [processRecords]
  by_cases h1 : x.timestamp < cur
  · rw [if_pos h1]
    exact ⟨Output.errTimestamps, rfl, rfl⟩
  · rw [if_neg h1]
    by_cases h2 : x.trader_id ≥ m.num_traders
    · rw [if_pos h2]
      exact ⟨Output.errTraderId x.trader_id, rfl, rfl⟩
    · rw [if_neg h2]
      by_cases h3 : x.stock_id ≥ m.num_stocks
      · rw [if_pos h3]
        exact ⟨Output.errStockId x.stock_id, rfl, rfl⟩
      · rw [if_neg h3]
        have h4 : x.price ≤ 0 ∨ x.quantity ≤ 0 := by
          unfold recordBad at h
          omega
        rw [if_pos h4]
        exact ⟨Output.errPositive, rfl, rfl⟩

theorem acceptRecord_frame (m : Market) (cur : Nat) (x : Order) :
    (acceptRecord m cur x).num_traders = m.num_traders ∧
    (acceptRecord m cur x).num_stocks = m.num_stocks ∧
    (acceptRecord m cur x).buy_order_prices =
      (if x.type = "BUY" then
        setAt m.buy_order_prices x.stock_id
          (m.buy_order_prices x.stock_id ++ [(x.timestamp, x.price)])
       else m.buy_order_prices) ∧
    (acceptRecord m cur x).sell_order_prices =
      (if x.type = "BUY" then m.sell_order_prices
       else setAt m.sell_order_prices x.stock_id
          (m.sell_order_prices x.stock_id ++ [(x.timestamp, x.price)])) := by
  have hmed : SameCore m (if x.timestamp ≠ cur then
      (if m.median = true then printMedian m cur else m) else m) := by
    split
    · split
      · exact printMedian_sameCore m cur
      · exact SameCore.refl m
    · exact SameCore.refl m
  unfold acceptRecord
  dsimp only
  generalize (if x.timestamp ≠ cur then
    (if m.median = true then printMedian m cur else m) else m) = ma at hmed
  by_cases hb : x.type = "BUY"
  · simp only [hb, if_true]
    exact ⟨hmed.num_traders.symm, hmed.num_stocks.symm, by rw [hmed.buy_order_prices],
      hmed.sell_order_prices.symm⟩
  · simp only [hb, if_false]
    exact ⟨hmed.num_traders.symm, hmed.num_stocks.symm, hmed.buy_order_prices.symm,
      by rw [hmed.sell_order_prices]⟩

theorem buyQuotes_cons (i : Nat) (x : Order) (xs : List Order) :
    buyQuotes i (x :: xs) =
      if x.type = "BUY" ∧ x.stock_id = i then (x.timestamp, x.price) :: buyQuotes i xs
      else buyQuotes i xs := by
  unfold buyQuotes
  by_cases h : x.type = "BUY" ∧ x.stock_id = i
  · simp [List.filter_cons, h]
  · rw [if_neg h, List.filter_cons]
    simp [h]

theorem sellQuotes_cons (i : Nat) (x : Order) (xs : List Order) :
    sellQuotes i (x :: xs) =
      if ¬ x.type = "BUY" ∧ x.stock_id = i then (x.timestamp, x.price) :: sellQuotes i xs
      else sellQuotes i xs := by
  unfold sellQuotes
  by_cases h : ¬ x.type = "BUY" ∧ x.stock_id = i
  · simp [List.filter_cons, h]
  · rw [if_neg h, List.filter_cons]
    simp [h]

/-- A read loop that returns without `exit(1)` has accepted every record and has
appended the quote of each one to the history of its side and stock. -/
theorem processRecords_history (rs : List Order) :
    ∀ (m : Market) (cur : Nat) (r : Market × Nat × Bool),
      processRecords m cur rs = some r → r.2.2 = false →
      r.1.num_stocks = m.num_stocks ∧ (∀ x ∈ rs, x.stock_id < m.num_stocks) ∧
      ∀ i, r.1.buy_order_prices i = m.buy_order_prices i ++ buyQuotes i rs ∧
        r.1.sell_order_prices i = m.sell_order_prices i ++ sellQuotes i rs := by
  induction rs with
  | nil =>
    intro m cur r h _
    simp only [processRecords, Option.some.injEq] at h
    subst h
    simp [buyQuotes, sellQuotes]
  | cons x xs ih =>
    intro m cur r h hok
    by_cases hbad : recordBad m.num_traders m.num_stocks cur x
    · obtain ⟨e, _, he⟩ := processRecords_cons_bad xs hbad
      rw [he] at h
      simp only [Option.some.injEq] at h
      subst h
      simp at hok
    · rw [processRecords_cons_good xs hbad] at h
      cases hm3 : handleOrder (acceptRecord m cur x) x with
      | none => simp [hm3] at h
      | some m3 =>
        rw [hm3] at h
        dsimp only at h
        obtain ⟨_, f2, f3, f4, _⟩ := handleOrder_frame hm3
        obtain ⟨_, a2, a3, a4⟩ := acceptRecord_frame m cur x
        obtain ⟨i1, i2, i3⟩ := ih m3 _ r h hok
        have hns : m3.num_stocks = m.num_stocks := f2.trans a2
        have hx : x.stock_id < m.num_stocks := by
          unfold recordBad at hbad
          omega
        refine ⟨i1.trans hns, ?_, ?_⟩
        · intro y hy
          rcases List.mem_cons.mp hy with rfl | hy
          · exact hx
          · exact hns ▸ i2 y hy
        · intro i
          obtain ⟨j1, j2⟩ := i3 i
          rw [j1, j2, f3, f4, a3, a4, buyQuotes_cons, sellQuotes_cons]
          by_cases hb : x.type = "BUY"
          · by_cases hi : x.stock_id = i
            · subst hi
              simp [hb]
            · have hi2 : i ≠ x.stock_id := fun hc => hi hc.symm
              simp [hb, hi, setAt_other _ _ hi2]
          · by_cases hi : x.stock_id = i
            · subst hi
              simp [hb]
            · have hi2 : i ≠ x.stock_id := fun hc => hi hc.symm
              simp [hb, hi, setAt_other _ _ hi2]

/-- The histories after the end of the day: sorted for the stocks below `num_stocks`. -/
theorem endOfDay_histories (m : Market) (cur : Nat) :
    (endOfDay m cur).buy_order_prices =
      (fun i => if i < m.num_stocks then sortPairs (m.buy_order_prices i)
        else m.buy_order_prices i) ∧
    (endOfDay m cur).sell_order_prices =
      (fun i => if i < m.num_stocks then sortPairs (m.sell_order_prices i)
        else m.sell_order_prices i) := by
  have h1 : SameCore m (if m.median = true then printMedian m cur else m) := by
    split
    · exact printMedian_sameCore m cur
    · exact SameCore.refl m
  unfold endOfDay
  generalize (if m.median = true then printMedian m cur else m) = m1 at h1 ⊢
  rw [h1.num_stocks, h1.buy_order_prices, h1.sell_order_prices]
  by_cases hc : m1.trades_completed = 7621 <;> by_cases hti : m1.trader_info = true <;>
    by_cases htt : m1.time_travelers = true <;>
    simp [hc, hti, htt, printTraderInfo, printTimeTravelers]

theorem sorted_sortPairs (l : List (Nat × Nat)) : (sortPairs l).Sorted pairLe := by
  haveI : IsTotal (Nat × Nat) pairLe := ⟨fun a b => by unfold pairLe; omega⟩
  haveI : IsTrans (Nat × Nat) pairLe := ⟨fun a b c hab hbc => by unfold pairLe at *; omega⟩
  exact List.sorted_insertionSort pairLe l

theorem buyQuotes_eq_nil {i : Nat} {rs : List Order} (h : ∀ x ∈ rs, x.stock_id ≠ i) :
    buyQuotes i rs = [] := by
  unfold buyQuotes
  rw [List.map_eq_nil_iff, List.filter_eq_nil_iff]
  intro x hx
  simp [h x hx]

theorem sellQuotes_eq_nil {i : Nat} {rs : List Order} (h : ∀ x ∈ rs, x.stock_id ≠ i) :
    sellQuotes i rs = [] := by
  unfold sellQuotes
  rw [List.map_eq_nil_iff, List.filter_eq_nil_iff]
  intro x hx
  simp [h x hx]

/-- C14. Order history. Every sequence of records is processed by `processOrders`,
and when the run reaches the end of the stream, for every stock the buy history
handed to `printTimeTravelers` is a permutation of the `(timestamp, price)` pairs of
all submitted buy orders of the stock, and the sell history one of those of all
submitted sell orders of the stock, one entry per order, and both are sorted
ascending by timestamp, equal timestamps by ascending price. -/
theorem C14_order_history (traders stocks : Nat) (v me ti tt : Bool) (records : List Order) :
    ∃ r, processOrders (Market.init traders stocks v me ti tt) records = some r ∧
      (r.2 = false → ∀ i,
        (r.1.buy_order_prices i).Perm (buyQuotes i records) ∧
        (r.1.buy_order_prices i).Sorted pairLe ∧
        (r.1.sell_order_prices i).Perm (sellQuotes i records) ∧
        (r.1.sell_order_prices i).Sorted pairLe) := by
  obtain ⟨r, hr⟩ := processOrders_total (Market.init traders stocks v me ti tt) records
  refine ⟨r, hr, ?_⟩
  intro hok i
  unfold processOrders at hr
  cases hp : processRecords (Market.init traders stocks v me ti tt) 0 records with
  | none => simp [hp] at hr
  | some x =>
    rw [hp] at hr
    obtain ⟨ma, cur, ab⟩ := x
    cases ab with
    | true =>
      simp only [Option.some.injEq] at hr
      subst hr
      simp at hok
    | false =>
      simp only [Option.some.injEq] at hr
      subst hr
      dsimp only
      obtain ⟨hns, hall, hq⟩ := processRecords_history records _ 0 _ hp rfl
      obtain ⟨hb, hs⟩ := hq i
      dsimp only at hns hb hs
      have hb2 : ma.buy_order_prices i = buyQuotes i records := by
        rw [hb]
        rfl
      have hs2 : ma.sell_order_prices i = sellQuotes i records := by
        rw [hs]
        rfl
      obtain ⟨e1, e2⟩ := endOfDay_histories ma cur
      rw [e1, e2]
      dsimp only
      by_cases hi : i < ma.num_stocks
      · rw [if_pos hi, if_pos hi, hb2, hs2]
        exact ⟨List.perm_insertionSort _ _, sorted_sortPairs _, List.perm_insertionSort _ _,
          sorted_sortPairs _⟩
      · rw [if_neg hi, if_neg hi, hb2, hs2]
        have hne : ∀ x ∈ records, x.stock_id ≠ i := by
          intro x hx
          have := hall x hx
          have h0 : (Market.init traders stocks v me ti tt).num_stocks = ma.num_stocks :=
            hns.symm
          omega
        rw [buyQuotes_eq_nil hne, sellQuotes_eq_nil hne]
        exact ⟨List.Perm.refl _, List.sorted_nil, List.Perm.refl _, List.sorted_nil⟩

set_option maxRecDepth 4000 in
/-- C14 on a run with three buy orders and one sell order of stock 0, of which only
one buy order trades. -/
theorem C14_order_history_witness :
    (processOrders (Market.init 2 1 false false false false)
      [⟨1, "BUY", 0, 0, 30, 1⟩, ⟨1, "BUY", 0, 0, 20, 1⟩, ⟨2, "BUY", 0, 0, 5, 1⟩,
       ⟨2, "SELL", 1, 0, 25, 3⟩]).map
      (fun r => (r.2, r.1.buy_order_prices 0, r.1.sell_order_prices 0, r.1.trade_log.length)) =
      some (false, [(1, 20), (1, 30), (2, 5)], [(2, 25)], 1) ∧
    ∃ r, processOrders (Market.init 2 1 false false false false)
        [⟨1, "BUY", 0, 0, 30, 1⟩, ⟨1, "BUY", 0, 0, 20, 1⟩, ⟨2, "BUY", 0, 0, 5, 1⟩,
         ⟨2, "SELL", 1, 0, 25, 3⟩] = some r ∧
      (r.2 = false → ∀ i,
        (r.1.buy_order_prices i).Perm (buyQuotes i
          [⟨1, "BUY", 0, 0, 30, 1⟩, ⟨1, "BUY", 0, 0, 20, 1⟩, ⟨2, "BUY", 0, 0, 5, 1⟩,
           ⟨2, "SELL", 1, 0, 25, 3⟩]) ∧
        (r.1.buy_order_prices i).Sorted pairLe ∧
        (r.1.sell_order_prices i).Perm (sellQuotes i
          [⟨1, "BUY", 0, 0, 30, 1⟩, ⟨1, "BUY", 0, 0, 20, 1⟩, ⟨2, "BUY", 0, 0, 5, 1⟩,
           ⟨2, "SELL", 1, 0, 25, 3⟩]) ∧
        (r.1.sell_order_prices i).Sorted pairLe) :=
  ⟨by decide, C14_order_history 2 1 false false false false _⟩

/-! ## C15: fatal input -/

theorem handleOrder_acceptRecord_num {m m3 : Market} {cur : Nat} {x : Order}
    (h : handleOrder (acceptRecord m cur x) x = some m3) :
    m3.num_traders = m.num_traders ∧ m3.num_stocks = m.num_stocks := by
  obtain ⟨f1, f2, _⟩ := handleOrder_frame h
  obtain ⟨a1, a2, _⟩ := acceptRecord_frame m cur x
  exact ⟨f1.trans a1, f2.trans a2⟩

/-- A list of records without a violation of the input contract is read to its end,
and the loop ends with the timestamp of its last record. -/
theorem processRecords_good (pre : List Order) :
    ∀ (m : Market) (cur : Nat),
      (∀ pre1 x post1, pre = pre1 ++ x :: post1 →
        ¬ recordBad m.num_traders m.num_stocks (lastTimestamp cur pre1) x) →
      ∃ m1, processRecords m cur pre = some (m1, lastTimestamp cur pre, false) ∧
        m1.num_traders = m.num_traders ∧ m1.num_stocks = m.num_stocks := by
  induction pre with
  | nil =>
    intro m cur _
    exact ⟨m, rfl, rfl, rfl⟩
  | cons x xs ih =>
    intro m cur hgood
    have hx : ¬ recordBad m.num_traders m.num_stocks cur x := hgood [] x xs rfl
    rw [processRecords_cons_good xs hx]
    obtain ⟨m3, hm3⟩ := handleOrder_total (acceptRecord m cur x) x
    obtain ⟨n1, n2⟩ := handleOrder_acceptRecord_num hm3
    rw [hm3]
    dsimp only
    obtain ⟨m1, h1, h2, h3⟩ := ih m3 x.timestamp (by
      intro pre1 y post1 hsplit
      rw [n1, n2]
      have := hgood (x :: pre1) y post1 (by rw [hsplit]; rfl)
      exact this)
    exact ⟨m1, h1, h2.trans n1, h3.trans n2⟩

/-- The read loop on a list that continues a list it has read to the end. -/
theorem processRecords_append (pre : List Order) :
    ∀ (m : Market) (cur : Nat) (m1 : Market) (cur1 : Nat) (rest : List Order),
      processRecords m cur pre = some (m1, cur1, false) →
      processRecords m cur (pre ++ rest) = processRecords m1 cur1 rest := by
  induction pre with
  | nil =>
    intro m cur m1 cur1 rest h
    simp only [processRecords, Option.some.injEq, Prod.mk.injEq] at h
    obtain ⟨rfl, rfl, _⟩ := h
    rfl
  | cons x xs ih =>
    intro m cur m1 cur1 rest h
    by_cases hbad : recordBad m.num_traders m.num_stocks cur x
    · obtain ⟨e, _, he⟩ := processRecords_cons_bad xs hbad
      rw [he] at h
      simp at h
    · rw [processRecords_cons_good xs hbad] at h
      rw [List.cons_append, processRecords_cons_good (xs ++ rest) hbad]
      cases hm3 : handleOrder (acceptRecord m cur x) x with
      | none => simp [hm3] at h
      | some m3 =>
        rw [hm3] at h
        dsimp only at h ⊢
        exact ih m3 _ m1 cur1 rest h

/-- The read loop ends in `exit(1)` exactly when some record violates the input
contract. -/
theorem processRecords_aborts_iff (rs : List Order) :
    ∀ (m : Market) (cur : Nat) (r : Market × Nat × Bool), processRecords m cur rs = some r →
      (r.2.2 = true ↔ ∃ pre bad post, rs = pre ++ bad :: post ∧
        recordBad m.num_traders m.num_stocks (lastTimestamp cur pre) bad) := by
  induction rs with
  | nil =>
    intro m cur r h
    simp only [processRecords, Option.some.injEq] at h
    subst h
    simp
  | cons x xs ih =>
    intro m cur r h
    by_cases hbad : recordBad m.num_traders m.num_stocks cur x
    · obtain ⟨e, _, he⟩ := processRecords_cons_bad xs hbad
      rw [he] at h
      simp only [Option.some.injEq] at h
      subst h
      simp only [true_iff]
      exact ⟨[], x, xs, rfl, hbad⟩
    · rw [processRecords_cons_good xs hbad] at h
      cases hm3 : handleOrder (acceptRecord m cur x) x with
      | none => simp [hm3] at h
      | some m3 =>
        rw [hm3] at h
        dsimp only at h
        obtain ⟨n1, n2⟩ := handleOrder_acceptRecord_num hm3
        rw [ih m3 _ r h, n1, n2]
        constructor
        · rintro ⟨pre, bad, post, hsplit, hb⟩
          exact ⟨x :: pre, bad, post, by rw [hsplit]; rfl, hb⟩
        · rintro ⟨pre, bad, post, hsplit, hb⟩
          cases pre with
          | nil =>
            simp only [List.nil_append, List.cons.injEq] at hsplit
            obtain ⟨rfl, _⟩ := hsplit
            exact absurd hb hbad
          | cons y ys =>
            simp only [List.cons_append, List.cons.injEq] at hsplit
            obtain ⟨rfl, hxs⟩ := hsplit
            exact ⟨ys, bad, post, hxs, hb⟩

/-- C15. Fatal input. Every sequence of parsed records is processed by
`processOrders`, and the run ends in `exit(1)` exactly when some record has a
timestamp below that of the record before it, a `trader_id >= num_traders`, a
`stock_id >= num_stocks`, a price of 0 or a quantity of 0. The run aborts at the first
such record: the read loop handles the records before it as it handles them when they
are the whole input, and the final state is the state after those records (trades,
ledgers, books, histories and everything written to `cout`), with one message on
`cerr` added and nothing else. -/
theorem C15_fatal_input (traders stocks : Nat) (v me ti tt : Bool) (records : List Order) :
    (∃ r, processOrders (Market.init traders stocks v me ti tt) records = some r ∧
      (r.2 = true ↔ ∃ pre bad post, records = pre ++ bad :: post ∧
        recordBad traders stocks (lastTimestamp 0 pre) bad)) ∧
    (∀ pre bad post, records = pre ++ bad :: post →
      recordBad traders stocks (lastTimestamp 0 pre) bad →
      (∀ pre1 x post1, pre = pre1 ++ x :: post1 →
        ¬ recordBad traders stocks (lastTimestamp 0 pre1) x) →
      ∃ m1 e, processRecords (Market.init traders stocks v me ti tt) 0 pre =
          some (m1, lastTimestamp 0 pre, false) ∧
        e.isError = true ∧
        processOrders (Market.init traders stocks v me ti tt) records =
          some ({ m1 with out := m1.out ++ [e] }, true)) := by
  constructor
  · obtain ⟨x, hx⟩ := processRecords_total records (Market.init traders stocks v me ti tt) 0
    have hiff := processRecords_aborts_iff records _ 0 x hx
    obtain ⟨ma, cur, ab⟩ := x
    unfold processOrders
    rw [hx]
    cases ab with
    | true => exact ⟨_, rfl, hiff⟩
    | false => exact ⟨_, rfl, hiff⟩
  · intro pre bad post hsplit hbad hgood
    obtain ⟨m1, h1, n1, n2⟩ := processRecords_good pre (Market.init traders stocks v me ti tt) 0
      hgood
    have hbad1 : recordBad m1.num_traders m1.num_stocks (lastTimestamp 0 pre) bad := by
      rw [n1, n2]
      exact hbad
    obtain ⟨e, he, hrun⟩ := processRecords_cons_bad post hbad1
    refine ⟨m1, e, h1, he, ?_⟩
    unfold processOrders
    rw [hsplit, processRecords_append pre _ 0 m1 _ _ h1, hrun]

set_option maxRecDepth 4000 in
/-- C15 on a run whose third record goes back in time: the run ends in `exit(1)` with
the one trade of the first two records, their output line and the message on `cerr`;
the fourth record has no effect. -/
theorem C15_fatal_input_witness :
    (processOrders (Market.init 2 1 true false false false)
      [⟨5, "SELL", 0, 0, 10, 1⟩, ⟨6, "BUY", 1, 0, 10, 1⟩, ⟨4, "BUY", 1, 0, 10, 1⟩,
       ⟨7, "SELL", 0, 0, 10, 1⟩]).map
      (fun r => (r.2, r.1.trade_log, r.1.buy_orders 0, r.1.sell_orders 0, r.1.out)) =
      some (true, [⟨1, 0, 0, 10, 1⟩], [], [],
        [Output.tradeLine 1 1 0 0 10, Output.errTimestamps]) ∧
    ∃ m1 e, processRecords (Market.init 2 1 true false false false) 0
        [⟨5, "SELL", 0, 0, 10, 1⟩, ⟨6, "BUY", 1, 0, 10, 1⟩] =
          some (m1, lastTimestamp 0 [⟨5, "SELL", 0, 0, 10, 1⟩, ⟨6, "BUY", 1, 0, 10, 1⟩], false) ∧
      e.isError = true ∧
      processOrders (Market.init 2 1 true false false false)
        [⟨5, "SELL", 0, 0, 10, 1⟩, ⟨6, "BUY", 1, 0, 10, 1⟩, ⟨4, "BUY", 1, 0, 10, 1⟩,
         ⟨7, "SELL", 0, 0, 10, 1⟩] = some ({ m1 with out := m1.out ++ [e] }, true) :=
  ⟨by decide,
   (C15_fatal_input 2 1 true false false false
      [⟨5, "SELL", 0, 0, 10, 1⟩, ⟨6, "BUY", 1, 0, 10, 1⟩, ⟨4, "BUY", 1, 0, 10, 1⟩,
       ⟨7, "SELL", 0, 0, 10, 1⟩]).2
      [⟨5, "SELL", 0, 0, 10, 1⟩, ⟨6, "BUY", 1, 0, 10, 1⟩] ⟨4, "BUY", 1, 0, 10, 1⟩
      [⟨7, "SELL", 0, 0, 10, 1⟩] rfl (by unfold recordBad; decide)
      (by
        intro pre1 x post1 h
        rcases pre1 with _ | ⟨a, _ | ⟨b, pre2⟩⟩
        · simp only [List.nil_append, List.cons.injEq] at h
          obtain ⟨rfl, _⟩ := h
          unfold recordBad
          decide
        · simp only [List.cons_append, List.nil_append, List.cons.injEq] at h
          obtain ⟨rfl, rfl, _⟩ := h
          unfold recordBad
          decide
        · simp at h)⟩

/-! ## C16: termination of matching -/

/-- The trades of one run of the loop of `handleBuyOrder` are at most as many as the
asks that rested in the book of the stock before it. -/
theorem buyLoop_trades_le {fuel : Nat} {m : Market} {b : Order} {r : Market × Order}
    (h : buyLoop fuel m b = some r) :
    ∃ tl, r.1.trade_log = m.trade_log ++ tl ∧
      tl.length ≤ (m.sell_orders b.stock_id).length := by
  have key := (buyLoop_inv
    (fun m2 b2 => b2.stock_id = b.stock_id ∧
      ∃ tl, m2.trade_log = m.trade_log ++ tl ∧
        (tl.length + (m2.sell_orders b.stock_id).length ≤ (m.sell_orders b.stock_id).length ∨
          (b2.quantity = 0 ∧ tl.length ≤ (m.sell_orders b.stock_id).length)))
    ?_ fuel m b r h ⟨rfl, [], by simp, Or.inl (by simp)⟩).1
  · obtain ⟨_, tl, hlog, hcases⟩ := key
    refine ⟨tl, hlog, ?_⟩
    rcases hcases with hc | hc
    · omega
    · exact hc.2
  · intro m2 b2 s hq hs _ ⟨hst, tl, hlog, hcases⟩
    refine ⟨hst, tl ++ [⟨b2.trader_id, s.trader_id, b2.stock_id, s.price,
      min s.quantity b2.quantity⟩], ?_, ?_⟩
    · rw [buyTrade_trade_log, hlog, List.append_assoc]
    · rcases hcases with hc | hc
      · rw [hst] at hs
        have hpop := length_pqPop hs
        rw [buyTrade_sell_orders, hst, setAt_same, buyTrade_snd]
        by_cases hrest : s.quantity - min s.quantity b2.quantity > 0
        · right
          have hle : b2.quantity ≤ s.quantity := by
            by_contra hlt
            have : min s.quantity b2.quantity = s.quantity := Nat.min_eq_left (by omega)
            omega
          have hmin : min s.quantity b2.quantity = b2.quantity := Nat.min_eq_right hle
          refine ⟨by dsimp only; omega, ?_⟩
          rw [List.length_append, List.length_singleton]
          omega
        · left
          rw [if_neg hrest, List.length_append, List.length_singleton]
          omega
      · exact absurd hc.1 hq

/-- The trades of one run of the loop of `handleSellOrder` are at most as many as the
bids that rested in the book of the stock before it. -/
theorem sellLoop_trades_le {fuel : Nat} {m : Market} {s : Order} {r : Market × Order}
    (h : sellLoop fuel m s = some r) :
    ∃ tl, r.1.trade_log = m.trade_log ++ tl ∧
      tl.length ≤ (m.buy_orders s.stock_id).length := by
  have key := (sellLoop_inv
    (fun m2 s2 => s2.stock_id = s.stock_id ∧
      ∃ tl, m2.trade_log = m.trade_log ++ tl ∧
        (tl.length + (m2.buy_orders s.stock_id).length ≤ (m.buy_orders s.stock_id).length ∨
          (s2.quantity = 0 ∧ tl.length ≤ (m.buy_orders s.stock_id).length)))
    ?_ fuel m s r h ⟨rfl, [], by simp, Or.inl (by simp)⟩).1
  · obtain ⟨_, tl, hlog, hcases⟩ := key
    refine ⟨tl, hlog, ?_⟩
    rcases hcases with hc | hc
    · omega
    · exact hc.2
  · intro m2 s2 b hq hb _ ⟨hst, tl, hlog, hcases⟩
    refine ⟨hst, tl ++ [⟨b.trader_id, s2.trader_id, s2.stock_id, b.price,
      min b.quantity s2.quantity⟩], ?_, ?_⟩
    · rw [sellTrade_trade_log, hlog, List.append_assoc]
    · rcases hcases with hc | hc
      · rw [hst] at hb
        have hpop := length_pqPop hb
        rw [sellTrade_buy_orders, hst, setAt_same, sellTrade_snd]
        by_cases hrest : b.quantity - min b.quantity s2.quantity > 0
        · right
          have hle : s2.quantity ≤ b.quantity := by
            by_contra hlt
            have : min b.quantity s2.quantity = b.quantity := Nat.min_eq_left (by omega)
            omega
          have hmin : min b.quantity s2.quantity = s2.quantity := Nat.min_eq_right hle
          refine ⟨by dsimp only; omega, ?_⟩
          rw [List.length_append, List.length_singleton]
          omega
        · left
          rw [if_neg hrest, List.length_append, List.length_singleton]
          omega
      · exact absurd hc.1 hq

/-- C16. Termination of matching. For every state and every incoming order, the
matching loop of `handleBuyOrder` (of `handleSellOrder`) exits within the fuel of one
iteration per order resting in the opposing book of the stock plus one, so the call
returns; and the trades it executes are at most as many as the orders that rested in
that book before the call. -/
theorem C16_matching_terminates :
    (∀ (m : Market) (b : Order), ∃ r m1 tl,
      buyLoop ((m.sell_orders b.stock_id).length + 1) m b = some r ∧
      handleBuyOrder m b = some m1 ∧ m1.trade_log = m.trade_log ++ tl ∧
      tl.length ≤ (m.sell_orders b.stock_id).length) ∧
    (∀ (m : Market) (s : Order), ∃ r m1 tl,
      sellLoop ((m.buy_orders s.stock_id).length + 1) m s = some r ∧
      handleSellOrder m s = some m1 ∧ m1.trade_log = m.trade_log ++ tl ∧
      tl.length ≤ (m.buy_orders s.stock_id).length) := by
  constructor
  · intro m b
    obtain ⟨m1, hm1⟩ := handleBuyOrder_total m b
    obtain ⟨r, hr, hlog, _⟩ := handleBuyOrder_loop hm1
    obtain ⟨tl, h1, h2⟩ := buyLoop_trades_le hr
    exact ⟨r, m1, tl, hr, hm1, hlog.trans h1, h2⟩
  · intro m s
    obtain ⟨m1, hm1⟩ := handleSellOrder_total m s
    obtain ⟨r, hr, hlog, _⟩ := handleSellOrder_loop hm1
    obtain ⟨tl, h1, h2⟩ := sellLoop_trades_le hr
    exact ⟨r, m1, tl, hr, hm1, hlog.trans h1, h2⟩

/-- C16 on a book with two asks and an incoming buy that takes the first one whole
and a part of the second one: two trades. -/
theorem C16_matching_terminates_witness :
    (handleBuyOrder
        { Market.init 3 1 false false false false with
          sell_orders := fun _ => [⟨1, "SELL", 0, 0, 10, 5⟩, ⟨2, "SELL", 2, 0, 11, 5⟩] }
        ⟨3, "BUY", 1, 0, 12, 7⟩).map (fun m => (m.trade_log, m.sell_orders 0)) =
      some ([⟨1, 0, 0, 10, 5⟩, ⟨1, 2, 0, 11, 2⟩], [⟨2, "SELL", 2, 0, 11, 3⟩]) ∧
    ∃ r m1 tl,
      buyLoop (2 + 1)
        { Market.init 3 1 false false false false with
          sell_orders := fun _ => [⟨1, "SELL", 0, 0, 10, 5⟩, ⟨2, "SELL", 2, 0, 11, 5⟩] }
        ⟨3, "BUY", 1, 0, 12, 7⟩ = some r ∧
      handleBuyOrder
        { Market.init 3 1 false false false false with
          sell_orders := fun _ => [⟨1, "SELL", 0, 0, 10, 5⟩, ⟨2, "SELL", 2, 0, 11, 5⟩] }
        ⟨3, "BUY", 1, 0, 12, 7⟩ = some m1 ∧
      m1.trade_log = [] ++ tl ∧ tl.length ≤ 2 :=
  ⟨by decide,
   C16_matching_terminates.1
     { Market.init 3 1 false false false false with
       sell_orders := fun _ => [⟨1, "SELL", 0, 0, 10, 5⟩, ⟨2, "SELL", 2, 0, 11, 5⟩] }
     ⟨3, "BUY", 1, 0, 12, 7⟩⟩

/-! ## C17: positive quantities -/

/-- An ask that rests after a trade of `handleBuyOrder` rested before it, or it is
the traded ask put back with a positive remainder. -/
theorem mem_buyTrade_sell_orders_pos {m : Market} {b s : Order} {j : Nat} {a : Order}
    (ha : a ∈ (buyTrade m b s).1.sell_orders j) :
    a ∈ m.sell_orders j ∨
      (a = { s with quantity := s.quantity - min s.quantity b.quantity } ∧ 0 < a.quantity) := by
  rw [buyTrade_sell_orders] at ha
  by_cases hj : j = b.stock_id
  · subst hj
    rw [setAt_same] at ha
    split at ha
    · rename_i hpos
      rcases mem_pqPush ha with h | h
      · exact Or.inl (mem_pqPop h)
      · exact Or.inr ⟨h, by rw [h]; exact hpos⟩
    · exact Or.inl (mem_pqPop ha)
  · rw [setAt_other _ _ hj] at ha
    exact Or.inl ha

/-- A bid that rests after a trade of `handleSellOrder` rested before it, or it is
the traded bid put back with a positive remainder. -/
theorem mem_sellTrade_buy_orders_pos {m : Market} {s b : Order} {j : Nat} {x : Order}
    (hx : x ∈ (sellTrade m s b).1.buy_orders j) :
    x ∈ m.buy_orders j ∨
      (x = { b with quantity := b.quantity - min b.quantity s.quantity } ∧ 0 < x.quantity) := by
  rw [sellTrade_buy_orders] at hx
  by_cases hj : j = s.stock_id
  · subst hj
    rw [setAt_same] at hx
    split at hx
    · rename_i hpos
      rcases mem_pqPush hx with h | h
      · exact Or.inl (mem_pqPop h)
      · exact Or.inr ⟨h, by rw [h]; exact hpos⟩
    · exact Or.inl (mem_pqPop hx)
  · rw [setAt_other _ _ hj] at hx
    exact Or.inl hx

theorem handleBuyOrder_pos {m m1 : Market} {b : Order} (h : handleBuyOrder m b = some m1)
    (inv : PosInv m) : PosInv m1 := by
  unfold handleBuyOrder at h
  cases hl : buyLoop ((m.sell_orders b.stock_id).length + 1) m b with
  | none => simp [hl] at h
  | some r =>
    rw [hl] at h
    have key := (buyLoop_inv (fun m2 _ => PosInv m2)
      (by
        intro m2 b2 s hq hs _ ⟨h1, h2, h3⟩
        have hspos : 0 < s.quantity := h2 _ s (pqTop_mem hs)
        refine ⟨?_, ?_, ?_⟩
        · intro j o ho
          rw [buyTrade_buy_orders] at ho
          exact h1 j o ho
        · intro j o ho
          rcases mem_buyTrade_sell_orders_pos ho with ho | ho
          · exact h2 j o ho
          · exact ho.2
        · intro t ht
          rw [buyTrade_trade_log] at ht
          rcases List.mem_append.mp ht with ht | ht
          · exact h3 t ht
          · simp only [List.mem_singleton] at ht
            subst ht
            dsimp only
            exact Nat.lt_min.mpr ⟨hspos, by omega⟩)
      _ m b r hl inv).1
    obtain ⟨m2, b2⟩ := r
    dsimp only at h key
    split at h
    · rename_i hq
      simp only [Option.some.injEq] at h
      subst h
      refine ⟨?_, key.2.1, key.2.2⟩
      intro j o ho
      dsimp only at ho
      by_cases hj : j = b2.stock_id
      · subst hj
        rw [setAt_same] at ho
        rcases mem_pqPush ho with ho | ho
        · exact key.1 _ o ho
        · rw [ho]
          exact hq
      · rw [setAt_other _ _ hj] at ho
        exact key.1 j o ho
    · simp only [Option.some.injEq] at h
      subst h
      exact key

theorem handleSellOrder_pos {m m1 : Market} {s : Order} (h : handleSellOrder m s = some m1)
    (inv : PosInv m) : PosInv m1 := by
  unfold handleSellOrder at h
  cases hl : sellLoop ((m.buy_orders s.stock_id).length + 1) m s with
  | none => simp [hl] at h
  | some r =>
    rw [hl] at h
    have key := (sellLoop_inv (fun m2 _ => PosInv m2)
      (by
        intro m2 s2 b hq hb _ ⟨h1, h2, h3⟩
        have hbpos : 0 < b.quantity := h1 _ b (pqTop_mem hb)
        refine ⟨?_, ?_, ?_⟩
        · intro j o ho
          rcases mem_sellTrade_buy_orders_pos ho with ho | ho
          · exact h1 j o ho
          · exact ho.2
        · intro j o ho
          rw [sellTrade_sell_orders] at ho
          exact h2 j o ho
        · intro t ht
          rw [sellTrade_trade_log] at ht
          rcases List.mem_append.mp ht with ht | ht
          · exact h3 t ht
          · simp only [List.mem_singleton] at ht
            subst ht
            dsimp only
            exact Nat.lt_min.mpr ⟨hbpos, by omega⟩)
      _ m s r hl inv).1
    obtain ⟨m2, s2⟩ := r
    dsimp only at h key
    split at h
    · rename_i hq
      simp only [Option.some.injEq] at h
      subst h
      refine ⟨key.1, ?_, key.2.2⟩
      intro j o ho
      dsimp only at ho
      by_cases hj : j = s2.stock_id
      · subst hj
        rw [setAt_same] at ho
        rcases mem_pqPush ho with ho | ho
        · exact key.2.1 _ o ho
        · rw [ho]
          exact hq
      · rw [setAt_other _ _ hj] at ho
        exact key.2.1 j o ho
    · simp only [Option.some.injEq] at h
      subst h
      exact key

theorem runOrders_pos (os : List Order) :
    ∀ {m m1 : Market}, runOrders m os = some m1 → PosInv m → PosInv m1 := by
  induction os with
  | nil =>
    intro m m1 h hm
    simp only [runOrders, Option.some.injEq] at h
    exact h ▸ hm
  | cons o os ih =>
    intro m m1 h hm
    simp only [runOrders] at h
    cases ho : handleOrder m o with
    | none => simp [ho] at h
    | some m2 =>
      rw [ho] at h
      refine ih h ?_
      unfold handleOrder at ho
      split at ho
      · exact handleBuyOrder_pos ho hm
      · exact handleSellOrder_pos ho hm

/-- C17. Positive quantities. Started from empty books, every sequence of orders
whose quantities are all positive is processed to the end, and afterwards every order
resting in a bid or ask book has a positive quantity and every trade executed has a
positive quantity. -/
theorem C17_positive_quantities (traders stocks : Nat) (v me ti tt : Bool)
    (orders : List Order) (_hq : ∀ o ∈ orders, 0 < o.quantity) :
    ∃ m, runOrders (Market.init traders stocks v me ti tt) orders = some m ∧
      (∀ s, ∀ o ∈ m.buy_orders s, 0 < o.quantity) ∧
      (∀ s, ∀ o ∈ m.sell_orders s, 0 < o.quantity) ∧
      ∀ t ∈ m.trade_log, 0 < t.quantity := by
  obtain ⟨m, hm⟩ := runOrders_total orders (Market.init traders stocks v me ti tt)
  refine ⟨m, hm, runOrders_pos orders hm ?_⟩
  refine ⟨?_, ?_, ?_⟩
  · intro s o ho
    simp [Market.init] at ho
  · intro s o ho
    simp [Market.init] at ho
  · intro t ht
    simp [Market.init] at ht

/-- C17 on a run that leaves the remainder of a partly filled ask in the book. -/
theorem C17_positive_quantities_witness :
    (runOrders (Market.init 2 1 false false false false)
      [⟨1, "SELL", 0, 0, 10, 5⟩, ⟨2, "BUY", 1, 0, 12, 3⟩]).map
      (fun m => (m.buy_orders 0, m.sell_orders 0, m.trade_log)) =
      some ([], [⟨1, "SELL", 0, 0, 10, 2⟩], [⟨1, 0, 0, 10, 3⟩]) ∧
    ∃ m, runOrders (Market.init 2 1 false false false false)
        [⟨1, "SELL", 0, 0, 10, 5⟩, ⟨2, "BUY", 1, 0, 12, 3⟩] = some m ∧
      (∀ s, ∀ o ∈ m.buy_orders s, 0 < o.quantity) ∧
      (∀ s, ∀ o ∈ m.sell_orders s, 0 < o.quantity) ∧
      ∀ t ∈ m.trade_log, 0 < t.quantity :=
  ⟨by decide,
   C17_positive_quantities 2 1 false false false false
     [⟨1, "SELL", 0, 0, 10, 5⟩, ⟨2, "BUY", 1, 0, 12, 3⟩] (by decide)⟩

/-! ## C18: zero-sum cash -/

theorem sumOverInt_succ (n : Nat) (f : Nat → Int) :
    sumOverInt (n + 1) f = sumOverInt n f + f n := by
  simp [sumOverInt, List.range_succ]

theorem sumOverInt_zero (n : Nat) : sumOverInt n (fun _ => 0) = 0 := by
  induction n with
  | zero => rfl
  | succ k ih => rw [sumOverInt_succ, ih]; rfl

theorem sumOverInt_setAt (n : Nat) (f : Nat → Int) (j : Nat) (x : Int) (hj : j < n) :
    sumOverInt n (setAt f j x) = sumOverInt n f + (x - f j) := by
  induction n with
  | zero => omega
  | succ k ih =>
    rw [sumOverInt_succ, sumOverInt_succ]
    by_cases hk : j = k
    · subst hk
      have hsame : sumOverInt j (setAt f j x) = sumOverInt j f := by
        unfold sumOverInt
        congr 1
        apply List.map_congr_left
        intro i hi
        have : i ≠ j := by
          have := List.mem_range.mp hi
          omega
        exact setAt_other _ _ this
      rw [hsame, setAt_same]
      omega
    · rw [ih (by omega), setAt_other _ _ (Ne.symm hk)]
      omega

/-- One trade between traders below `n` leaves the sum of the cash entries unchanged. -/
theorem sumOverInt_trade (n : Nat) (f : Nat → Int) (buyer seller : Nat) (value : Int)
    (hb : buyer < n) (hs : seller < n) :
    sumOverInt n (setAt (setAt f buyer (f buyer - value)) seller
      (setAt f buyer (f buyer - value) seller + value)) = sumOverInt n f := by
  rw [sumOverInt_setAt _ _ _ _ hs, sumOverInt_setAt _ _ _ _ hb]
  omega

theorem TradersBelow_buyTrade {n : Nat} {m : Market} {b s : Order}
    (hs : pqTop SellComparator (m.sell_orders b.stock_id) = some s) (hb : b.trader_id < n)
    (hT : TradersBelow n m) : TradersBelow n (buyTrade m b s).1 := by
  have hsn : s.trader_id < n := hT.2.1 _ s (pqTop_mem hs)
  refine ⟨?_, ?_, ?_⟩
  · intro j o ho
    rw [buyTrade_buy_orders] at ho
    exact hT.1 j o ho
  · intro j o ho
    rcases mem_buyTrade_sell_orders ho with ho | ho
    · exact hT.2.1 j o ho
    · rw [ho]
      exact hsn
  · intro t ht
    rw [buyTrade_trade_log] at ht
    rcases List.mem_append.mp ht with ht | ht
    · exact hT.2.2 t ht
    · simp only [List.mem_singleton] at ht
      subst ht
      exact ⟨hb, hsn⟩

theorem TradersBelow_sellTrade {n : Nat} {m : Market} {s b : Order}
    (hb : pqTop BuyComparator (m.buy_orders s.stock_id) = some b) (hs : s.trader_id < n)
    (hT : TradersBelow n m) : TradersBelow n (sellTrade m s b).1 := by
  have hbn : b.trader_id < n := hT.1 _ b (pqTop_mem hb)
  refine ⟨?_, ?_, ?_⟩
  · intro j o ho
    rcases mem_sellTrade_buy_orders ho with ho | ho
    · exact hT.1 j o ho
    · rw [ho]
      exact hbn
  · intro j o ho
    rw [sellTrade_sell_orders] at ho
    exact hT.2.1 j o ho
  · intro t ht
    rw [sellTrade_trade_log] at ht
    rcases List.mem_append.mp ht with ht | ht
    · exact hT.2.2 t ht
    · simp only [List.mem_singleton] at ht
      subst ht
      exact ⟨hbn, hs⟩

theorem TradersBelow_push_buy {n : Nat} {m : Market} {o : Order} (ho : o.trader_id < n)
    (hT : TradersBelow n m) :
    TradersBelow n { m with
      buy_orders := setAt m.buy_orders o.stock_id (pqPush (m.buy_orders o.stock_id) o) } := by
  refine ⟨?_, hT.2.1, hT.2.2⟩
  intro j x hx
  dsimp only at hx
  by_cases hj : j = o.stock_id
  · subst hj
    rw [setAt_same] at hx
    rcases mem_pqPush hx with hx | hx
    · exact hT.1 _ x hx
    · rw [hx]
      exact ho
  · rw [setAt_other _ _ hj] at hx
    exact hT.1 j x hx

theorem TradersBelow_push_sell {n : Nat} {m : Market} {o : Order} (ho : o.trader_id < n)
    (hT : TradersBelow n m) :
    TradersBelow n { m with
      sell_orders := setAt m.sell_orders o.stock_id (pqPush (m.sell_orders o.stock_id) o) } := by
  refine ⟨hT.1, ?_, hT.2.2⟩
  intro j x hx
  dsimp only at hx
  by_cases hj : j = o.stock_id
  · subst hj
    rw [setAt_same] at hx
    rcases mem_pqPush hx with hx | hx
    · exact hT.2.1 _ x hx
    · rw [hx]
      exact ho
  · rw [setAt_other _ _ hj] at hx
    exact hT.2.1 j x hx

theorem handleBuyOrder_cash {n : Nat} {m m1 : Market} {b : Order}
    (h : handleBuyOrder m b = some m1) (hb : b.trader_id < n)
    (inv : sumOverInt n m.trader_net_transfer = 0 ∧ TradersBelow n m) :
    sumOverInt n m1.trader_net_transfer = 0 ∧ TradersBelow n m1 := by
  unfold handleBuyOrder at h
  cases hl : buyLoop ((m.sell_orders b.stock_id).length + 1) m b with
  | none => simp [hl] at h
  | some r =>
    rw [hl] at h
    have key := (buyLoop_inv
      (fun m2 b2 => (sumOverInt n m2.trader_net_transfer = 0 ∧ TradersBelow n m2) ∧
        b2.trader_id < n)
      (by
        intro m2 b2 s _ hs _ ⟨⟨hC, hT2⟩, hb2⟩
        refine ⟨⟨?_, TradersBelow_buyTrade hs hb2 hT2⟩, hb2⟩
        rw [buyTrade_net_transfer,
          sumOverInt_trade n _ _ _ _ hb2 (hT2.2.1 _ s (pqTop_mem hs)), hC])
      _ m b r hl ⟨inv, hb⟩).1
    obtain ⟨m2, b2⟩ := r
    dsimp only at h key
    split at h
    · simp only [Option.some.injEq] at h
      subst h
      exact ⟨key.1.1, TradersBelow_push_buy key.2 key.1.2⟩
    · simp only [Option.some.injEq] at h
      subst h
      exact key.1

theorem handleSellOrder_cash {n : Nat} {m m1 : Market} {s : Order}
    (h : handleSellOrder m s = some m1) (hs : s.trader_id < n)
    (inv : sumOverInt n m.trader_net_transfer = 0 ∧ TradersBelow n m) :
    sumOverInt n m1.trader_net_transfer = 0 ∧ TradersBelow n m1 := by
  unfold handleSellOrder at h
  cases hl : sellLoop ((m.buy_orders s.stock_id).length + 1) m s with
  | none => simp [hl] at h
  | some r =>
    rw [hl] at h
    have key := (sellLoop_inv
      (fun m2 s2 => (sumOverInt n m2.trader_net_transfer = 0 ∧ TradersBelow n m2) ∧
        s2.trader_id < n)
      (by
        intro m2 s2 b _ hb _ ⟨⟨hC, hT2⟩, hs2⟩
        refine ⟨⟨?_, TradersBelow_sellTrade hb hs2 hT2⟩, hs2⟩
        rw [sellTrade_net_transfer,
          sumOverInt_trade n _ _ _ _ (hT2.1 _ b (pqTop_mem hb)) hs2, hC])
      _ m s r hl ⟨inv, hs⟩).1
    obtain ⟨m2, s2⟩ := r
    dsimp only at h key
    split at h
    · simp only [Option.some.injEq] at h
      subst h
      exact ⟨key.1.1, TradersBelow_push_sell key.2 key.1.2⟩
    · simp only [Option.some.injEq] at h
      subst h
      exact key.1

theorem runOrders_cash {n : Nat} (os : List Order) :
    ∀ {m m1 : Market}, runOrders m os = some m1 → (∀ o ∈ os, o.trader_id < n) →
      sumOverInt n m.trader_net_transfer = 0 ∧ TradersBelow n m →
      sumOverInt n m1.trader_net_transfer = 0 ∧ TradersBelow n m1 := by
  induction os with
  | nil =>
    intro m m1 h _ inv
    simp only [runOrders, Option.some.injEq] at h
    exact h ▸ inv
  | cons o os ih =>
    intro m m1 h hid inv
    simp only [runOrders] at h
    cases ho : handleOrder m o with
    | none => simp [ho] at h
    | some m2 =>
      rw [ho] at h
      refine ih h (fun x hx => hid x (List.mem_cons_of_mem _ hx)) ?_
      have hon : o.trader_id < n := hid o (List.mem_cons_self _ _)
      unfold handleOrder at ho
      split at ho
      · exact handleBuyOrder_cash ho hon inv
      · exact handleSellOrder_cash ho hon inv

/-- C18. Zero-sum cash. Started from empty ledgers, every finite sequence of orders
whose trader ids are below `n` is processed to the end (trades of a trader with
itself included), and afterwards the sum of `trader_net_transfer` over the traders
below `n` is 0. -/
theorem C18_zero_sum_cash (n stocks : Nat) (v me ti tt : Bool) (orders : List Order)
    (hid : ∀ o ∈ orders, o.trader_id < n) :
    ∃ m, runOrders (Market.init n stocks v me ti tt) orders = some m ∧
      sumOverInt n m.trader_net_transfer = 0 := by
  obtain ⟨m, hm⟩ := runOrders_total orders (Market.init n stocks v me ti tt)
  refine ⟨m, hm, (runOrders_cash orders hm hid ⟨?_, (LedgerInv_init n stocks v me ti tt).2⟩).1⟩
  have : (Market.init n stocks v me ti tt).trader_net_transfer = fun _ => 0 := rfl
  rw [this]
  exact sumOverInt_zero n

/-- C18 on a run in which trader 1 buys from trader 0 and then from itself. -/
theorem C18_zero_sum_cash_witness :
    (runOrders (Market.init 2 1 false false false false)
      [⟨1, "SELL", 0, 0, 10, 5⟩, ⟨2, "SELL", 1, 0, 11, 4⟩, ⟨3, "BUY", 1, 0, 12, 7⟩]).map
      (fun m => (m.trader_net_transfer 0, m.trader_net_transfer 1, m.trade_log)) =
      some (50, -50, [⟨1, 0, 0, 10, 5⟩, ⟨1, 1, 0, 11, 2⟩]) ∧
    ∃ m, runOrders (Market.init 2 1 false false false false)
        [⟨1, "SELL", 0, 0, 10, 5⟩, ⟨2, "SELL", 1, 0, 11, 4⟩, ⟨3, "BUY", 1, 0, 12, 7⟩] = some m ∧
      sumOverInt 2 m.trader_net_transfer = 0 :=
  ⟨by decide,
   C18_zero_sum_cash 2 1 false false false false
     [⟨1, "SELL", 0, 0, 10, 5⟩, ⟨2, "SELL", 1, 0, 11, 4⟩, ⟨3, "BUY", 1, 0, 12, 7⟩]
     (by decide)⟩

/-! ## C19: stock isolation -/

/-- What the loop of `handleBuyOrder` leaves alone: the books and price lists of the
other stocks, and the ledger entries of every trader that is neither the buyer nor
the seller of one of its trades. -/
theorem buyLoop_isolation {fuel : Nat} {m : Market} {b : Order} {r : Market × Order}
    (h : buyLoop fuel m b = some r) :
    r.2.stock_id = b.stock_id ∧ r.2.trader_id = b.trader_id ∧
    (∀ j, j ≠ b.stock_id → r.1.buy_orders j = m.buy_orders j ∧
      r.1.sell_orders j = m.sell_orders j ∧ r.1.trade_prices j = m.trade_prices j) ∧
    ∃ tl, r.1.trade_log = m.trade_log ++ tl ∧ (∀ t ∈ tl, t.buyer = b.trader_id) ∧
      ∀ i, i ≠ b.trader_id → (∀ t ∈ tl, t.seller ≠ i) →
        r.1.trader_buy_count i = m.trader_buy_count i ∧
        r.1.trader_sell_count i = m.trader_sell_count i ∧
        r.1.trader_net_transfer i = m.trader_net_transfer i := by
  refine (buyLoop_inv
    (fun m2 b2 => b2.stock_id = b.stock_id ∧ b2.trader_id = b.trader_id ∧
      (∀ j, j ≠ b.stock_id → m2.buy_orders j = m.buy_orders j ∧
        m2.sell_orders j = m.sell_orders j ∧ m2.trade_prices j = m.trade_prices j) ∧
      ∃ tl, m2.trade_log = m.trade_log ++ tl ∧ (∀ t ∈ tl, t.buyer = b.trader_id) ∧
        ∀ i, i ≠ b.trader_id → (∀ t ∈ tl, t.seller ≠ i) →
          m2.trader_buy_count i = m.trader_buy_count i ∧
          m2.trader_sell_count i = m.trader_sell_count i ∧
          m2.trader_net_transfer i = m.trader_net_transfer i)
    ?_ fuel m b r h
    ⟨rfl, rfl, fun _ _ => ⟨rfl, rfl, rfl⟩, [], by simp, by simp,
      fun _ _ _ => ⟨rfl, rfl, rfl⟩⟩).1
  intro m2 b2 s _ _ _ ⟨hst, htr, hframe, tl, hlog, hbuyer, hledger⟩
  refine ⟨hst, htr, ?_, ?_⟩
  · intro j hj
    obtain ⟨f1, f2, f3⟩ := hframe j hj
    rw [buyTrade_buy_orders, buyTrade_sell_orders, buyTrade_trade_prices, hst,
      setAt_other _ _ hj, setAt_other _ _ hj]
    exact ⟨f1, f2, f3⟩
  · refine ⟨tl ++ [⟨b2.trader_id, s.trader_id, b2.stock_id, s.price,
      min s.quantity b2.quantity⟩], ?_, ?_, ?_⟩
    · rw [buyTrade_trade_log, hlog, List.append_assoc]
    · intro t ht
      rcases List.mem_append.mp ht with ht | ht
      · exact hbuyer t ht
      · simp only [List.mem_singleton] at ht
        subst ht
        exact htr
    · intro i hi hsell
      have hs1 : s.trader_id ≠ i := hsell _ (List.mem_append_right _ (List.mem_singleton_self _))
      have hi2 : i ≠ s.trader_id := fun hc => hs1 hc.symm
      have hi3 : i ≠ b2.trader_id := htr ▸ hi
      obtain ⟨l1, l2, l3⟩ := hledger i hi (fun t ht => hsell t (List.mem_append_left _ ht))
      rw [(buyTrade_counts m2 b2 s).1, (buyTrade_counts m2 b2 s).2, buyTrade_net_transfer,
        setAt_other _ _ hi3, setAt_other _ _ hi2, setAt_other _ _ hi2, setAt_other _ _ hi3]
      exact ⟨l1, l2, l3⟩

/-- What the loop of `handleSellOrder` leaves alone: the books and price lists of the
other stocks, and the ledger entries of every trader that is neither the seller nor
the buyer of one of its trades. -/
theorem sellLoop_isolation {fuel : Nat} {m : Market} {s : Order} {r : Market × Order}
    (h : sellLoop fuel m s = some r) :
    r.2.stock_id = s.stock_id ∧ r.2.trader_id = s.trader_id ∧
    (∀ j, j ≠ s.stock_id → r.1.buy_orders j = m.buy_orders j ∧
      r.1.sell_orders j = m.sell_orders j ∧ r.1.trade_prices j = m.trade_prices j) ∧
    ∃ tl, r.1.trade_log = m.trade_log ++ tl ∧ (∀ t ∈ tl, t.seller = s.trader_id) ∧
      ∀ i, i ≠ s.trader_id → (∀ t ∈ tl, t.buyer ≠ i) →
        r.1.trader_buy_count i = m.trader_buy_count i ∧
        r.1.trader_sell_count i = m.trader_sell_count i ∧
        r.1.trader_net_transfer i = m.trader_net_transfer i := by
  refine (sellLoop_inv
    (fun m2 s2 => s2.stock_id = s.stock_id ∧ s2.trader_id = s.trader_id ∧
      (∀ j, j ≠ s.stock_id → m2.buy_orders j = m.buy_orders j ∧
        m2.sell_orders j = m.sell_orders j ∧ m2.trade_prices j = m.trade_prices j) ∧
      ∃ tl, m2.trade_log = m.trade_log ++ tl ∧ (∀ t ∈ tl, t.seller = s.trader_id) ∧
        ∀ i, i ≠ s.trader_id → (∀ t ∈ tl, t.buyer ≠ i) →
          m2.trader_buy_count i = m.trader_buy_count i ∧
          m2.trader_sell_count i = m.trader_sell_count i ∧
          m2.trader_net_transfer i = m.trader_net_transfer i)
    ?_ fuel m s r h
    ⟨rfl, rfl, fun _ _ => ⟨rfl, rfl, rfl⟩, [], by simp, by simp,
      fun _ _ _ => ⟨rfl, rfl, rfl⟩⟩).1
  intro m2 s2 b _ _ _ ⟨hst, htr, hframe, tl, hlog, hseller, hledger⟩
  refine ⟨hst, htr, ?_, ?_⟩
  · intro j hj
    obtain ⟨f1, f2, f3⟩ := hframe j hj
    rw [sellTrade_buy_orders, sellTrade_sell_orders, sellTrade_trade_prices, hst,
      setAt_other _ _ hj, setAt_other _ _ hj]
    exact ⟨f1, f2, f3⟩
  · refine ⟨tl ++ [⟨b.trader_id, s2.trader_id, s2.stock_id, b.price,
      min b.quantity s2.quantity⟩], ?_, ?_, ?_⟩
    · rw [sellTrade_trade_log, hlog, List.append_assoc]
    · intro t ht
      rcases List.mem_append.mp ht with ht | ht
      · exact hseller t ht
      · simp only [List.mem_singleton] at ht
        subst ht
        exact htr
    · intro i hi hbuy
      have hb1 : b.trader_id ≠ i := hbuy _ (List.mem_append_right _ (List.mem_singleton_self _))
      have hi2 : i ≠ b.trader_id := fun hc => hb1 hc.symm
      have hi3 : i ≠ s2.trader_id := htr ▸ hi
      obtain ⟨l1, l2, l3⟩ := hledger i hi (fun t ht => hbuy t (List.mem_append_left _ ht))
      rw [(sellTrade_counts m2 s2 b).1, (sellTrade_counts m2 s2 b).2, sellTrade_net_transfer,
        setAt_other _ _ hi2, setAt_other _ _ hi3, setAt_other _ _ hi3, setAt_other _ _ hi2]
      exact ⟨l1, l2, l3⟩

/-- C19. Stock isolation. A call of `handleBuyOrder` (of `handleSellOrder`) with an
incoming order for stock `S` returns and leaves unchanged the bid book, the ask book
and the `trade_prices` list of every stock other than `S`, and the bought, sold and
net-transfer entries of every trader who is neither the trader of the incoming order
nor the trader of a resting order it traded with. -/
theorem C19_stock_isolation :
    (∀ (m : Market) (b : Order), ∃ m1 tl, handleBuyOrder m b = some m1 ∧
      m1.trade_log = m.trade_log ++ tl ∧
      (∀ j, j ≠ b.stock_id → m1.buy_orders j = m.buy_orders j ∧
        m1.sell_orders j = m.sell_orders j ∧ m1.trade_prices j = m.trade_prices j) ∧
      ∀ i, i ≠ b.trader_id → (∀ t ∈ tl, t.seller ≠ i) →
        m1.trader_buy_count i = m.trader_buy_count i ∧
        m1.trader_sell_count i = m.trader_sell_count i ∧
        m1.trader_net_transfer i = m.trader_net_transfer i) ∧
    (∀ (m : Market) (s : Order), ∃ m1 tl, handleSellOrder m s = some m1 ∧
      m1.trade_log = m.trade_log ++ tl ∧
      (∀ j, j ≠ s.stock_id → m1.buy_orders j = m.buy_orders j ∧
        m1.sell_orders j = m.sell_orders j ∧ m1.trade_prices j = m.trade_prices j) ∧
      ∀ i, i ≠ s.trader_id → (∀ t ∈ tl, t.buyer ≠ i) →
        m1.trader_buy_count i = m.trader_buy_count i ∧
        m1.trader_sell_count i = m.trader_sell_count i ∧
        m1.trader_net_transfer i = m.trader_net_transfer i) := by
  constructor
  · intro m b
    obtain ⟨r, hr⟩ := buyLoop_total ((m.sell_orders b.stock_id).length + 1) m b
      (Or.inl (by omega))
    obtain ⟨hst, _, hframe, tl, hlog, _, hledger⟩ := buyLoop_isolation hr
    obtain ⟨m2, b2⟩ := r
    dsimp only at hst hframe hlog hledger
    unfold handleBuyOrder
    rw [hr]
    dsimp only
    split
    · refine ⟨_, tl, rfl, hlog, ?_, hledger⟩
      intro j hj
      obtain ⟨f1, f2, f3⟩ := hframe j hj
      dsimp only
      rw [hst, setAt_other _ _ hj]
      exact ⟨f1, f2, f3⟩
    · exact ⟨_, tl, rfl, hlog, hframe, hledger⟩
  · intro m s
    obtain ⟨r, hr⟩ := sellLoop_total ((m.buy_orders s.stock_id).length + 1) m s
      (Or.inl (by omega))
    obtain ⟨hst, _, hframe, tl, hlog, _, hledger⟩ := sellLoop_isolation hr
    obtain ⟨m2, s2⟩ := r
    dsimp only at hst hframe hlog hledger
    unfold handleSellOrder
    rw [hr]
    dsimp only
    split
    · refine ⟨_, tl, rfl, hlog, ?_, hledger⟩
      intro j hj
      obtain ⟨f1, f2, f3⟩ := hframe j hj
      dsimp only
      rw [hst, setAt_other _ _ hj]
      exact ⟨f1, f2, f3⟩
    · exact ⟨_, tl, rfl, hlog, hframe, hledger⟩

set_option maxRecDepth 4000 in
/-- C19 on a state with asks in stocks 0 and 1 and an incoming buy for stock 0 from
trader 1: the trade is made with trader 0, the ask of stock 1 stays, and trader 2
keeps its entries. -/
theorem C19_stock_isolation_witness :
    (handleBuyOrder
        { Market.init 3 2 false false false false with
          sell_orders := fun j =>
            if j = 0 then [⟨1, "SELL", 0, 0, 10, 5⟩] else [⟨1, "SELL", 2, 1, 10, 5⟩]
          trader_sell_count := fun i => if i = 2 then 9 else 0 }
        ⟨2, "BUY", 1, 0, 12, 3⟩).map
      (fun m => (m.trade_log, m.sell_orders 1, m.trader_sell_count 2, m.trader_sell_count 0)) =
      some ([⟨1, 0, 0, 10, 3⟩], [⟨1, "SELL", 2, 1, 10, 5⟩], 9, 3) ∧
    ∃ m1 tl, handleBuyOrder
        { Market.init 3 2 false false false false with
          sell_orders := fun j =>
            if j = 0 then [⟨1, "SELL", 0, 0, 10, 5⟩] else [⟨1, "SELL", 2, 1, 10, 5⟩]
          trader_sell_count := fun i => if i = 2 then 9 else 0 }
        ⟨2, "BUY", 1, 0, 12, 3⟩ = some m1 ∧
      m1.trade_log = [] ++ tl ∧
      (∀ j, j ≠ 0 → m1.buy_orders j = [] ∧
        m1.sell_orders j = (if j = 0 then [⟨1, "SELL", 0, 0, 10, 5⟩]
          else [⟨1, "SELL", 2, 1, 10, 5⟩]) ∧ m1.trade_prices j = []) ∧
      ∀ i, i ≠ 1 → (∀ t ∈ tl, t.seller ≠ i) →
        m1.trader_buy_count i = 0 ∧
        m1.trader_sell_count i = (if i = 2 then 9 else 0) ∧
        m1.trader_net_transfer i = 0 :=
  ⟨by decide,
   C19_stock_isolation.1
     { Market.init 3 2 false false false false with
       sell_orders := fun j =>
         if j = 0 then [⟨1, "SELL", 0, 0, 10, 5⟩] else [⟨1, "SELL", 2, 1, 10, 5⟩]
       trader_sell_count := fun i => if i = 2 then 9 else 0 }
     ⟨2, "BUY", 1, 0, 12, 3⟩⟩

/-! ## C20: the price walk -/

/-- The trade prices of one run of the loop of `handleBuyOrder` never decrease. -/
theorem buyLoop_monotone {fuel : Nat} {m : Market} {b : Order} {r : Market × Order}
    (h : buyLoop fuel m b = some r) :
    ∃ tl, r.1.trade_log = m.trade_log ++ tl ∧
      (tl.map (fun t => t.price)).Pairwise (fun p q => p ≤ q) := by
  have key := (buyLoop_inv
    (fun m2 b2 => b2.stock_id = b.stock_id ∧
      ∃ tl, m2.trade_log = m.trade_log ++ tl ∧
        (tl.map (fun t => t.price)).Pairwise (fun p q => p ≤ q) ∧
        ∀ t ∈ tl, ∀ a ∈ m2.sell_orders b.stock_id, t.price ≤ a.price)
    ?_ fuel m b r h ⟨rfl, [], by simp, by simp, by simp⟩).1
  · obtain ⟨_, tl, h1, h2, _⟩ := key
    exact ⟨tl, h1, h2⟩
  · intro m2 b2 s _ hs _ ⟨hst, tl, hlog, hpw, hbelow⟩
    rw [hst] at hs
    refine ⟨hst, tl ++ [⟨b2.trader_id, s.trader_id, b2.stock_id, s.price,
      min s.quantity b2.quantity⟩], ?_, ?_, ?_⟩
    · rw [buyTrade_trade_log, hlog, List.append_assoc]
    · rw [List.map_append, List.pairwise_append]
      refine ⟨hpw, by simp, ?_⟩
      intro p hp q hq
      simp only [List.map_cons, List.map_nil, List.mem_singleton] at hq
      subst hq
      obtain ⟨t, ht, rfl⟩ := List.mem_map.mp hp
      exact hbelow t ht s (pqTop_mem hs)
    · intro t ht a ha
      have hsa : s.price ≤ a.price := by
        rcases mem_buyTrade_sell_orders ha with ha | ha
        · have := pqTop_sell_spec hs a ha
          omega
        · rw [ha]
      rcases List.mem_append.mp ht with ht | ht
      · exact Nat.le_trans (hbelow t ht s (pqTop_mem hs)) hsa
      · simp only [List.mem_singleton] at ht
        subst ht
        exact hsa

/-- The trade prices of one run of the loop of `handleSellOrder` never increase. -/
theorem sellLoop_monotone {fuel : Nat} {m : Market} {s : Order} {r : Market × Order}
    (h : sellLoop fuel m s = some r) :
    ∃ tl, r.1.trade_log = m.trade_log ++ tl ∧
      (tl.map (fun t => t.price)).Pairwise (fun p q => p ≥ q) := by
  have key := (sellLoop_inv
    (fun m2 s2 => s2.stock_id = s.stock_id ∧
      ∃ tl, m2.trade_log = m.trade_log ++ tl ∧
        (tl.map (fun t => t.price)).Pairwise (fun p q => p ≥ q) ∧
        ∀ t ∈ tl, ∀ a ∈ m2.buy_orders s.stock_id, t.price ≥ a.price)
    ?_ fuel m s r h ⟨rfl, [], by simp, by simp, by simp⟩).1
  · obtain ⟨_, tl, h1, h2, _⟩ := key
    exact ⟨tl, h1, h2⟩
  · intro m2 s2 b _ hb _ ⟨hst, tl, hlog, hpw, habove⟩
    rw [hst] at hb
    refine ⟨hst, tl ++ [⟨b.trader_id, s2.trader_id, s2.stock_id, b.price,
      min b.quantity s2.quantity⟩], ?_, ?_, ?_⟩
    · rw [sellTrade_trade_log, hlog, List.append_assoc]
    · rw [List.map_append, List.pairwise_append]
      refine ⟨hpw, by simp, ?_⟩
      intro p hp q hq
      simp only [List.map_cons, List.map_nil, List.mem_singleton] at hq
      subst hq
      obtain ⟨t, ht, rfl⟩ := List.mem_map.mp hp
      exact habove t ht b (pqTop_mem hb)
    · intro t ht a ha
      have hba : b.price ≥ a.price := by
        rcases mem_sellTrade_buy_orders ha with ha | ha
        · have := pqTop_buy_spec hb a ha
          omega
        · rw [ha]
      rcases List.mem_append.mp ht with ht | ht
      · exact Nat.le_trans hba (habove t ht b (pqTop_mem hb))
      · simp only [List.mem_singleton] at ht
        subst ht
        exact hba

/-- C20. Monotone price walk. For every state and every incoming order, the call
returns, and the prices of the trades of the call, in the order of execution (the
prices it appends to `trade_prices` of the stock), are non-decreasing for
`handleBuyOrder` and non-increasing for `handleSellOrder`. -/
theorem C20_monotone_price_walk :
    (∀ (m : Market) (b : Order), ∃ m1 tl, handleBuyOrder m b = some m1 ∧
      m1.trade_log = m.trade_log ++ tl ∧
      m1.trade_prices b.stock_id = m.trade_prices b.stock_id ++ tl.map (fun t => t.price) ∧
      (tl.map (fun t => t.price)).Pairwise (fun p q => p ≤ q)) ∧
    (∀ (m : Market) (s : Order), ∃ m1 tl, handleSellOrder m s = some m1 ∧
      m1.trade_log = m.trade_log ++ tl ∧
      m1.trade_prices s.stock_id = m.trade_prices s.stock_id ++ tl.map (fun t => t.price) ∧
      (tl.map (fun t => t.price)).Pairwise (fun p q => p ≥ q)) := by
  constructor
  · intro m b
    obtain ⟨m1, hm1⟩ := handleBuyOrder_total m b
    obtain ⟨r, hr, hlog, hprices, _⟩ := handleBuyOrder_loop hm1
    obtain ⟨tl, h1, h2⟩ := buyLoop_monotone hr
    obtain ⟨tl2, g1, g2, _⟩ := buyLoop_prices hr
    have : tl2 = tl := by
      rw [h1] at g1
      exact (List.append_cancel_left g1).symm
    subst this
    exact ⟨m1, tl2, hm1, hlog.trans h1, by rw [hprices]; exact g2, h2⟩
  · intro m s
    obtain ⟨m1, hm1⟩ := handleSellOrder_total m s
    obtain ⟨r, hr, hlog, hprices, _⟩ := handleSellOrder_loop hm1
    obtain ⟨tl, h1, h2⟩ := sellLoop_monotone hr
    obtain ⟨tl2, g1, g2, _⟩ := sellLoop_prices hr
    have : tl2 = tl := by
      rw [h1] at g1
      exact (List.append_cancel_left g1).symm
    subst this
    exact ⟨m1, tl2, hm1, hlog.trans h1, by rw [hprices]; exact g2, h2⟩

/-- C20 on a book with asks at 11, 10 and 12 (in this order of insertion) and an
incoming buy of 12 shares at 12: the trades are made at 10, 11 and 12. -/
theorem C20_monotone_price_walk_witness :
    (handleBuyOrder
        { Market.init 4 1 false false false false with
          sell_orders := fun _ =>
            [⟨1, "SELL", 0, 0, 11, 5⟩, ⟨2, "SELL", 2, 0, 10, 5⟩, ⟨3, "SELL", 3, 0, 12, 5⟩] }
        ⟨4, "BUY", 1, 0, 12, 12⟩).map (fun m => m.trade_prices 0) = some [10, 11, 12] ∧
    ∃ m1 tl, handleBuyOrder
        { Market.init 4 1 false false false false with
          sell_orders := fun _ =>
            [⟨1, "SELL", 0, 0, 11, 5⟩, ⟨2, "SELL", 2, 0, 10, 5⟩, ⟨3, "SELL", 3, 0, 12, 5⟩] }
        ⟨4, "BUY", 1, 0, 12, 12⟩ = some m1 ∧
      m1.trade_log = [] ++ tl ∧
      m1.trade_prices 0 = [] ++ tl.map (fun t => t.price) ∧
      (tl.map (fun t => t.price)).Pairwise (fun p q => p ≤ q) :=
  ⟨by decide,
   C20_monotone_price_walk.1
     { Market.init 4 1 false false false false with
       sell_orders := fun _ =>
         [⟨1, "SELL", 0, 0, 11, 5⟩, ⟨2, "SELL", 2, 0, 10, 5⟩, ⟨3, "SELL", 3, 0, 12, 5⟩] }
     ⟨4, "BUY", 1, 0, 12, 12⟩⟩

end StockTrading
